import Mathlib

/-!
# json-cpp: parser and serializer of `src/main.cpp`

A shallow embedding of the `json_value` data model, of `json_serializer` and of
`JsonParser` (the class of the parser), followed by the properties established about them.

Conventions of the embedding.

* The input buffer `m_raw_data` is a `List Char`, one `Char` per byte.
* Positions are the `int` variables of the source, held as unbounded naturals; this is
  exact for every buffer shorter than `2^31` bytes.  `std::string::npos` is `none`.
* A thrown `std::runtime_error` / `std::out_of_range` is the `fail` outcome.
* The recursive routines take a fuel argument that bounds the depth of the call chain;
  `outOfFuel` is not a behaviour of the program, and `JsonParser.parse` supplies enough
  fuel for every buffer.
* `std::unordered_map` keeps unique keys and leaves the iteration order unspecified: an
  object is the list of its entries in iteration order, and the place a fresh key takes
  in that order is a parameter (`Container`).
* `ostream << double` is the platform's number formatting: a parameter `fmt` of the
  serializer.
-/

/-! ## Data model -/

/-- IEEE-754 binary64 datum held by a C++ `double`: a finite value is
`(-1)^neg * mant * 2^exp`. Values produced by `std.stod` have `mant` odd (or are `0`). -/
inductive double where
  | finite (neg : Bool) (mant : Nat) (exp : Int) : double
  | inf (neg : Bool) : double
  | nan : double
deriving DecidableEq, Repr

/-- The type `json_name` of the source: `std::string`. -/
abbrev json_name := List Char

/-- The variant `json_value` of the source, with `json_array` and `json_object` (wrapper
structs around a vector and a map) inlined as the lists they wrap. -/
inductive json_value where
  | null : json_value
  | bool (b : Bool) : json_value
  | number (d : double) : json_value
  | string (s : List Char) : json_value
  | array (data : List json_value) : json_value
  | object (data : List (json_name × json_value)) : json_value
deriving Repr

/-- A default-constructed variant holds its first alternative, `nullptr`. -/
instance : Inhabited json_value := ⟨json_value.null⟩

/-- The struct `json_array`: `std::vector<json_value>`. -/
abbrev json_array := List json_value

/-- The struct `json_object`: the entries of the `std::unordered_map`, in iteration order. -/
abbrev json_object := List (json_name × json_value)

/-- What the hash table does with a key that is not yet present: the new entry lands
somewhere in the iteration order, which may be rearranged as a whole (rehash). -/
structure Container where
  place : json_object → json_name × json_value → json_object
  place_perm : ∀ m e, (place m e).Perm (e :: m)

/-- A container that iterates in insertion order. -/
def Container.insertionOrder : Container where
  place m e := m ++ [e]
  place_perm m e := by
    simp

/-- A container that iterates most recent entry first. -/
def Container.newestFirst : Container where
  place m e := e :: m
  place_perm _ _ := List.Perm.refl _

/-- Semantics of `unordered_map::emplace` and of `unordered_map::insert`: a key already
present keeps its entry, otherwise the pair is added. -/
def Container.emplace (C : Container) (m : json_object) (k : json_name) (v : json_value) :
    json_object :=
  if m.any (fun e => e.1 == k) then m else C.place m (k, v)

/-! ## `std::stod`

The numeric conversion of the C++ standard library (`strtod`, C locale, round to nearest,
ties to even), for a subject sequence that begins with a digit: that is the only way
`parse_value` calls it. Leading white space, a sign, `inf` and `nan` are therefore not
reproduced. -/

namespace std

/-- The two exceptions of `std::stod`. -/
inductive stod_error where
  | invalid_argument : stod_error
  | out_of_range : stod_error
deriving DecidableEq, Repr

/-- A hexadecimal digit. -/
def isHexDigit (c : Char) : Bool :=
  c.isDigit || ('a' ≤ c && c ≤ 'f') || ('A' ≤ c && c ≤ 'F')

/-- Value of a decimal or hexadecimal digit. -/
def digitVal (c : Char) : Nat :=
  if c.isDigit then c.toNat - 48
  else if 'a' ≤ c ∧ c ≤ 'f' then c.toNat - 87
  else c.toNat - 55

/-- Value of a digit string in the given base. -/
def digitsVal (base : Nat) (ds : List Char) : Nat :=
  ds.foldl (fun acc c => base * acc + digitVal c) 0

/-- An exponent part: the marker (`e`/`E` or `p`/`P`), an optional sign and at least one
decimal digit. Returns the exponent and the number of bytes it takes, `(0, 0)` when the
text does not start with a complete exponent part. -/
def lexExponent (marker : Char → Bool) (w : List Char) : Int × Nat :=
  match w with
  | [] => (0, 0)
  | m :: r =>
    if marker m then
      match r with
      | '+' :: t =>
        let ds := t.takeWhile Char.isDigit
        if ds.isEmpty then (0, 0) else (Int.ofNat (digitsVal 10 ds), 2 + ds.length)
      | '-' :: t =>
        let ds := t.takeWhile Char.isDigit
        if ds.isEmpty then (0, 0) else (- Int.ofNat (digitsVal 10 ds), 2 + ds.length)
      | _ =>
        let ds := r.takeWhile Char.isDigit
        if ds.isEmpty then (0, 0) else (Int.ofNat (digitsVal 10 ds), 1 + ds.length)
    else (0, 0)

/-- A lexed floating literal: the digits of the significand as a natural number, the
exponent of the base (10, or 2 for a hexadecimal literal) and the bytes consumed. -/
structure Literal where
  mant : Nat
  exp : Int
  len : Nat
deriving DecidableEq, Repr

/-- Longest prefix `digits [. digits] [exponent]` with at least one digit. -/
def lexFloat (isDig : Char → Bool) (base : Nat) (perDigit : Nat) (marker : Char → Bool)
    (w : List Char) : Option Literal :=
  let ip := w.takeWhile isDig
  match w.drop ip.length with
  | '.' :: t =>
    let fp := t.takeWhile isDig
    if ip.isEmpty && fp.isEmpty then none
    else
      let e := lexExponent marker (t.drop fp.length)
      some ⟨digitsVal base (ip ++ fp), e.1 - Int.ofNat (perDigit * fp.length),
        ip.length + 1 + fp.length + e.2⟩
  | r1 =>
    if ip.isEmpty then none
    else
      let e := lexExponent marker r1
      some ⟨digitsVal base ip, e.1, ip.length + e.2⟩

/-- Number of halvings that bring `n` below 2, by recursion on a bound. -/
def log2Aux : Nat → Nat → Nat
  | 0, _ => 0
  | f + 1, n => if 2 ≤ n then log2Aux f (n / 2) + 1 else 0

/-- Index of the leading bit of `n`. -/
def log2 (n : Nat) : Nat := log2Aux n n

/-- Number of trailing zero bits of `n`, by recursion on a bound. -/
def trailingZeros : Nat → Nat → Nat
  | 0, _ => 0
  | f + 1, n => if n % 2 = 0 ∧ n ≠ 0 then trailingZeros f (n / 2) + 1 else 0

/-- The finite double `m * 2^e`, written with an odd significand. -/
def canonical (m : Nat) (e : Int) : double :=
  if m = 0 then double.finite false 0 0
  else
    let tz := trailingZeros m m
    double.finite false (m / 2 ^ tz) (e + Int.ofNat tz)

/-- The integer `e` with `2^e ≤ num / den < 2^(e+1)`, for `num, den > 0`. -/
def floorLog2 (num den : Nat) : Int :=
  let e0 : Int := Int.ofNat (log2 num) - Int.ofNat (log2 den)
  let le : Bool := if 0 ≤ e0 then den * 2 ^ e0.toNat ≤ num else den ≤ num * 2 ^ (-e0).toNat
  if le then e0 else e0 - 1

/-- Round the positive rational `num / den` to binary64 (nearest, ties to even);
`none` stands for `ERANGE`: overflow, or a result that is tiny and inexact. -/
def roundBinary64 (num den : Nat) : Option double :=
  let e := floorLog2 num den
  let u : Int := max (e - 52) (-1074)
  let n' := if 0 ≤ u then num else num * 2 ^ (-u).toNat
  let d' := if 0 ≤ u then den * 2 ^ u.toNat else den
  let q := n' / d'
  let r := n' % d'
  let m := if d' < 2 * r ∨ (2 * r = d' ∧ q % 2 = 1) then q + 1 else q
  if e < -1022 ∧ r ≠ 0 then none
  else if 971 < u ∨ (u = 971 ∧ m = 2 ^ 53) then none
  else some (canonical m u)

/-- The double denoted by `mant * base^exp` (`base` is 2 or 10), or `none` for `ERANGE`.
The first two tests on `exp` answer without computing the power when the value is above
`2^1100` or below `2^(-1099)`. -/
def toDouble (base : Nat) (mant : Nat) (exp : Int) : Option double :=
  if mant = 0 then some (double.finite false 0 0)
  else if 1100 < exp then none
  else if Int.ofNat (log2 mant) + 1100 < -exp then none
  else if 0 ≤ exp then roundBinary64 (mant * base ^ exp.toNat) 1
  else roundBinary64 mant (base ^ (-exp).toNat)

/-- A hexadecimal floating literal: `0x` or `0X` followed by hexadecimal digits, an
optional fraction and an optional binary exponent. -/
def lexHex (w : List Char) : Option Literal :=
  match w with
  | '0' :: x :: t =>
    if x == 'x' || x == 'X' then
      (lexFloat isHexDigit 16 4 (fun c => c == 'p' || c == 'P') t).map
        (fun l => ⟨l.mant, l.exp, l.len + 2⟩)
    else none
  | _ => none

/-- Model of `std::stod(w, &pos)`: the value of the longest prefix of `w` that is a
floating literal and the number of bytes of that prefix. -/
def stod (w : List Char) : Except stod_error (double × Nat) :=
  match lexHex w with
  | some l =>
    match toDouble 2 l.mant l.exp with
    | some d => .ok (d, l.len)
    | none => .error .out_of_range
  | none =>
    match lexFloat Char.isDigit 10 1 (fun c => c == 'e' || c == 'E') w with
    | none => .error .invalid_argument
    | some l =>
      match toDouble 10 l.mant l.exp with
      | some d => .ok (d, l.len)
      | none => .error .out_of_range

end std

/-! ## Serializer -/

namespace json_serializer

/-- The loop of `operator()(const json_array&)` from its `n`-th round on: `pieces` are the
renderings of the elements still to be visited, `size` is `arr.data.size()`. Each round
appends the rendering, increments `n` and appends a comma when `n < size`. -/
def array_loop (size : Nat) : List (List Char) → Nat → List Char
  | [], _ => []
  | p :: ps, n => p ++ ((if n + 1 < size then [','] else []) ++ array_loop size ps (n + 1))

/-- The loop of `operator()(const json_object&)` from its `n`-th round on: each round
appends `"key":` and the rendering of the value, increments `n` and appends a comma when
`n < size`. -/
def object_loop (size : Nat) : List (json_name × List Char) → Nat → List Char
  | [], _ => []
  | p :: ps, n =>
    ('"' :: p.1 ++ '"' :: ':' :: p.2) ++
      ((if n + 1 < size then [','] else []) ++ object_loop size ps (n + 1))

mutual
/-- The visitor `std::visit(ser, v)`: the text the six `operator()` overloads write to
`obuf`; `fmt` is `ostream << double`. -/
def visit (fmt : double → List Char) : json_value → List Char
  | .null => ['n', 'u', 'l', 'l']
  | .bool b => if b then ['t', 'r', 'u', 'e'] else ['f', 'a', 'l', 's', 'e']
  | .number d => fmt d
  | .string s => '"' :: s ++ ['"']
  | .array data =>
    if data.isEmpty then ['[', ']']
    else '[' :: array_loop data.length (visit_elements fmt data) 0 ++ [']']
  | .object data =>
    if data.isEmpty then ['{', '}']
    else '{' :: object_loop data.length (visit_entries fmt data) 0 ++ ['}']
/-- The nested serializer run on every element of a vector (`ser.obuf.str()`). -/
def visit_elements (fmt : double → List Char) : List json_value → List (List Char)
  | [] => []
  | x :: xs => visit fmt x :: visit_elements fmt xs
/-- The nested serializer run on every entry of a map, with the key kept. -/
def visit_entries (fmt : double → List Char) :
    List (json_name × json_value) → List (json_name × List Char)
  | [] => []
  | e :: es => (e.1, visit fmt e.2) :: visit_entries fmt es
end

/-- The function `json_serializer::serialize`. -/
def serialize (fmt : double → List Char) (obj : json_object) : List Char :=
  visit fmt (.object obj)

mutual
/-- Reference rendering of the specification, by recursion on the value: literals for
`Null` and `Boolean`, the given number formatting, strings between quotes with their bytes
verbatim, `[]` / `{}` for empty containers, and otherwise the pieces joined by single
commas between the brackets. -/
def render (fmt : double → List Char) : json_value → List Char
  | .null => "null".toList
  | .bool b => if b then "true".toList else "false".toList
  | .number d => fmt d
  | .string s => "\"".toList ++ s ++ "\"".toList
  | .array data =>
    if data.isEmpty then "[]".toList
    else "[".toList ++ List.intercalate ",".toList (render_elements fmt data) ++ "]".toList
  | .object data =>
    if data.isEmpty then "\x7b\x7d".toList
    else "\x7b".toList ++ List.intercalate ",".toList (render_entries fmt data) ++ "\x7d".toList
/-- The renderings of the elements of an array, in stored order. -/
def render_elements (fmt : double → List Char) : List json_value → List (List Char)
  | [] => []
  | x :: xs => render fmt x :: render_elements fmt xs
/-- The renderings `"key":value` of the entries of an object, in iteration order. -/
def render_entries (fmt : double → List Char) :
    List (json_name × json_value) → List (List Char)
  | [] => []
  | e :: es => ("\"".toList ++ e.1 ++ "\":".toList ++ render fmt e.2) :: render_entries fmt es
end

end json_serializer

/-! ## Parser -/

/-- The messages of the exceptions the parser throws. -/
inductive parse_error where
  /-- Message "improperly-closed object; unmatched curly braces". -/
  | unmatched_curly : parse_error
  /-- Message "improperly-closed object; unmatched square braces". -/
  | unmatched_square : parse_error
  /-- Message "improperly-delimited formatted object element; name and value must be
  separated by \":\"". -/
  | missing_colon : parse_error
  /-- Message "string not properly closed with double-quotes". -/
  | unterminated_string : parse_error
  /-- Message "failed to parse value, suspected null value". -/
  | bad_null : parse_error
  /-- Message "failed to parse value, suspected boolean \"true\"". -/
  | bad_true : parse_error
  /-- Message "failed to parse value, suspected boolean \"false\"". -/
  | bad_false : parse_error
  /-- An exception of `std::stod` passing through `parse_value`. -/
  | stod (e : std.stod_error) : parse_error
deriving DecidableEq, Repr

/-- The error kinds of the specification. -/
inductive ErrorKind where
  | UnmatchedBrace | MissingColon | UnterminatedString | BadLiteral | NumericConversionError
deriving DecidableEq, Repr

/-- The kind of each exception. -/
def parse_error.kind : parse_error → ErrorKind
  | .unmatched_curly => .UnmatchedBrace
  | .unmatched_square => .UnmatchedBrace
  | .missing_colon => .MissingColon
  | .unterminated_string => .UnterminatedString
  | .bad_null => .BadLiteral
  | .bad_true => .BadLiteral
  | .bad_false => .BadLiteral
  | .stod _ => .NumericConversionError

/-- Outcome of a parsing routine: a returned value, a thrown exception, or the fuel of the
embedding used up. -/
inductive Result (α : Type) where
  | ok (a : α) : Result α
  | fail (e : parse_error) : Result α
  | outOfFuel : Result α
deriving Repr

namespace JsonParser

/-- First index `i >= pos` of the buffer whose byte satisfies `p`, where `w` is the buffer
from `pos` on. -/
def findFrom (p : Char → Bool) : List Char → Nat → Option Nat
  | [], _ => none
  | x :: xs, i => if p x then some i else findFrom p xs (i + 1)

/-- The call `m_raw_data.find(c, pos)` for a one-byte needle. -/
def find (s : List Char) (c : Char) (pos : Nat) : Option Nat :=
  findFrom (fun x => x == c) (s.drop pos) pos

/-- The call `m_raw_data.substr(pos, n)`. -/
def substr (s : List Char) (pos n : Nat) : List Char :=
  (s.drop pos).take n

/-- The function `parse_string`: returns the string and the new `rpos`. -/
def parse_string (s : List Char) (pos : Nat) : Result (List Char × Nat) :=
  match find s '"' pos with
  | none => .fail .unterminated_string
  | some b =>
    let begin := b + 1
    match find s '"' begin with
    | none => .fail .unterminated_string
    | some r =>
      let rpos := r + 1
      .ok (substr s begin (rpos - 1 - begin), rpos)

/-- The bracket-matching loop of `parse_object` (`open` is `{`) and `parse_array` (`open`
is `[`): `w` is the buffer from `tmp` on and `count` is `brace_count` on entry. Returns
the `tmp` at which the loop breaks, `none` when the end of the buffer is reached. -/
def match_close (open_ close : Char) : List Char → Nat → Nat → Option Nat
  | [], _, _ => none
  | x :: xs, tmp, count =>
    let count' := if x == open_ then count + 1 else if x == close then count - 1 else count
    if count' = 0 then some tmp else match_close open_ close xs (tmp + 1) count'

/-- The bytes `parse_value` dispatches on. -/
def is_marker (c : Char) : Bool :=
  c == '{' || c == '[' || c == '"' || ('0' ≤ c && c ≤ '9') || c == 'n' || c == 't' || c == 'f'

/-- The scan of `parse_value` for the first marker byte: its index and the byte. -/
def find_marker : List Char → Nat → Option (Nat × Char)
  | [], _ => none
  | x :: xs, i => if is_marker x then some (i, x) else find_marker xs (i + 1)

mutual
/-- The function `parse_object`: returns the object and the new `rpos`. -/
def parse_object (C : Container) : Nat → List Char → Nat → Result (json_object × Nat)
  | 0, _, _ => .outOfFuel
  | fuel + 1, s, pos =>
    match find s '{' pos with
    | none => .fail .unmatched_curly
    | some b =>
      let cursor := b + 1
      match match_close '{' '}' (s.drop cursor) cursor 1 with
      | none => .fail .unmatched_curly
      | some tmp =>
        let rpos := tmp + 1
        match object_loop C fuel s rpos cursor [] with
        | .ok out => .ok (out, rpos)
        | .fail e => .fail e
        | .outOfFuel => .outOfFuel
/-- The `while (cursor < rpos-1)` loop of `parse_object`, with the object built so far. -/
def object_loop (C : Container) : Nat → List Char → Nat → Nat → json_object →
    Result json_object
  | 0, _, _, _, _ => .outOfFuel
  | fuel + 1, s, rpos, cursor, out =>
    if cursor < rpos - 1 then
      match parse_string s cursor with
      | .outOfFuel => .outOfFuel
      | .fail e => .fail e
      | .ok (tmp_name, tmp) =>
        match find s ':' tmp with
        | none => .fail .missing_colon
        | some colon =>
          match parse_value C fuel s (colon + 1) (rpos - 1) with
          | .outOfFuel => .outOfFuel
          | .fail e => .fail e
          | .ok (tmp_value, tmp) =>
            let out := C.emplace out tmp_name tmp_value
            match find s ',' tmp with
            | none => .ok out
            | some comma => object_loop C fuel s rpos (comma + 1) out
    else .ok out
/-- The function `parse_array`: returns the array and the new `rpos`. -/
def parse_array (C : Container) : Nat → List Char → Nat → Result (json_array × Nat)
  | 0, _, _ => .outOfFuel
  | fuel + 1, s, pos =>
    match find s '[' pos with
    | none => .fail .unmatched_square
    | some b =>
      let cursor := b + 1
      match match_close '[' ']' (s.drop cursor) cursor 1 with
      | none => .fail .unmatched_square
      | some tmp =>
        let rpos := tmp + 1
        match array_loop C fuel s rpos cursor [] with
        | .ok out => .ok (out, rpos)
        | .fail e => .fail e
        | .outOfFuel => .outOfFuel
/-- The `while (cursor < rpos-1)` loop of `parse_array`, with the array built so far. -/
def array_loop (C : Container) : Nat → List Char → Nat → Nat → json_array →
    Result json_array
  | 0, _, _, _, _ => .outOfFuel
  | fuel + 1, s, rpos, cursor, out =>
    if cursor < rpos - 1 then
      match parse_value C fuel s cursor (rpos - 1) with
      | .outOfFuel => .outOfFuel
      | .fail e => .fail e
      | .ok (tmp_value, tmp) =>
        let out := out ++ [tmp_value]
        match find s ',' tmp with
        | none => .ok out
        | some comma => array_loop C fuel s rpos (comma + 1) out
    else .ok out
/-- The function `parse_value`: `rpos` is the in/out parameter, returned with the value. -/
def parse_value (C : Container) : Nat → List Char → Nat → Nat → Result (json_value × Nat)
  | 0, _, _, _ => .outOfFuel
  | fuel + 1, s, pos, rpos =>
    match find_marker (s.drop pos) pos with
    | none => .ok (.null, rpos)
    | some (i, c) =>
      if c == '{' then
        match parse_object C fuel s i with
        | .ok (o, r) => .ok (.object o, r)
        | .fail e => .fail e
        | .outOfFuel => .outOfFuel
      else if c == '[' then
        match parse_array C fuel s i with
        | .ok (a, r) => .ok (.array a, r)
        | .fail e => .fail e
        | .outOfFuel => .outOfFuel
      else if c == '"' then
        match parse_string s i with
        | .ok (str, r) => .ok (.string str, r)
        | .fail e => .fail e
        | .outOfFuel => .outOfFuel
      else if '0' ≤ c && c ≤ '9' then
        match std.stod (substr s i 16) with
        | .ok (d, stod_pos) => .ok (.number d, i + stod_pos)
        | .error e => .fail (.stod e)
      else if c == 'n' then
        if s.length < i + 4 || substr s i 4 != ['n', 'u', 'l', 'l'] then .fail .bad_null
        else .ok (.null, i + 4)
      else if c == 't' then
        if s.length < i + 4 || substr s i 4 != ['t', 'r', 'u', 'e'] then .fail .bad_true
        else .ok (.bool true, i + 4)
      else
        if s.length < i + 5 || substr s i 5 != ['f', 'a', 'l', 's', 'e'] then .fail .bad_false
        else .ok (.bool false, i + 5)
end

/-- The top-level scan of `parse()` for a `[`: `w` is the buffer from `i` on. -/
def has_bracket : List Char → Bool
  | [] => false
  | x :: xs => if x == '[' then true else has_bracket xs

/-- Fuel that covers every call chain on the buffer `s`: each call costs one unit and
three nested calls advance the position by at least one byte. -/
def fuel (s : List Char) : Nat := 3 * s.length + 3

/-- The function `parse()` followed by `get()`, on a freshly constructed parser (whose
`m_obj` is empty). -/
def parse (C : Container) (s : List Char) : Result json_object :=
  if has_bracket s then
    match parse_array C (fuel s) s 0 with
    | .ok (a, _) => .ok (C.emplace [] [] (.array a))
    | .fail e => .fail e
    | .outOfFuel => .outOfFuel
  else
    match parse_object C (fuel s) s 0 with
    | .ok (o, _) => .ok o
    | .fail e => .fail e
    | .outOfFuel => .outOfFuel

/-- The index `q` is the first one at or after `pos` that holds the byte `c`. -/
def FirstAt (s : List Char) (c : Char) (pos q : Nat) : Prop :=
  pos ≤ q ∧ s[q]? = some c ∧ ∀ j, pos ≤ j → j < q → s[j]? ≠ some c

/-- Nesting counter of the specification once the byte at index `j` has been read: it
starts at 1 just after the opening bracket at index `i`, goes up by one on every `open_`
and down by one on every `close` among the bytes at `i+1 .. j`. -/
def nesting (open_ close : Char) (s : List Char) (i j : Nat) : Int :=
  1 + Int.ofNat ((substr s (i + 1) (j - i)).count open_)
    - Int.ofNat ((substr s (i + 1) (j - i)).count close)

/-- The routine `parse_object` with the fuel that covers the buffer from `pos` on. -/
def object_at (C : Container) (s : List Char) (pos : Nat) : Result (json_object × Nat) :=
  parse_object C (3 * (s.length - pos) + 2) s pos

/-- The element loop of `parse_object` with the fuel that covers the buffer from `cursor`
on. -/
def object_loop_at (C : Container) (s : List Char) (rpos cursor : Nat) (out : json_object) :
    Result json_object :=
  object_loop C (3 * (s.length - cursor) + 4) s rpos cursor out

/-- The routine `parse_array` with the fuel that covers the buffer from `pos` on. -/
def array_at (C : Container) (s : List Char) (pos : Nat) : Result (json_array × Nat) :=
  parse_array C (3 * (s.length - pos) + 2) s pos

/-- The element loop of `parse_array` with the fuel that covers the buffer from `cursor`
on. -/
def array_loop_at (C : Container) (s : List Char) (rpos cursor : Nat) (out : json_array) :
    Result json_array :=
  array_loop C (3 * (s.length - cursor) + 4) s rpos cursor out

/-- The routine `parse_value` with the fuel that covers the buffer from `pos` on. -/
def value_at (C : Container) (s : List Char) (pos rpos : Nat) : Result (json_value × Nat) :=
  parse_value C (3 * (s.length - pos) + 3) s pos rpos

end JsonParser

/-! ## Documents

Texts on which the parser is followed symbolically: a document is a tree whose text is
laid out without white space, as the serializer does. -/

/-- The double whose value is the natural number `n`; a genuine binary64 value for
`n < 2^53`. -/
def std.exact (n : Nat) : double := std.canonical n 0

/-- A document: a scalar literal, given by its text and the value it stands for, an array
of documents or an object of named documents. -/
inductive Doc where
  | scalar (text : List Char) (val : json_value) : Doc
  | array (items : List Doc) : Doc
  | object (entries : List (json_name × Doc)) : Doc

namespace Doc

mutual
/-- The text of a document: scalars as given, `[d1,...,dn]`, `{"k1":d1,...,"kn":dn}`. -/
def text : Doc → List Char
  | .scalar t _ => t
  | .array [] => ['[', ']']
  | .array (d :: ds) => '[' :: (text d ++ (items_tail ds ++ [']']))
  | .object [] => ['{', '}']
  | .object (e :: es) =>
    '{' :: ('"' :: (e.1 ++ '"' :: ':' :: (text e.2 ++ (entries_tail es ++ ['}']))))
/-- The text of the items after the first, each preceded by a comma. -/
def items_tail : List Doc → List Char
  | [] => []
  | d :: ds => ',' :: (text d ++ items_tail ds)
/-- The text of the entries after the first, each preceded by a comma. -/
def entries_tail : List (json_name × Doc) → List Char
  | [] => []
  | e :: es => ',' :: ('"' :: (e.1 ++ '"' :: ':' :: (text e.2 ++ entries_tail es)))
end

mutual
/-- The value a document stands for: arrays keep the order of the text, objects receive
their entries by `emplace` in the order of the text. -/
def value (C : Container) : Doc → json_value
  | .scalar _ v => v
  | .array items => .array (values C items)
  | .object entries => .object (build C entries [])
/-- The values of a list of documents. -/
def values (C : Container) : List Doc → List json_value
  | [] => []
  | d :: ds => value C d :: values C ds
/-- The object obtained from `out` by `emplace` of the entries, in order. -/
def build (C : Container) : List (json_name × Doc) → json_object → json_object
  | [], out => out
  | e :: es, out => build C es (C.emplace out e.1 (value C e.2))
end

/-- Bytes the text of a key or of a string must avoid: a quote ends it, a `[` sends the
whole buffer to `parse_array`, a brace disturbs the brace count of an enclosing object
(`inObj`), a `]` the bracket count of an enclosing array (`inArr`). -/
def clean (inObj inArr : Bool) (t : List Char) : Prop :=
  '"' ∉ t ∧ '[' ∉ t ∧ (inObj = true → '{' ∉ t ∧ '}' ∉ t) ∧ (inArr = true → ']' ∉ t)

/-- What follows a value in a document: nothing, a comma or a closing bracket. -/
def Terminated (rest : List Char) : Prop :=
  rest = [] ∨ ∃ c r, rest = c :: r ∧ (c = ',' ∨ c = '}' ∨ c = ']')

/-- The text `t` is a number literal that `parse_value` reads as `d`: it begins with a
digit, holds no bracket, and `std::stod` on the 16-byte window consumes exactly `t` and
returns `d`, whatever terminated text follows. -/
def NumberReads (t : List Char) (d : double) : Prop :=
  (∃ c r, t = c :: r ∧ c.isDigit = true) ∧
  (∀ x ∈ t, x ≠ '{' ∧ x ≠ '}' ∧ x ≠ '[' ∧ x ≠ ']') ∧
  ∀ rest, Terminated rest → std.stod ((t ++ rest).take 16) = .ok (d, t.length)

/-- The scalar literals and the values they stand for. -/
inductive Scalar (inObj inArr : Bool) : List Char → json_value → Prop where
  | null : Scalar inObj inArr ['n', 'u', 'l', 'l'] .null
  | true : Scalar inObj inArr ['t', 'r', 'u', 'e'] (.bool true)
  | false : Scalar inObj inArr ['f', 'a', 'l', 's', 'e'] (.bool false)
  | string (str : List Char) : clean inObj inArr str →
      Scalar inObj inArr ('"' :: (str ++ ['"'])) (.string str)
  | number (t : List Char) (d : double) : NumberReads t d → Scalar inObj inArr t (.number d)

mutual
/-- Well-formed documents: scalars are literals, keys and strings are clean with respect
to the scans that enclose them. -/
def WF (inObj inArr : Bool) : Doc → Prop
  | .scalar t v => Scalar inObj inArr t v
  | .array items => WF_items inObj true items
  | .object entries => WF_entries true inArr entries
/-- Well-formed items of an array. -/
def WF_items (inObj inArr : Bool) : List Doc → Prop
  | [] => True
  | d :: ds => WF inObj inArr d ∧ WF_items inObj inArr ds
/-- Well-formed entries of an object. -/
def WF_entries (inObj inArr : Bool) : List (json_name × Doc) → Prop
  | [] => True
  | e :: es => clean inObj inArr e.1 ∧ WF inObj inArr e.2 ∧ WF_entries inObj inArr es
end

mutual
/-- Documents made of nested objects whose leaves are unsigned decimal integer literals of
1 to 15 digits, standing for the double equal to them; keys hold no quote, brace or
`[`. -/
def NumObj : Doc → Prop
  | .scalar t v =>
    t ≠ [] ∧ (∀ c ∈ t, c.isDigit = true) ∧ t.length ≤ 15 ∧
      v = .number (std.exact (std.digitsVal 10 t))
  | .array _ => False
  | .object es => NumObj_entries es
/-- The entries of such a document. -/
def NumObj_entries : List (json_name × Doc) → Prop
  | [] => True
  | e :: es =>
    ('"' ∉ e.1 ∧ '[' ∉ e.1 ∧ '{' ∉ e.1 ∧ '}' ∉ e.1) ∧ NumObj e.2 ∧ NumObj_entries es
end

end Doc

namespace JsonParser

/-- The end of a round of the element loop of `parse_object`: the search for the next
comma from `tmp`, which ends the loop or starts the next round. -/
def object_next (C : Container) (s : List Char) (rpos tmp : Nat) (out : json_object) :
    Result json_object :=
  match find s ',' tmp with
  | none => .ok out
  | some comma => object_loop_at C s rpos (comma + 1) out

/-- The end of a round of the element loop of `parse_array`. -/
def array_next (C : Container) (s : List Char) (rpos tmp : Nat) (out : json_array) :
    Result json_array :=
  match find s ',' tmp with
  | none => .ok out
  | some comma => array_loop_at C s rpos (comma + 1) out

/-- A stretch of text over which the bracket-matching loop keeps its count: met with a
count of at least 1, the loop runs through `x` without breaking and leaves it with the
same count. -/
def Matched (open_ close : Char) (x : List Char) : Prop :=
  ∀ (rest : List Char) (tmp count : Nat), 1 ≤ count →
    match_close open_ close (x ++ rest) tmp count =
      match_close open_ close rest (tmp + x.length) count

end JsonParser

/-! ## Texts of the claims -/

/-- An array element of the kind the top-level array claim speaks of: `true`, `false`,
`null` or an unsigned decimal integer literal, given by its digits. -/
inductive Lit where
  | true_ : Lit
  | false_ : Lit
  | null_ : Lit
  | int (digits : List Char) : Lit

namespace Lit

/-- The text of a literal. -/
def text : Lit → List Char
  | .true_ => "true".toList
  | .false_ => "false".toList
  | .null_ => "null".toList
  | .int ds => ds

/-- The value a literal denotes; an integer literal denotes the double equal to it. -/
def value : Lit → json_value
  | .true_ => .bool true
  | .false_ => .bool false
  | .null_ => .null
  | .int ds => .number (std.exact (std.digitsVal 10 ds))

/-- Integer literals have between 1 and 15 decimal digits. -/
def ok : Lit → Prop
  | .int ds => ds ≠ [] ∧ (∀ c ∈ ds, c.isDigit = true) ∧ ds.length ≤ 15
  | _ => True

/-- The text `[e1,e2,...,en]`. -/
def array_text (es : List Lit) : List Char :=
  "[".toList ++ List.intercalate ",".toList (es.map text) ++ "]".toList

end Lit

/-! ## Values as documents -/

namespace json_value

mutual
/-- The document the serializer writes for a value: scalars as literals, containers
element by element. -/
def toDoc (fmt : double → List Char) : json_value → Doc
  | .null => .scalar ['n', 'u', 'l', 'l'] .null
  | .bool b => .scalar (if b then ['t', 'r', 'u', 'e'] else ['f', 'a', 'l', 's', 'e']) (.bool b)
  | .number d => .scalar (fmt d) (.number d)
  | .string s => .scalar ('"' :: (s ++ ['"'])) (.string s)
  | .array data => .array (toDocs fmt data)
  | .object data => .object (toDocEntries fmt data)
/-- The documents of the elements of an array. -/
def toDocs (fmt : double → List Char) : List json_value → List Doc
  | [] => []
  | x :: xs => toDoc fmt x :: toDocs fmt xs
/-- The documents of the entries of an object. -/
def toDocEntries (fmt : double → List Char) :
    List (json_name × json_value) → List (json_name × Doc)
  | [] => []
  | e :: es => (e.1, toDoc fmt e.2) :: toDocEntries fmt es
end

/-- A value of a flat object that survives the round trip: `Null`, a `Boolean`, a `Number`
whose formatted text the parser reads back as the same number (so the text begins with a
digit), or a `String` without quote, brace or `[`. -/
def FlatValue (fmt : double → List Char) : json_value → Prop
  | .null => True
  | .bool _ => True
  | .number d => Doc.NumberReads (fmt d) d
  | .string s => Doc.clean true false s
  | .array _ => False
  | .object _ => False

/-- An object whose keys hold no quote, brace or `[` and whose values are flat. -/
def FlatObject (fmt : double → List Char) (obj : json_object) : Prop :=
  ∀ e ∈ obj, Doc.clean true false e.1 ∧ FlatValue fmt e.2

mutual
/-- The content of an array that survives the round trip: `Null`, `Boolean`, a `Number`
the parser reads back, a `String` without quote, `[` or `]`, or an `Array` of such
values. -/
def ArrayContent (fmt : double → List Char) : json_value → Prop
  | .null => True
  | .bool _ => True
  | .number d => Doc.NumberReads (fmt d) d
  | .string s => Doc.clean false true s
  | .array xs => ArrayContents fmt xs
  | .object _ => False
/-- The same for the elements of an array. -/
def ArrayContents (fmt : double → List Char) : List json_value → Prop
  | [] => True
  | x :: xs => ArrayContent fmt x ∧ ArrayContents fmt xs
end

end json_value

/-! ## The value routine, the parser object and the restricted round trip -/

namespace JsonParser

/-- The dispatch markers as the specification lists them: `{`, `[`, the quote, a decimal
digit, `n`, `t`, `f`. -/
def Marker (c : Char) : Prop :=
  c = '{' ∨ c = '[' ∨ c = '"' ∨ c.isDigit = true ∨ c = 'n' ∨ c = 't' ∨ c = 'f'

instance (c : Char) : Decidable (Marker c) := by
  unfold Marker; infer_instance

/-- The index `i` holds the first marker byte at or after `pos`, and that byte is `c`. -/
def FirstMarker (s : List Char) (pos i : Nat) (c : Char) : Prop :=
  pos ≤ i ∧ s[i]? = some c ∧ Marker c ∧
    ∀ j, pos ≤ j → j < i → ∀ x, s[j]? = some x → ¬ Marker x

/-- The bytes of `w` stand in the buffer at the indices `i`, `i+1`, ... -/
def BytesAt (s : List Char) (i : Nat) (w : List Char) : Prop :=
  ∀ k, k < w.length → s[i + k]? = w[k]?

instance (s : List Char) (i : Nat) (w : List Char) : Decidable (BytesAt s i w) := by
  unfold BytesAt; infer_instance

/-- What ends a digit run in a document: the end of the buffer, a comma, a closing
bracket or a space. -/
def RunEnd (rest : List Char) : Prop :=
  rest = [] ∨ ∃ c r, rest = c :: r ∧ (c = ',' ∨ c = '}' ∨ c = ']' ∨ c = ' ')

/-- How a round of an element loop ends: the loop is left (by `break` or by its test) with
the container built, or it goes on from a new cursor. -/
inductive Round (α : Type) where
  | exit (out : α) : Round α
  | next (cursor : Nat) (out : α) : Round α

/-- One round of the `while (cursor < rpos-1)` loop of `parse_object`: the loop test and
the loop body. -/
def object_round (C : Container) (fuel : Nat) (s : List Char) (rpos cursor : Nat)
    (out : json_object) : Result (Round json_object) :=
  if cursor < rpos - 1 then
    match parse_string s cursor with
    | .outOfFuel => .outOfFuel
    | .fail e => .fail e
    | .ok (tmp_name, tmp) =>
      match find s ':' tmp with
      | none => .fail .missing_colon
      | some colon =>
        match parse_value C fuel s (colon + 1) (rpos - 1) with
        | .outOfFuel => .outOfFuel
        | .fail e => .fail e
        | .ok (tmp_value, tmp) =>
          let out := C.emplace out tmp_name tmp_value
          match find s ',' tmp with
          | none => .ok (.exit out)
          | some comma => .ok (.next (comma + 1) out)
  else .ok (.exit out)

/-- One round of the `while (cursor < rpos-1)` loop of `parse_array`. -/
def array_round (C : Container) (fuel : Nat) (s : List Char) (rpos cursor : Nat)
    (out : json_array) : Result (Round json_array) :=
  if cursor < rpos - 1 then
    match parse_value C fuel s cursor (rpos - 1) with
    | .outOfFuel => .outOfFuel
    | .fail e => .fail e
    | .ok (tmp_value, tmp) =>
      let out := out ++ [tmp_value]
      match find s ',' tmp with
      | none => .ok (.exit out)
      | some comma => .ok (.next (comma + 1) out)
  else .ok (.exit out)

/-- The data members of the class `json_parser`: the buffer and the object under
construction. -/
structure State where
  /-- The text handed to the constructor. -/
  m_raw_data : List Char
  /-- The object `get()` returns. -/
  m_obj : json_object

namespace State

/-- The constructor: it stores the buffer; `m_obj` is default-constructed, empty. -/
def init (raw_data : List Char) : State := ⟨raw_data, []⟩

/-- The function `get()`. -/
def get (p : State) : json_object := p.m_obj

/-- The function `parse()` as a step on the parser object: the state after the call and
how the call ended. The argument of `insert` and the right-hand side of the assignment are
evaluated first; an exception thrown there leaves the call before `m_obj` is touched. -/
def parse (C : Container) (p : State) : State × Result Unit :=
  if has_bracket p.m_raw_data then
    match parse_array C (fuel p.m_raw_data) p.m_raw_data 0 with
    | .ok (a, _) => (⟨p.m_raw_data, C.emplace p.m_obj [] (.array a)⟩, .ok ())
    | .fail e => (p, .fail e)
    | .outOfFuel => (p, .outOfFuel)
  else
    match parse_object C (fuel p.m_raw_data) p.m_raw_data 0 with
    | .ok (o, _) => (⟨p.m_raw_data, o⟩, .ok ())
    | .fail e => (p, .fail e)
    | .outOfFuel => (p, .outOfFuel)

end State

end JsonParser

namespace json_value

mutual
/-- The values of the restricted round trip: `Null`, `Boolean`, `String` and nested
`Object`, no `Array` and no `Number`; keys and strings hold no quote, `[` or brace, and
the keys of an object are distinct, as in a map. -/
def Plain : json_value → Prop
  | .null => True
  | .bool _ => True
  | .number _ => False
  | .string s => Doc.clean true false s
  | .array _ => False
  | .object data => PlainEntries data ∧ (data.map Prod.fst).Nodup
/-- The same for the entries of an object. -/
def PlainEntries : List (json_name × json_value) → Prop
  | [] => True
  | e :: es => Doc.clean true false e.1 ∧ Plain e.2 ∧ PlainEntries es
end

mutual
/-- Equality of values in which objects are compared as maps: the same key set at every
level, each key mapped to an equal value; the order of the entries does not count. -/
def SameMap : json_value → json_value → Prop
  | .null, w => w = .null
  | .bool b, w => w = .bool b
  | .number d, w => w = .number d
  | .string s, w => w = .string s
  | .array xs, w => ∃ ys, w = .array ys ∧ SameItems xs ys
  | .object es, w =>
    ∃ fs, w = .object fs ∧ (fs.map Prod.fst).Perm (es.map Prod.fst) ∧ SameEntries es fs
/-- Arrays are compared element by element. -/
def SameItems : List json_value → List json_value → Prop
  | [], ys => ys = []
  | x :: xs, ys => ∃ y zs, ys = y :: zs ∧ SameMap x y ∧ SameItems xs zs
/-- Every entry of the first list has its key in `fs`, mapped to an equal value. -/
def SameEntries : List (json_name × json_value) → json_object → Prop
  | [], _ => True
  | e :: es, fs => (∃ w, (e.1, w) ∈ fs ∧ SameMap e.2 w) ∧ SameEntries es fs
end

end json_value
namespace JsonParser

theorem fuel_succ (C : Container) : ∀ f,
    (∀ s pos, parse_object C f s pos ≠ .outOfFuel →
      parse_object C (f + 1) s pos = parse_object C f s pos) ∧
    (∀ s rpos cursor out, object_loop C f s rpos cursor out ≠ .outOfFuel →
      object_loop C (f + 1) s rpos cursor out = object_loop C f s rpos cursor out) ∧
    (∀ s pos, parse_array C f s pos ≠ .outOfFuel →
      parse_array C (f + 1) s pos = parse_array C f s pos) ∧
    (∀ s rpos cursor out, array_loop C f s rpos cursor out ≠ .outOfFuel →
      array_loop C (f + 1) s rpos cursor out = array_loop C f s rpos cursor out) ∧
    (∀ s pos rpos, parse_value C f s pos rpos ≠ .outOfFuel →
      parse_value C (f + 1) s pos rpos = parse_value C f s pos rpos) := by
  intro f
  induction f with
  | zero =>
    refine ⟨?_, ?_, ?_, ?_, ?_⟩ <;> intros <;>
      simp_all [parse_object, object_loop, parse_array, array_loop, parse_value]
  | succ n ih =>
    obtain ⟨ihO, ihOL, ihA, ihAL, ihV⟩ := ih
    refine ⟨?_, ?_, ?_, ?_, ?_⟩
    · intro s pos h
      rw [parse_object] at h
      rw [parse_object, parse_object]
      cases h1 : find s '{' pos with
      | none => rfl
      | some b =>
        simp only [h1] at h ⊢
        cases h2 : match_close '{' '}' (s.drop (b + 1)) (b + 1) 1 with
        | none => rfl
        | some tmp =>
          simp only [h2] at h ⊢
          have h3 : object_loop C n s (tmp + 1) (b + 1) [] ≠ .outOfFuel := by
            intro h4; rw [h4] at h; exact h rfl
          rw [ihOL _ _ _ _ h3]
    · intro s rpos cursor out h
      rw [object_loop] at h
      conv_lhs => rw [object_loop]
      conv_rhs => rw [object_loop]
      by_cases hc : cursor < rpos - 1
      · simp only [hc, if_true] at h ⊢
        cases h1 : parse_string s cursor with
        | outOfFuel => rfl
        | fail e => rfl
        | ok p =>
          obtain ⟨name, tmp⟩ := p
          simp only [h1] at h ⊢
          cases h2 : find s ':' tmp with
          | none => rfl
          | some colon =>
            simp only [h2] at h ⊢
            have h3 : parse_value C n s (colon + 1) (rpos - 1) ≠ .outOfFuel := by
              intro h4; rw [h4] at h; exact h rfl
            rw [ihV _ _ _ h3]
            cases h4 : parse_value C n s (colon + 1) (rpos - 1) with
            | outOfFuel => exact absurd h4 h3
            | fail e => rfl
            | ok q =>
              obtain ⟨v, tmp2⟩ := q
              simp only [h4] at h ⊢
              cases h5 : find s ',' tmp2 with
              | none => rfl
              | some comma =>
                simp only [h5] at h ⊢
                exact ihOL _ _ _ _ h
      · simp only [hc, if_false]
    · intro s pos h
      rw [parse_array] at h
      rw [parse_array, parse_array]
      cases h1 : find s '[' pos with
      | none => rfl
      | some b =>
        simp only [h1] at h ⊢
        cases h2 : match_close '[' ']' (s.drop (b + 1)) (b + 1) 1 with
        | none => rfl
        | some tmp =>
          simp only [h2] at h ⊢
          have h3 : array_loop C n s (tmp + 1) (b + 1) [] ≠ .outOfFuel := by
            intro h4; rw [h4] at h; exact h rfl
          rw [ihAL _ _ _ _ h3]
    · intro s rpos cursor out h
      rw [array_loop] at h
      conv_lhs => rw [array_loop]
      conv_rhs => rw [array_loop]
      by_cases hc : cursor < rpos - 1
      · simp only [hc, if_true] at h ⊢
        have h3 : parse_value C n s cursor (rpos - 1) ≠ .outOfFuel := by
          intro h4; rw [h4] at h; exact h rfl
        rw [ihV _ _ _ h3]
        cases h4 : parse_value C n s cursor (rpos - 1) with
        | outOfFuel => exact absurd h4 h3
        | fail e => rfl
        | ok q =>
          obtain ⟨v, tmp2⟩ := q
          simp only [h4] at h ⊢
          cases h5 : find s ',' tmp2 with
          | none => rfl
          | some comma =>
            simp only [h5] at h ⊢
            exact ihAL _ _ _ _ h
      · simp only [hc, if_false]
    · intro s pos rpos h
      rw [parse_value] at h
      rw [parse_value, parse_value]
      cases h1 : find_marker (s.drop pos) pos with
      | none => rfl
      | some p =>
        obtain ⟨i, c⟩ := p
        simp only [h1] at h ⊢
        cases c1 : (c == '{') with
        | true =>
          simp only [c1, if_true] at h ⊢
          have h3 : parse_object C n s i ≠ .outOfFuel := by
            intro h4; rw [h4] at h; exact h rfl
          rw [ihO _ _ h3]
        | false =>
          simp only [c1, Bool.false_eq_true, if_false] at h ⊢
          cases c2 : (c == '[') with
          | true =>
            simp only [c2, if_true] at h ⊢
            have h3 : parse_array C n s i ≠ .outOfFuel := by
              intro h4; rw [h4] at h; exact h rfl
            rw [ihA _ _ h3]
          | false => rfl

end JsonParser
namespace JsonParser

theorem findFrom_some {p : Char → Bool} : ∀ {w : List Char} {i j : Nat},
    findFrom p w i = some j → i ≤ j ∧ j < i + w.length
  | [], _, _, h => by simp [findFrom] at h
  | x :: xs, i, j, h => by
    rw [findFrom] at h
    by_cases hx : p x = true
    · simp only [hx, if_true, Option.some.injEq] at h
      subst h
      simp
    · simp only [hx, Bool.false_eq_true, if_false] at h
      have := findFrom_some h
      simp only [List.length_cons]
      omega

theorem find_some {s : List Char} {c : Char} {pos j : Nat} (h : find s c pos = some j) :
    pos ≤ j ∧ j < s.length := by
  have := findFrom_some h
  simp only [List.length_drop] at this
  omega

theorem match_close_some {o c : Char} : ∀ {w : List Char} {tmp count t : Nat},
    match_close o c w tmp count = some t → tmp ≤ t ∧ t < tmp + w.length
  | [], _, _, _, h => by simp [match_close] at h
  | x :: xs, tmp, count, t, h => by
    rw [match_close] at h
    generalize (if (x == o) = true then count + 1
      else if (x == c) = true then count - 1 else count) = k at h
    by_cases hk : k = 0
    · simp only [hk, if_true, Option.some.injEq] at h
      subst h
      simp
    · simp only [hk, if_false] at h
      have := match_close_some h
      simp only [List.length_cons]
      omega

theorem find_marker_some : ∀ {w : List Char} {i j : Nat} {c : Char},
    find_marker w i = some (j, c) → i ≤ j ∧ j < i + w.length
  | [], _, _, _, h => by simp [find_marker] at h
  | x :: xs, i, j, c, h => by
    rw [find_marker] at h
    by_cases hx : is_marker x = true
    · simp only [hx, if_true, Option.some.injEq, Prod.mk.injEq] at h
      obtain ⟨h, _⟩ := h
      subst h
      simp
    · simp only [hx, Bool.false_eq_true, if_false] at h
      have := find_marker_some h
      simp only [List.length_cons]
      omega

theorem parse_string_end {s : List Char} {pos e : Nat} {x : List Char}
    (h : parse_string s pos = .ok (x, e)) : pos + 2 ≤ e ∧ e ≤ s.length := by
  unfold parse_string at h
  cases h1 : find s '"' pos with
  | none => simp [h1] at h
  | some b =>
    simp only [h1] at h
    cases h2 : find s '"' (b + 1) with
    | none => simp [h2] at h
    | some r =>
      simp only [h2, Result.ok.injEq, Prod.mk.injEq] at h
      have := find_some h1
      have := find_some h2
      omega

theorem parse_object_end {C : Container} {f : Nat} {s : List Char} {pos e : Nat}
    {o : json_object} (h : parse_object C f s pos = .ok (o, e)) :
    pos + 2 ≤ e ∧ e ≤ s.length := by
  cases f with
  | zero => simp [parse_object] at h
  | succ f =>
    rw [parse_object] at h
    cases h1 : find s '{' pos with
    | none => simp [h1] at h
    | some b =>
      simp only [h1] at h
      cases h2 : match_close '{' '}' (s.drop (b + 1)) (b + 1) 1 with
      | none => simp [h2] at h
      | some tmp =>
        simp only [h2] at h
        have h3 := find_some h1
        have h4 := match_close_some h2
        simp only [List.length_drop] at h4
        cases h5 : object_loop C f s (tmp + 1) (b + 1) [] with
        | outOfFuel => simp [h5] at h
        | fail e => simp [h5] at h
        | ok out =>
          simp only [h5, Result.ok.injEq, Prod.mk.injEq] at h
          omega

theorem parse_array_end {C : Container} {f : Nat} {s : List Char} {pos e : Nat}
    {a : json_array} (h : parse_array C f s pos = .ok (a, e)) :
    pos + 2 ≤ e ∧ e ≤ s.length := by
  cases f with
  | zero => simp [parse_array] at h
  | succ f =>
    rw [parse_array] at h
    cases h1 : find s '[' pos with
    | none => simp [h1] at h
    | some b =>
      simp only [h1] at h
      cases h2 : match_close '[' ']' (s.drop (b + 1)) (b + 1) 1 with
      | none => simp [h2] at h
      | some tmp =>
        simp only [h2] at h
        have h3 := find_some h1
        have h4 := match_close_some h2
        simp only [List.length_drop] at h4
        cases h5 : array_loop C f s (tmp + 1) (b + 1) [] with
        | outOfFuel => simp [h5] at h
        | fail e => simp [h5] at h
        | ok out =>
          simp only [h5, Result.ok.injEq, Prod.mk.injEq] at h
          omega

theorem parse_value_end {C : Container} {f : Nat} {s : List Char} {pos rpos e : Nat}
    {v : json_value} (h : parse_value C f s pos rpos = .ok (v, e)) :
    e = rpos ∨ pos ≤ e := by
  cases f with
  | zero => simp [parse_value] at h
  | succ f =>
    rw [parse_value] at h
    cases h1 : find_marker (s.drop pos) pos with
    | none =>
      simp only [h1, Result.ok.injEq, Prod.mk.injEq] at h
      exact Or.inl h.2.symm
    | some p =>
      obtain ⟨i, c⟩ := p
      simp only [h1] at h
      have hi := find_marker_some h1
      right
      split at h
      · cases h5 : parse_object C f s i with
        | outOfFuel => simp [h5] at h
        | fail e => simp [h5] at h
        | ok q =>
          obtain ⟨o, r⟩ := q
          simp only [h5, Result.ok.injEq, Prod.mk.injEq] at h
          have := parse_object_end h5
          omega
      · split at h
        · cases h5 : parse_array C f s i with
          | outOfFuel => simp [h5] at h
          | fail e => simp [h5] at h
          | ok q =>
            obtain ⟨o, r⟩ := q
            simp only [h5, Result.ok.injEq, Prod.mk.injEq] at h
            have := parse_array_end h5
            omega
        · split at h
          · cases h5 : parse_string s i with
            | outOfFuel => simp [h5] at h
            | fail e => simp [h5] at h
            | ok q =>
              obtain ⟨o, r⟩ := q
              simp only [h5, Result.ok.injEq, Prod.mk.injEq] at h
              have := parse_string_end h5
              omega
          · split at h
            · cases h5 : std.stod (substr s i 16) with
              | error e => simp [h5] at h
              | ok q =>
                obtain ⟨d, r⟩ := q
                simp only [h5, Result.ok.injEq, Prod.mk.injEq] at h
                omega
            · split at h
              · split at h
                · simp at h
                · simp only [Result.ok.injEq, Prod.mk.injEq] at h
                  omega
              · split at h
                · split at h
                  · simp at h
                  · simp only [Result.ok.injEq, Prod.mk.injEq] at h
                    omega
                · split at h
                  · simp at h
                  · simp only [Result.ok.injEq, Prod.mk.injEq] at h
                    omega

end JsonParser
namespace JsonParser

theorem fuel_enough (C : Container) : ∀ f,
    (∀ s pos, 3 * (s.length - pos) + 2 ≤ f → parse_object C f s pos ≠ .outOfFuel) ∧
    (∀ s rpos cursor out, 3 * (s.length - cursor) + 4 ≤ f →
      object_loop C f s rpos cursor out ≠ .outOfFuel) ∧
    (∀ s pos, 3 * (s.length - pos) + 2 ≤ f → parse_array C f s pos ≠ .outOfFuel) ∧
    (∀ s rpos cursor out, 3 * (s.length - cursor) + 4 ≤ f →
      array_loop C f s rpos cursor out ≠ .outOfFuel) ∧
    (∀ s pos rpos, 3 * (s.length - pos) + 3 ≤ f → parse_value C f s pos rpos ≠ .outOfFuel) := by
  intro f
  induction f with
  | zero => refine ⟨?_, ?_, ?_, ?_, ?_⟩ <;> intros <;> omega
  | succ n ih =>
    obtain ⟨ihO, ihOL, ihA, ihAL, ihV⟩ := ih
    refine ⟨?_, ?_, ?_, ?_, ?_⟩
    · intro s pos hf
      rw [parse_object]
      cases h1 : find s '{' pos with
      | none => simp
      | some b =>
        simp only [h1]
        cases h2 : match_close '{' '}' (s.drop (b + 1)) (b + 1) 1 with
        | none => simp
        | some tmp =>
          simp only [h2]
          have h3 := find_some h1
          have h4 := ihOL s (tmp + 1) (b + 1) [] (by omega)
          cases h5 : object_loop C n s (tmp + 1) (b + 1) [] with
          | outOfFuel => exact absurd h5 h4
          | fail e => simp
          | ok out => simp
    · intro s rpos cursor out hf
      rw [object_loop]
      by_cases hc : cursor < rpos - 1
      · simp only [hc, if_true]
        cases h1 : parse_string s cursor with
        | outOfFuel => simp [parse_string] at h1; split at h1 <;> try split at h1
                       all_goals simp at h1
        | fail e => simp
        | ok p =>
          obtain ⟨name, tmp⟩ := p
          simp only [h1]
          have hs := parse_string_end h1
          cases h2 : find s ':' tmp with
          | none => simp
          | some colon =>
            simp only [h2]
            have hcol := find_some h2
            have h3 := ihV s (colon + 1) (rpos - 1) (by omega)
            cases h4 : parse_value C n s (colon + 1) (rpos - 1) with
            | outOfFuel => exact absurd h4 h3
            | fail e => simp
            | ok q =>
              obtain ⟨v, tmp2⟩ := q
              simp only [h4]
              have hv := parse_value_end h4
              cases h5 : find s ',' tmp2 with
              | none => simp
              | some comma =>
                simp only [h5]
                have hcom := find_some h5
                exact ihOL _ _ _ _ (by omega)
      · simp [hc]
    · intro s pos hf
      rw [parse_array]
      cases h1 : find s '[' pos with
      | none => simp
      | some b =>
        simp only [h1]
        cases h2 : match_close '[' ']' (s.drop (b + 1)) (b + 1) 1 with
        | none => simp
        | some tmp =>
          simp only [h2]
          have h3 := find_some h1
          have h4 := ihAL s (tmp + 1) (b + 1) [] (by omega)
          cases h5 : array_loop C n s (tmp + 1) (b + 1) [] with
          | outOfFuel => exact absurd h5 h4
          | fail e => simp
          | ok out => simp
    · intro s rpos cursor out hf
      rw [array_loop]
      by_cases hc : cursor < rpos - 1
      · simp only [hc, if_true]
        have h3 := ihV s cursor (rpos - 1) (by omega)
        cases h4 : parse_value C n s cursor (rpos - 1) with
        | outOfFuel => exact absurd h4 h3
        | fail e => simp
        | ok q =>
          obtain ⟨v, tmp2⟩ := q
          simp only [h4]
          have hv := parse_value_end h4
          cases h5 : find s ',' tmp2 with
          | none => simp
          | some comma =>
            simp only [h5]
            have hcom := find_some h5
            exact ihAL _ _ _ _ (by omega)
      · simp [hc]
    · intro s pos rpos hf
      rw [parse_value]
      cases h1 : find_marker (s.drop pos) pos with
      | none => simp
      | some p =>
        obtain ⟨i, c⟩ := p
        simp only [h1]
        have hi := find_marker_some h1
        split
        · have h4 := ihO s i (by omega)
          cases h5 : parse_object C n s i with
          | outOfFuel => exact absurd h5 h4
          | fail e => simp
          | ok q => simp
        · split
          · have h4 := ihA s i (by omega)
            cases h5 : parse_array C n s i with
            | outOfFuel => exact absurd h5 h4
            | fail e => simp
            | ok q => simp
          · split
            · cases h5 : parse_string s i with
              | outOfFuel => simp [parse_string] at h5; split at h5 <;> try split at h5
                             all_goals simp at h5
              | fail e => simp
              | ok q => simp
            · split
              · cases h5 : std.stod (substr s i 16) with
                | error e => simp
                | ok q => simp
              · split
                · split <;> simp
                · split
                  · split <;> simp
                  · split <;> simp

end JsonParser
namespace JsonParser

theorem parse_object_fuel (C : Container) (s : List Char) (pos : Nat) :
    ∀ f, 3 * (s.length - pos) + 2 ≤ f → parse_object C f s pos = object_at C s pos := by
  intro f hf
  obtain ⟨k, rfl⟩ := Nat.exists_eq_add_of_le hf
  induction k with
  | zero => rfl
  | succ k ih =>
    rw [← Nat.add_assoc, (fuel_succ C _).1 s pos ((fuel_enough C _).1 s pos (by omega))]
    exact ih (by omega)

theorem object_loop_fuel (C : Container) (s : List Char) (rpos cursor : Nat)
    (out : json_object) : ∀ f, 3 * (s.length - cursor) + 4 ≤ f →
    object_loop C f s rpos cursor out = object_loop_at C s rpos cursor out := by
  intro f hf
  obtain ⟨k, rfl⟩ := Nat.exists_eq_add_of_le hf
  induction k with
  | zero => rfl
  | succ k ih =>
    rw [← Nat.add_assoc, (fuel_succ C _).2.1 s rpos cursor out
      ((fuel_enough C _).2.1 s rpos cursor out (by omega))]
    exact ih (by omega)

theorem parse_array_fuel (C : Container) (s : List Char) (pos : Nat) :
    ∀ f, 3 * (s.length - pos) + 2 ≤ f → parse_array C f s pos = array_at C s pos := by
  intro f hf
  obtain ⟨k, rfl⟩ := Nat.exists_eq_add_of_le hf
  induction k with
  | zero => rfl
  | succ k ih =>
    rw [← Nat.add_assoc, (fuel_succ C _).2.2.1 s pos ((fuel_enough C _).2.2.1 s pos (by omega))]
    exact ih (by omega)

theorem array_loop_fuel (C : Container) (s : List Char) (rpos cursor : Nat)
    (out : json_array) : ∀ f, 3 * (s.length - cursor) + 4 ≤ f →
    array_loop C f s rpos cursor out = array_loop_at C s rpos cursor out := by
  intro f hf
  obtain ⟨k, rfl⟩ := Nat.exists_eq_add_of_le hf
  induction k with
  | zero => rfl
  | succ k ih =>
    rw [← Nat.add_assoc, (fuel_succ C _).2.2.2.1 s rpos cursor out
      ((fuel_enough C _).2.2.2.1 s rpos cursor out (by omega))]
    exact ih (by omega)

theorem parse_value_fuel (C : Container) (s : List Char) (pos rpos : Nat) :
    ∀ f, 3 * (s.length - pos) + 3 ≤ f → parse_value C f s pos rpos = value_at C s pos rpos := by
  intro f hf
  obtain ⟨k, rfl⟩ := Nat.exists_eq_add_of_le hf
  induction k with
  | zero => rfl
  | succ k ih =>
    rw [← Nat.add_assoc, (fuel_succ C _).2.2.2.2 s pos rpos
      ((fuel_enough C _).2.2.2.2 s pos rpos (by omega))]
    exact ih (by omega)

theorem object_at_ne (C : Container) (s : List Char) (pos : Nat) :
    object_at C s pos ≠ .outOfFuel := (fuel_enough C _).1 s pos (Nat.le_refl _)

theorem array_at_ne (C : Container) (s : List Char) (pos : Nat) :
    array_at C s pos ≠ .outOfFuel := (fuel_enough C _).2.2.1 s pos (Nat.le_refl _)

theorem value_at_ne (C : Container) (s : List Char) (pos rpos : Nat) :
    value_at C s pos rpos ≠ .outOfFuel := (fuel_enough C _).2.2.2.2 s pos rpos (Nat.le_refl _)

theorem object_at_eq (C : Container) (s : List Char) (pos : Nat) :
    object_at C s pos =
      match find s '{' pos with
      | none => .fail .unmatched_curly
      | some b =>
        match match_close '{' '}' (s.drop (b + 1)) (b + 1) 1 with
        | none => .fail .unmatched_curly
        | some tmp =>
          match object_loop_at C s (tmp + 1) (b + 1) [] with
          | .ok out => .ok (out, tmp + 1)
          | .fail e => .fail e
          | .outOfFuel => .outOfFuel := by
  rw [object_at, parse_object]
  cases h1 : find s '{' pos with
  | none => rfl
  | some b =>
    simp only
    have := find_some h1
    cases h2 : match_close '{' '}' (s.drop (b + 1)) (b + 1) 1 with
    | none => rfl
    | some tmp =>
      simp only
      rw [object_loop_fuel C s (tmp + 1) (b + 1) [] _ (by omega)]

theorem array_at_eq (C : Container) (s : List Char) (pos : Nat) :
    array_at C s pos =
      match find s '[' pos with
      | none => .fail .unmatched_square
      | some b =>
        match match_close '[' ']' (s.drop (b + 1)) (b + 1) 1 with
        | none => .fail .unmatched_square
        | some tmp =>
          match array_loop_at C s (tmp + 1) (b + 1) [] with
          | .ok out => .ok (out, tmp + 1)
          | .fail e => .fail e
          | .outOfFuel => .outOfFuel := by
  rw [array_at, parse_array]
  cases h1 : find s '[' pos with
  | none => rfl
  | some b =>
    simp only
    have := find_some h1
    cases h2 : match_close '[' ']' (s.drop (b + 1)) (b + 1) 1 with
    | none => rfl
    | some tmp =>
      simp only
      rw [array_loop_fuel C s (tmp + 1) (b + 1) [] _ (by omega)]

theorem object_loop_at_eq (C : Container) (s : List Char) (rpos cursor : Nat)
    (out : json_object) :
    object_loop_at C s rpos cursor out =
      if cursor < rpos - 1 then
        match parse_string s cursor with
        | .outOfFuel => .outOfFuel
        | .fail e => .fail e
        | .ok (tmp_name, tmp) =>
          match find s ':' tmp with
          | none => .fail .missing_colon
          | some colon =>
            match value_at C s (colon + 1) (rpos - 1) with
            | .outOfFuel => .outOfFuel
            | .fail e => .fail e
            | .ok (tmp_value, tmp) =>
              match find s ',' tmp with
              | none => .ok (C.emplace out tmp_name tmp_value)
              | some comma =>
                object_loop_at C s rpos (comma + 1) (C.emplace out tmp_name tmp_value)
      else .ok out := by
  rw [object_loop_at, object_loop]
  by_cases hc : cursor < rpos - 1
  · simp only [hc, if_true]
    cases h1 : parse_string s cursor with
    | outOfFuel => rfl
    | fail e => rfl
    | ok p =>
      obtain ⟨name, tmp⟩ := p
      simp only
      have hs := parse_string_end h1
      cases h2 : find s ':' tmp with
      | none => rfl
      | some colon =>
        simp only
        have hcol := find_some h2
        rw [parse_value_fuel C s _ _ _ (by omega)]
        cases h4 : value_at C s (colon + 1) (rpos - 1) with
        | outOfFuel => rfl
        | fail e => rfl
        | ok q =>
          obtain ⟨v, tmp2⟩ := q
          simp only
          have hv := parse_value_end h4
          cases h5 : find s ',' tmp2 with
          | none => rfl
          | some comma =>
            simp only
            have hcom := find_some h5
            rw [object_loop_fuel C s _ _ _ _ (by omega)]
  · simp only [hc, if_false]

theorem array_loop_at_eq (C : Container) (s : List Char) (rpos cursor : Nat)
    (out : json_array) :
    array_loop_at C s rpos cursor out =
      if cursor < rpos - 1 then
        match value_at C s cursor (rpos - 1) with
        | .outOfFuel => .outOfFuel
        | .fail e => .fail e
        | .ok (tmp_value, tmp) =>
          match find s ',' tmp with
          | none => .ok (out ++ [tmp_value])
          | some comma => array_loop_at C s rpos (comma + 1) (out ++ [tmp_value])
      else .ok out := by
  rw [array_loop_at, array_loop]
  by_cases hc : cursor < rpos - 1
  · simp only [hc, if_true]
    rw [parse_value_fuel C s _ _ _ (by omega)]
    cases h4 : value_at C s cursor (rpos - 1) with
    | outOfFuel => rfl
    | fail e => rfl
    | ok q =>
      obtain ⟨v, tmp2⟩ := q
      simp only
      have hv := parse_value_end h4
      cases h5 : find s ',' tmp2 with
      | none => rfl
      | some comma =>
        simp only
        have hcom := find_some h5
        rw [array_loop_fuel C s _ _ _ _ (by omega)]
  · simp only [hc, if_false]

theorem value_at_eq (C : Container) (s : List Char) (pos rpos : Nat) :
    value_at C s pos rpos =
      match find_marker (s.drop pos) pos with
      | none => .ok (.null, rpos)
      | some (i, c) =>
        if c == '{' then
          match object_at C s i with
          | .ok (o, r) => .ok (.object o, r)
          | .fail e => .fail e
          | .outOfFuel => .outOfFuel
        else if c == '[' then
          match array_at C s i with
          | .ok (a, r) => .ok (.array a, r)
          | .fail e => .fail e
          | .outOfFuel => .outOfFuel
        else if c == '"' then
          match parse_string s i with
          | .ok (str, r) => .ok (.string str, r)
          | .fail e => .fail e
          | .outOfFuel => .outOfFuel
        else if '0' ≤ c && c ≤ '9' then
          match std.stod (substr s i 16) with
          | .ok (d, stod_pos) => .ok (.number d, i + stod_pos)
          | .error e => .fail (.stod e)
        else if c == 'n' then
          if s.length < i + 4 || substr s i 4 != ['n', 'u', 'l', 'l'] then .fail .bad_null
          else .ok (.null, i + 4)
        else if c == 't' then
          if s.length < i + 4 || substr s i 4 != ['t', 'r', 'u', 'e'] then .fail .bad_true
          else .ok (.bool true, i + 4)
        else
          if s.length < i + 5 || substr s i 5 != ['f', 'a', 'l', 's', 'e'] then .fail .bad_false
          else .ok (.bool false, i + 5) := by
  rw [value_at, parse_value]
  cases h1 : find_marker (s.drop pos) pos with
  | none => rfl
  | some p =>
    obtain ⟨i, c⟩ := p
    simp only
    have hi := find_marker_some h1
    rw [parse_object_fuel C s _ _ (by omega), parse_array_fuel C s _ _ (by omega)]

theorem parse_eq (C : Container) (s : List Char) :
    parse C s =
      if has_bracket s then
        match array_at C s 0 with
        | .ok (a, _) => .ok (C.emplace [] [] (.array a))
        | .fail e => .fail e
        | .outOfFuel => .outOfFuel
      else
        match object_at C s 0 with
        | .ok (o, _) => .ok o
        | .fail e => .fail e
        | .outOfFuel => .outOfFuel := by
  rw [parse, parse_array_fuel C s 0 _ (by simp [fuel]), parse_object_fuel C s 0 _ (by simp [fuel])]

end JsonParser
namespace JsonParser

theorem findFrom_eq_some_iff {p : Char → Bool} : ∀ (w : List Char) (i j : Nat),
    findFrom p w i = some j ↔
      i ≤ j ∧ (∃ x, w[j - i]? = some x ∧ p x = true) ∧
        ∀ k, k < j - i → ∀ x, w[k]? = some x → p x = false
  | [], i, j => by simp [findFrom]
  | x :: xs, i, j => by
    rw [findFrom]
    by_cases hx : p x = true
    · simp only [hx, if_true, Option.some.injEq]
      constructor
      · rintro rfl
        simp [hx]
      · rintro ⟨h1, _, h3⟩
        by_contra hne
        have hlt : 0 < j - i := by omega
        have := h3 0 hlt x (by simp)
        simp [hx] at this
    · simp only [hx, Bool.false_eq_true, if_false]
      rw [findFrom_eq_some_iff xs (i + 1) j]
      have hx' : p x = false := by simpa using hx
      constructor
      · rintro ⟨h1, ⟨y, h2, h3⟩, h4⟩
        refine ⟨by omega, ⟨y, ?_, h3⟩, ?_⟩
        · have : j - i = (j - (i + 1)) + 1 := by omega
          rw [this]; simpa using h2
        · intro k hk y hy
          cases k with
          | zero => simp at hy; subst hy; exact hx'
          | succ k => exact h4 k (by omega) y (by simpa using hy)
      · rintro ⟨h1, ⟨y, h2, h3⟩, h4⟩
        have hij : i < j := by
          rcases Nat.eq_or_lt_of_le h1 with h | h
          · subst h
            simp at h2
            subst h2
            simp [hx'] at h3
          · exact h
        refine ⟨hij, ⟨y, ?_, h3⟩, ?_⟩
        · have : j - i = (j - (i + 1)) + 1 := by omega
          rw [this] at h2; simpa using h2
        · intro k hk y hy
          exact h4 (k + 1) (by omega) y (by simpa using hy)

theorem findFrom_eq_none_iff {p : Char → Bool} : ∀ (w : List Char) (i : Nat),
    findFrom p w i = none ↔ ∀ x ∈ w, p x = false
  | [], i => by simp [findFrom]
  | x :: xs, i => by
    rw [findFrom]
    by_cases hx : p x = true
    · simp [hx]
    · simp only [hx, Bool.false_eq_true, if_false]
      rw [findFrom_eq_none_iff xs (i + 1)]
      simp [hx]

theorem find_eq_some_iff (s : List Char) (c : Char) (pos j : Nat) :
    find s c pos = some j ↔ FirstAt s c pos j := by
  unfold find FirstAt
  rw [findFrom_eq_some_iff]
  constructor
  · rintro ⟨h1, ⟨x, h2, h3⟩, h4⟩
    have hx : x = c := by simpa using h3
    subst hx
    refine ⟨h1, ?_, ?_⟩
    · rw [List.getElem?_drop] at h2
      rw [← h2]; congr 1; omega
    · intro k hk1 hk2 hk
      have := h4 (k - pos) (by omega) x (by rw [List.getElem?_drop, ← hk]; congr 1; omega)
      simp at this
  · rintro ⟨h1, h2, h3⟩
    refine ⟨h1, ⟨c, ?_, by simp⟩, ?_⟩
    · rw [List.getElem?_drop, ← h2]; congr 1; omega
    · intro k hk x hx
      rw [List.getElem?_drop] at hx
      by_contra hne
      have hxc : x = c := by simpa using hne
      subst hxc
      exact h3 (pos + k) (by omega) (by omega) hx

theorem find_eq_none_iff (s : List Char) (c : Char) (pos : Nat) :
    find s c pos = none ↔ ∀ j, pos ≤ j → s[j]? ≠ some c := by
  unfold find
  rw [findFrom_eq_none_iff]
  constructor
  · intro h j hj hc
    have hmem : c ∈ s.drop pos := by
      rw [List.mem_iff_getElem?]
      exact ⟨j - pos, by rw [List.getElem?_drop, ← hc]; congr 1; omega⟩
    simpa using h c hmem
  · intro h x hx
    rw [List.mem_iff_getElem?] at hx
    obtain ⟨k, hk⟩ := hx
    rw [List.getElem?_drop] at hk
    by_contra hne
    have hxc : x = c := by simpa using hne
    subst hxc
    exact h (pos + k) (by omega) hk

end JsonParser
theorem Container.place_nil (C : Container) (e : json_name × json_value) :
    C.place [] e = [e] :=
  List.perm_singleton.mp (C.place_perm [] e)

theorem Container.emplace_nil (C : Container) (k : json_name) (v : json_value) :
    C.emplace [] k v = [(k, v)] := by
  simp [Container.emplace, C.place_nil]


namespace JsonParser

theorem has_bracket_iff (s : List Char) : has_bracket s = true ↔ '[' ∈ s := by
  induction s with
  | nil => simp [has_bracket]
  | cons x xs ih =>
    rw [has_bracket]
    by_cases hx : x = '['
    · simp [hx]
    · have : (x == '[') = false := by simpa using hx
      simp only [this, Bool.false_eq_true, if_false, ih, List.mem_cons]
      constructor
      · exact Or.inr
      · rintro (h | h)
        · exact absurd h.symm hx
        · exact h

theorem match_close_none {o c : Char} (hoc : o ≠ c) : ∀ (w : List Char) (tmp count : Nat),
    1 ≤ count →
    (∀ k, k < w.length →
      (count : Int) + Int.ofNat ((w.take (k + 1)).count o)
        - Int.ofNat ((w.take (k + 1)).count c) ≠ 0) →
    match_close o c w tmp count = none
  | [], _, _, _, _ => rfl
  | x :: xs, tmp, count, hc, h => by
    rw [match_close]
    have h0 := h 0 (by simp)
    simp only [Nat.zero_add, List.take_succ_cons, List.take_zero] at h0
    by_cases hxo : x = o
    · have hxc : x ≠ c := fun e => hoc (hxo.symm.trans e)
      have e1 : (x == o) = true := by simpa using hxo
      simp only [e1, if_true, Nat.add_one_ne_zero, if_false]
      apply match_close_none hoc xs (tmp + 1) (count + 1) (by omega)
      intro k hk
      have := h (k + 1) (by simpa using hk)
      simp only [List.take_succ_cons] at this
      rw [List.count_cons, List.count_cons] at this
      simp only [e1, if_true, (by simpa using hxc : (x == c) = false), Bool.false_eq_true,
        if_false] at this
      simp only [Int.ofNat_eq_coe, Nat.cast_add, Nat.cast_one, add_zero] at this ⊢
      omega
    · have e1 : (x == o) = false := by simpa using hxo
      simp only [e1, Bool.false_eq_true, if_false]
      by_cases hxc : x = c
      · have e2 : (x == c) = true := by simpa using hxc
        simp only [e2, if_true]
        rw [List.count_cons, List.count_cons] at h0
        simp only [e1, e2, if_true, Bool.false_eq_true, if_false, List.count_nil,
          Int.ofNat_eq_coe, Nat.cast_add, Nat.cast_one, Nat.cast_zero] at h0
        have hne : count - 1 ≠ 0 := by omega
        simp only [hne, if_false]
        apply match_close_none hoc xs (tmp + 1) (count - 1) (by omega)
        intro k hk
        have := h (k + 1) (by simpa using hk)
        simp only [List.take_succ_cons] at this
        rw [List.count_cons, List.count_cons] at this
        simp only [e1, e2, if_true, Bool.false_eq_true, if_false] at this
        simp only [Int.ofNat_eq_coe, Nat.cast_add, Nat.cast_one, add_zero] at this ⊢
        omega
      · have e2 : (x == c) = false := by simpa using hxc
        simp only [e2, Bool.false_eq_true, if_false]
        have hne : count ≠ 0 := by omega
        simp only [hne, if_false]
        apply match_close_none hoc xs (tmp + 1) count hc
        intro k hk
        have := h (k + 1) (by simpa using hk)
        simp only [List.take_succ_cons] at this
        rw [List.count_cons, List.count_cons] at this
        simp only [e1, e2, Bool.false_eq_true, if_false] at this
        simp only [Int.ofNat_eq_coe, add_zero] at this ⊢
        omega

theorem not_mem_of_find_none {s : List Char} {c : Char} (h : c ∉ s) (pos : Nat) :
    find s c pos = none := by
  rw [find_eq_none_iff]
  intro j _ hj
  exact h (List.mem_iff_getElem?.mpr ⟨j, hj⟩)

end JsonParser

namespace json_serializer

theorem intercalate_cons_cons (sep a b : List Char) (l : List (List Char)) :
    List.intercalate sep (a :: b :: l) = a ++ (sep ++ List.intercalate sep (b :: l)) := by
  simp [List.intercalate, List.intersperse]

theorem array_loop_eq_intercalate : ∀ (ps : List (List Char)) (n : Nat),
    array_loop (n + ps.length) ps n = List.intercalate [','] ps
  | [], _ => by simp [array_loop, List.intercalate]
  | [p], n => by simp [array_loop, List.intercalate]
  | p :: q :: l, n => by
    rw [array_loop, intercalate_cons_cons]
    have h : n + 1 < n + (p :: q :: l).length := by simp
    simp only [h, if_true]
    have e : n + (p :: q :: l).length = (n + 1) + (q :: l).length := by
      simp only [List.length_cons]; omega
    rw [e, array_loop_eq_intercalate (q :: l) (n + 1)]

theorem object_loop_eq_intercalate : ∀ (ps : List (json_name × List Char)) (n : Nat),
    object_loop (n + ps.length) ps n =
      List.intercalate [','] (ps.map (fun p => '"' :: p.1 ++ '"' :: ':' :: p.2))
  | [], _ => by simp [object_loop, List.intercalate]
  | [p], n => by simp [object_loop, List.intercalate]
  | p :: q :: l, n => by
    rw [object_loop, List.map_cons, List.map_cons, intercalate_cons_cons]
    have h : n + 1 < n + (p :: q :: l).length := by simp
    simp only [h, if_true]
    have e : n + (p :: q :: l).length = (n + 1) + (q :: l).length := by
      simp only [List.length_cons]; omega
    rw [e, object_loop_eq_intercalate (q :: l) (n + 1), List.map_cons]

theorem visit_elements_length (fmt : double → List Char) :
    ∀ xs, (visit_elements fmt xs).length = xs.length
  | [] => rfl
  | x :: xs => by simp [visit_elements, visit_elements_length fmt xs]

theorem visit_entries_length (fmt : double → List Char) :
    ∀ xs, (visit_entries fmt xs).length = xs.length
  | [] => rfl
  | x :: xs => by simp [visit_entries, visit_entries_length fmt xs]

theorem render_elements_eq_map (fmt : double → List Char) :
    ∀ xs, render_elements fmt xs = xs.map (render fmt)
  | [] => rfl
  | x :: xs => by simp [render_elements, render_elements_eq_map fmt xs]

theorem render_entries_eq_map (fmt : double → List Char) :
    ∀ xs, render_entries fmt xs =
      xs.map (fun e => "\"".toList ++ e.1 ++ "\":".toList ++ render fmt e.2)
  | [] => rfl
  | x :: xs => by simp [render_entries, render_entries_eq_map fmt xs]

mutual
theorem visit_eq_render (fmt : double → List Char) : ∀ v, visit fmt v = render fmt v
  | .null => rfl
  | .bool b => by cases b <;> rfl
  | .number d => by simp [visit, render]
  | .string s => by simp [visit, render]
  | .array data => by
    rw [visit, render]
    cases data with
    | nil => rfl
    | cons x xs =>
      simp only [List.isEmpty_cons, Bool.false_eq_true, if_false]
      have := array_loop_eq_intercalate (visit_elements fmt (x :: xs)) 0
      rw [Nat.zero_add, visit_elements_length] at this
      rw [this, visit_elements_eq fmt (x :: xs)]
      rfl
  | .object data => by
    rw [visit, render]
    cases data with
    | nil => rfl
    | cons x xs =>
      simp only [List.isEmpty_cons, Bool.false_eq_true, if_false]
      have := object_loop_eq_intercalate (visit_entries fmt (x :: xs)) 0
      rw [Nat.zero_add, visit_entries_length] at this
      rw [this, visit_entries_eq fmt (x :: xs)]
      rfl
theorem visit_elements_eq (fmt : double → List Char) :
    ∀ xs, visit_elements fmt xs = render_elements fmt xs
  | [] => rfl
  | x :: xs => by
    rw [visit_elements, render_elements, visit_eq_render fmt x, visit_elements_eq fmt xs]
theorem visit_entries_eq (fmt : double → List Char) :
    ∀ xs, (visit_entries fmt xs).map (fun p => '"' :: p.1 ++ '"' :: ':' :: p.2) =
      render_entries fmt xs
  | [] => rfl
  | x :: xs => by
    rw [visit_entries, render_entries, List.map_cons, visit_eq_render fmt x.2,
      visit_entries_eq fmt xs]
    simp
end

end json_serializer

namespace std

theorem log2Aux_le : ∀ (f n k : Nat), n < 2 ^ (k + 1) → log2Aux f n ≤ k
  | 0, _, _, _ => by simp [log2Aux]
  | f + 1, n, k, h => by
    rw [log2Aux]
    by_cases h2 : 2 ≤ n
    · simp only [h2, if_true]
      cases k with
      | zero => simp at h; omega
      | succ k =>
        have : n / 2 < 2 ^ (k + 1) := by
          rw [Nat.div_lt_iff_lt_mul (by decide)]
          rw [pow_succ] at h; exact h
        have := log2Aux_le f (n / 2) k this
        omega
    · simp [h2]

theorem trailingZeros_fuel : ∀ (f g n : Nat), n ≤ f → n ≤ g → n ≠ 0 →
    trailingZeros f n = trailingZeros g n
  | 0, _, n, h, _, hn => by omega
  | f + 1, 0, n, _, h, hn => by omega
  | f + 1, g + 1, n, hf, hg, hn => by
    rw [trailingZeros, trailingZeros]
    by_cases h2 : n % 2 = 0 ∧ n ≠ 0
    · simp only [h2, and_self, if_true, ne_eq, not_false_eq_true]
      rw [trailingZeros_fuel f g (n / 2) (by omega) (by omega) (by omega)]
    · simp only [h2, if_false]

theorem trailingZeros_double (n : Nat) (hn : n ≠ 0) :
    trailingZeros (2 * n) (2 * n) = trailingZeros n n + 1 := by
  obtain ⟨m, hm⟩ : ∃ m, 2 * n = m + 1 := ⟨2 * n - 1, by omega⟩
  rw [hm, trailingZeros, ← hm]
  have h2 : (2 * n) % 2 = 0 ∧ 2 * n ≠ 0 := ⟨by omega, by omega⟩
  simp only [h2, and_self, if_true, ne_eq, not_false_eq_true]
  have e : 2 * n / 2 = n := by omega
  rw [e, trailingZeros_fuel m n n (by omega) (Nat.le_refl _) hn]

theorem canonical_double (m : Nat) (e : Int) (hm : m ≠ 0) :
    canonical (2 * m) (e - 1) = canonical m e := by
  unfold canonical
  have h2 : 2 * m ≠ 0 := by omega
  simp only [hm, h2, if_false]
  rw [trailingZeros_double m hm, pow_succ, Nat.mul_comm (2 ^ _) 2,
    Nat.mul_div_mul_left _ _ (by decide : 0 < 2)]
  congr 1
  simp only [Int.ofNat_eq_coe, Nat.cast_add, Nat.cast_one]
  omega

theorem canonical_shift (n : Nat) (hn : n ≠ 0) : ∀ k : Nat,
    canonical (n * 2 ^ k) (-(k : Int)) = canonical n 0
  | 0 => by simp
  | k + 1 => by
    have e1 : n * 2 ^ (k + 1) = 2 * (n * 2 ^ k) := by rw [pow_succ]; ring
    have e2 : (-((k + 1 : Nat) : Int)) = -(k : Int) - 1 := by push_cast; ring
    rw [e1, e2, canonical_double _ _ (by positivity), canonical_shift n hn k]

theorem floorLog2_one_bounds (n : Nat) (h : n < 2 ^ 53) :
    -1 ≤ floorLog2 n 1 ∧ floorLog2 n 1 ≤ 52 := by
  unfold floorLog2
  have h1 : log2 1 = 0 := by decide
  have h2 : log2 n ≤ 52 := log2Aux_le n n 52 h
  simp only [h1]
  split <;> constructor <;> simp only [Int.ofNat_eq_coe] <;> omega

theorem roundBinary64_exact (n : Nat) (hn : n ≠ 0) (h : n < 2 ^ 53) :
    roundBinary64 n 1 = some (exact n) := by
  obtain ⟨h1, h2⟩ := floorLog2_one_bounds n h
  unfold roundBinary64
  generalize floorLog2 n 1 = e at h1 h2
  have hu : max (e - 52) (-1074) = e - 52 := by omega
  simp only [hu]
  by_cases h0 : 0 ≤ e - 52
  · have he : e - 52 = 0 := by omega
    simp only [he, le_refl, if_true, Int.toNat_zero, pow_zero, Nat.mul_one, Nat.div_one,
      Nat.mod_one]
    simp [exact]
  · simp only [h0, if_false, Nat.div_one, Nat.mod_one]
    have hk : e - 52 = -(((-(e - 52)).toNat : Nat) : Int) := by
      rw [Int.toNat_of_nonneg (by omega)]; ring
    have hs := canonical_shift n hn (-(e - 52)).toNat
    rw [← hk] at hs
    have c1 : ¬ (e < -1022 ∧ (0 : Nat) ≠ 0) := by simp
    have c2 : ¬ (971 < e - 52 ∨ e - 52 = 971 ∧ n * 2 ^ (-(e - 52)).toNat = 2 ^ 53) := by omega
    simp only [Nat.mul_zero, Nat.lt_irrefl, false_or, Nat.zero_ne_one, and_false, if_false,
      c2, ne_eq, not_true_eq_false, and_false, hs, exact]
    have c3 : ¬ ((1 : Nat) < 0 ∨ False ∧ n * 2 ^ (-(e - 52)).toNat % 2 = 1) := by simp
    simp only [c3, if_false, c2, hs]

theorem toDouble_exact (n : Nat) (h : n < 2 ^ 53) : toDouble 10 n 0 = some (exact n) := by
  unfold toDouble
  by_cases hn : n = 0
  · subst hn
    simp [exact, canonical]
  · simp only [hn, if_false]
    have c1 : ¬ ((1100 : Int) < 0) := by omega
    have c2 : ¬ (Int.ofNat (log2 n) + 1100 < -0) := by
      simp only [Int.ofNat_eq_coe]; omega
    simp only [c1, c2, if_false, le_refl, if_true, Int.toNat_zero, pow_zero, Nat.mul_one]
    exact roundBinary64_exact n hn h

end std
namespace std

/-- What may follow a run of digits for `stod` to stop right after it. -/
theorem takeWhile_digits (ds rest : List Char) (hd : ∀ c ∈ ds, c.isDigit = true)
    (hr : ∀ c r, rest = c :: r → c.isDigit = false) :
    (ds ++ rest).takeWhile Char.isDigit = ds := by
  induction ds with
  | nil =>
    cases rest with
    | nil => rfl
    | cons c r => simp [List.takeWhile, hr c r rfl]
  | cons c ds ih =>
    have hc := hd c (List.mem_cons_self _ _)
    simp only [List.cons_append, List.takeWhile_cons, hc, if_true]
    rw [ih (fun x hx => hd x (List.mem_cons_of_mem _ hx))]

theorem lexExponent_stop (marker : Char → Bool) (rest : List Char)
    (hr : ∀ c r, rest = c :: r → marker c = false) : lexExponent marker rest = (0, 0) := by
  cases rest with
  | nil => rfl
  | cons c r => simp [lexExponent, hr c r rfl]

theorem lexFloat_digits (ds rest : List Char) (hne : ds ≠ [])
    (hd : ∀ c ∈ ds, c.isDigit = true)
    (hr : ∀ c r, rest = c :: r → c.isDigit = false ∧ c ≠ '.' ∧ c ≠ 'e' ∧ c ≠ 'E') :
    lexFloat Char.isDigit 10 1 (fun c => c == 'e' || c == 'E') (ds ++ rest) =
      some ⟨digitsVal 10 ds, 0, ds.length⟩ := by
  unfold lexFloat
  rw [takeWhile_digits ds rest hd (fun c r h => (hr c r h).1)]
  simp only [List.drop_left]
  have hemp : ds.isEmpty = false := by cases ds <;> simp_all
  split
  · exact absurd rfl (hr _ _ rfl).2.1
  · simp only [hemp, Bool.false_eq_true, if_false]
    rw [lexExponent_stop _ rest (fun c r h => by
      obtain ⟨_, _, h3, h4⟩ := hr c r h
      simp [h3, h4])]
    simp

theorem lexHex_digits (ds rest : List Char) (hne : ds ≠ [])
    (hd : ∀ c ∈ ds, c.isDigit = true)
    (hr : ∀ c r, rest = c :: r → c ≠ 'x' ∧ c ≠ 'X') : lexHex (ds ++ rest) = none := by
  unfold lexHex
  split
  · rename_i x t heq
    have hx : x ≠ 'x' ∧ x ≠ 'X' := by
      cases ds with
      | nil => exact absurd rfl hne
      | cons c ds =>
        cases ds with
        | nil =>
          simp only [List.cons_append, List.nil_append, List.cons.injEq] at heq
          exact hr x t heq.2
        | cons c2 ds =>
          simp only [List.cons_append, List.cons.injEq] at heq
          have := hd c2 (by simp)
          rw [heq.2.1] at this
          constructor <;> (intro h; rw [h] at this; revert this; decide)
    simp [hx.1, hx.2]
  · rfl

theorem stod_digits (ds rest : List Char) (hne : ds ≠ [])
    (hd : ∀ c ∈ ds, c.isDigit = true)
    (hr : ∀ c r, rest = c :: r →
      c.isDigit = false ∧ c ≠ '.' ∧ c ≠ 'e' ∧ c ≠ 'E' ∧ c ≠ 'x' ∧ c ≠ 'X') :
    stod (ds ++ rest) =
      match toDouble 10 (digitsVal 10 ds) 0 with
      | some d => .ok (d, ds.length)
      | none => .error .out_of_range := by
  unfold stod
  rw [lexHex_digits ds rest hne hd (fun c r h => ⟨(hr c r h).2.2.2.2.1, (hr c r h).2.2.2.2.2⟩),
    lexFloat_digits ds rest hne hd (fun c r h => ⟨(hr c r h).1, (hr c r h).2.1,
    (hr c r h).2.2.1, (hr c r h).2.2.2.1⟩)]
  try rfl

theorem digitVal_le (c : Char) (h : c.isDigit = true) : digitVal c ≤ 9 := by
  unfold digitVal
  simp only [h, if_true]
  simp only [Char.isDigit, Bool.and_eq_true, decide_eq_true_eq] at h
  have : c.toNat = c.val.toNat := rfl
  have h2 := h.2
  rw [UInt32.le_def] at h2
  simp only [this]
  have : c.val.toNat ≤ 57 := h2
  omega

theorem foldl_digits_lt : ∀ (ds : List Char) (acc : Nat), (∀ c ∈ ds, c.isDigit = true) →
    ds.foldl (fun a c => 10 * a + digitVal c) acc < (acc + 1) * 10 ^ ds.length
  | [], acc, _ => by simp
  | c :: ds, acc, h => by
    simp only [List.foldl_cons, List.length_cons]
    have h1 := digitVal_le c (h c (List.mem_cons_self _ _))
    have h2 := foldl_digits_lt ds (10 * acc + digitVal c)
      (fun x hx => h x (List.mem_cons_of_mem _ hx))
    calc _ < (10 * acc + digitVal c + 1) * 10 ^ ds.length := h2
      _ ≤ ((acc + 1) * 10) * 10 ^ ds.length := by
        apply Nat.mul_le_mul_right; omega
      _ = (acc + 1) * 10 ^ (ds.length + 1) := by rw [pow_succ]; ring

theorem digitsVal_lt (ds : List Char) (h : ∀ c ∈ ds, c.isDigit = true) :
    digitsVal 10 ds < 10 ^ ds.length := by
  have := foldl_digits_lt ds 0 h
  simpa [digitsVal] using this

theorem stod_digits_exact (ds rest : List Char) (hne : ds ≠ [])
    (hd : ∀ c ∈ ds, c.isDigit = true) (hlen : ds.length ≤ 15)
    (hr : ∀ c r, rest = c :: r →
      c.isDigit = false ∧ c ≠ '.' ∧ c ≠ 'e' ∧ c ≠ 'E' ∧ c ≠ 'x' ∧ c ≠ 'X') :
    stod (ds ++ rest) = .ok (exact (digitsVal 10 ds), ds.length) := by
  rw [stod_digits ds rest hne hd hr, toDouble_exact]
  have h1 := digitsVal_lt ds hd
  have h2 : 10 ^ ds.length ≤ 10 ^ 15 := Nat.pow_le_pow_right (by decide) hlen
  have h3 : (10 : Nat) ^ 15 < 2 ^ 53 := by decide
  omega

end std
namespace JsonParser

theorem drop_add_of_drop {s : List Char} {pos : Nat} {a b : List Char}
    (h : s.drop pos = a ++ b) : s.drop (pos + a.length) = b := by
  rw [← List.drop_drop, h, List.drop_left]

theorem drop_succ_of_drop {s : List Char} {pos : Nat} {a : Char} {b : List Char}
    (h : s.drop pos = a :: b) : s.drop (pos + 1) = b := by
  rw [← List.drop_drop, h]; rfl

theorem length_of_drop {s : List Char} {pos : Nat} {w : List Char}
    (h : s.drop pos = w) (hw : w ≠ []) : pos + w.length = s.length := by
  have h1 : (s.drop pos).length = w.length := by rw [h]
  rw [List.length_drop] at h1
  have : w.length ≠ 0 := by
    intro h0; exact hw (List.length_eq_zero.mp h0)
  omega

theorem find_of_drop {s : List Char} {c : Char} {pos : Nat} {w : List Char}
    (h : s.drop pos = w) : find s c pos = findFrom (fun x => x == c) w pos := by
  rw [find, h]

theorem findFrom_hit {p : Char → Bool} {x : Char} (xs : List Char) (i : Nat)
    (h : p x = true) : findFrom p (x :: xs) i = some i := by
  rw [findFrom, if_pos h]

theorem findFrom_skip {p : Char → Bool} : ∀ (a b : List Char) (i : Nat),
    (∀ x ∈ a, p x = false) → findFrom p (a ++ b) i = findFrom p b (i + a.length)
  | [], b, i, _ => by simp
  | x :: a, b, i, h => by
    have hx := h x (List.mem_cons_self _ _)
    rw [List.cons_append, findFrom, hx]
    simp only [Bool.false_eq_true, if_false, List.length_cons]
    rw [findFrom_skip a b (i + 1) (fun y hy => h y (List.mem_cons_of_mem _ hy))]
    congr 1; omega

theorem find_hit {s : List Char} {c : Char} {pos : Nat} {w : List Char}
    (h : s.drop pos = c :: w) : find s c pos = some pos := by
  rw [find_of_drop h, findFrom_hit]; simp

theorem find_skip_hit {s : List Char} {c : Char} {pos : Nat} {a w : List Char}
    (h : s.drop pos = a ++ c :: w) (ha : c ∉ a) : find s c pos = some (pos + a.length) := by
  rw [find_of_drop h, findFrom_skip, findFrom_hit]
  · simp
  · intro x hx
    have : x ≠ c := fun e => ha (e ▸ hx)
    simpa using this

theorem parse_string_at {s : List Char} {pos : Nat} {k rest : List Char}
    (h : s.drop pos = '"' :: (k ++ '"' :: rest)) (hk : '"' ∉ k) :
    parse_string s pos = .ok (k, pos + k.length + 2) := by
  unfold parse_string
  rw [find_hit h]
  simp only
  have h2 := drop_succ_of_drop h
  rw [find_skip_hit h2 hk]
  simp only [substr, h2]
  have e : pos + 1 + k.length + 1 - 1 - (pos + 1) = k.length := by omega
  rw [e, List.take_left]
  congr 2
  omega

theorem find_marker_hit {c : Char} (w : List Char) (i : Nat) (h : is_marker c = true) :
    find_marker (c :: w) i = some (i, c) := by
  rw [find_marker, if_pos h]

/-! ### Bracket matching over balanced text -/

theorem match_close_step_neutral {o c x : Char} (hxo : x ≠ o) (hxc : x ≠ c)
    (w : List Char) (tmp count : Nat) (hc : 1 ≤ count) :
    match_close o c (x :: w) tmp count = match_close o c w (tmp + 1) count := by
  rw [match_close]
  have e1 : (x == o) = false := by simpa using hxo
  have e2 : (x == c) = false := by simpa using hxc
  have e3 : count ≠ 0 := by omega
  simp only [e1, e2, Bool.false_eq_true, if_false, e3]

theorem match_close_step_open {o c : Char}
    (w : List Char) (tmp count : Nat) :
    match_close o c (o :: w) tmp count = match_close o c w (tmp + 1) (count + 1) := by
  rw [match_close]
  simp

theorem match_close_step_close {o c : Char} (hoc : o ≠ c)
    (w : List Char) (tmp count : Nat) (hc : 2 ≤ count) :
    match_close o c (c :: w) tmp count = match_close o c w (tmp + 1) (count - 1) := by
  rw [match_close]
  have e1 : (c == o) = false := by simpa using hoc.symm
  have e3 : count - 1 ≠ 0 := by omega
  simp only [e1, Bool.false_eq_true, if_false, beq_self_eq_true, if_true, e3]

theorem match_close_final {o c : Char} (hoc : o ≠ c) (w : List Char) (tmp : Nat) :
    match_close o c (c :: w) tmp 1 = some tmp := by
  rw [match_close]
  have e1 : (c == o) = false := by simpa using hoc.symm
  simp [e1]

theorem Matched.nil (o c : Char) : Matched o c [] := by
  intro rest tmp count _; simp

theorem Matched.cons_neutral {o c x : Char} (hxo : x ≠ o) (hxc : x ≠ c) {w : List Char}
    (hw : Matched o c w) : Matched o c (x :: w) := by
  intro rest tmp count hc
  rw [List.cons_append, match_close_step_neutral hxo hxc _ _ _ hc, hw rest _ count hc]
  congr 1; simp only [List.length_cons]; omega

theorem Matched.neutral {o c : Char} : ∀ (w : List Char), o ∉ w → c ∉ w → Matched o c w
  | [], _, _ => Matched.nil o c
  | x :: w, ho, hc =>
    Matched.cons_neutral (fun e => ho (by rw [e]; exact List.mem_cons_self _ _))
      (fun e => hc (by rw [e]; exact List.mem_cons_self _ _))
      (Matched.neutral w (fun h => ho (List.mem_cons_of_mem _ h))
        (fun h => hc (List.mem_cons_of_mem _ h)))

theorem Matched.append {o c : Char} {a b : List Char} (ha : Matched o c a)
    (hb : Matched o c b) : Matched o c (a ++ b) := by
  intro rest tmp count hc
  rw [List.append_assoc, ha _ _ _ hc, hb _ _ _ hc]
  congr 1; simp only [List.length_append]; omega

theorem Matched.wrap {o c : Char} (hoc : o ≠ c) {w : List Char} (hw : Matched o c w) :
    Matched o c (o :: (w ++ [c])) := by
  intro rest tmp count hc
  rw [List.cons_append, match_close_step_open, List.append_assoc, hw _ _ _ (by omega)]
  rw [List.singleton_append, match_close_step_close hoc _ _ _ (by omega)]
  congr 1
  simp only [List.length_cons, List.length_append, List.length_nil]; omega

theorem match_close_balanced {o c : Char} (hoc : o ≠ c) {w : List Char}
    (hw : Matched o c w) (rest : List Char) (tmp : Nat) :
    match_close o c (w ++ c :: rest) tmp 1 = some (tmp + w.length) := by
  rw [hw _ _ _ (Nat.le_refl 1), match_close_final hoc]

end JsonParser
namespace JsonParser
open Doc

/-- The scan for `o` ... `c` runs over a document checked under the flags `io`, `ia`. -/
theorem clean_not_mem {io ia : Bool} {t : List Char} (ht : clean io ia t) {o c : Char}
    (h : (o = '{' ∧ c = '}' ∧ io = true) ∨ (o = '[' ∧ c = ']' ∧ ia = true)) :
    o ∉ t ∧ c ∉ t := by
  obtain ⟨_, h2, h3, h4⟩ := ht
  rcases h with ⟨rfl, rfl, hio⟩ | ⟨rfl, rfl, hia⟩
  · exact h3 hio
  · exact ⟨h2, h4 hia⟩

theorem scalar_matched {io ia : Bool} {t : List Char} {v : json_value}
    (hs : Scalar io ia t v) {o c : Char}
    (h : (o = '{' ∧ c = '}' ∧ io = true) ∨ (o = '[' ∧ c = ']' ∧ ia = true)) :
    Matched o c t := by
  cases hs with
  | null => apply Matched.neutral <;> rcases h with ⟨rfl, rfl, _⟩ | ⟨rfl, rfl, _⟩ <;> decide
  | true => apply Matched.neutral <;> rcases h with ⟨rfl, rfl, _⟩ | ⟨rfl, rfl, _⟩ <;> decide
  | false => apply Matched.neutral <;> rcases h with ⟨rfl, rfl, _⟩ | ⟨rfl, rfl, _⟩ <;> decide
  | string str hc =>
    obtain ⟨h1, h2⟩ := clean_not_mem hc h
    have ho : o ≠ '"' := by rcases h with ⟨rfl, _, _⟩ | ⟨rfl, _, _⟩ <;> decide
    have hc' : c ≠ '"' := by rcases h with ⟨_, rfl, _⟩ | ⟨_, rfl, _⟩ <;> decide
    apply Matched.neutral
    · simp only [List.mem_cons, List.mem_append, List.mem_singleton, not_or, List.not_mem_nil,
        or_false]
      exact ⟨ho, h1, ho⟩
    · simp only [List.mem_cons, List.mem_append, List.mem_singleton, not_or, List.not_mem_nil,
        or_false]
      exact ⟨hc', h2, hc'⟩
  | number t d hn =>
    obtain ⟨_, hb, _⟩ := hn
    apply Matched.neutral
    · intro hm
      have := hb o hm
      rcases h with ⟨rfl, _, _⟩ | ⟨rfl, _, _⟩ <;> simp at this
    · intro hm
      have := hb c hm
      rcases h with ⟨_, rfl, _⟩ | ⟨_, rfl, _⟩ <;> simp at this

theorem matched_brackets {o c : Char} {p q : Char} {w : List Char}
    (hw : Matched o c w)
    (h : (p = o ∧ q = c ∧ o ≠ c) ∨ (p ≠ o ∧ p ≠ c ∧ q ≠ o ∧ q ≠ c)) :
    Matched o c (p :: (w ++ [q])) := by
  rcases h with ⟨rfl, rfl, hoc⟩ | ⟨h1, h2, h3, h4⟩
  · exact Matched.wrap hoc hw
  · exact Matched.cons_neutral h1 h2 (Matched.append hw
      (Matched.cons_neutral h3 h4 (Matched.nil o c)))

theorem key_matched {io ia : Bool} {k : List Char} (hk : clean io ia k) {o c : Char}
    (h : (o = '{' ∧ c = '}' ∧ io = true) ∨ (o = '[' ∧ c = ']' ∧ ia = true))
    {w : List Char} (hw : Matched o c w) :
    Matched o c ('"' :: (k ++ '"' :: ':' :: w)) := by
  obtain ⟨h1, h2⟩ := clean_not_mem hk h
  have ho : o ≠ '"' ∧ o ≠ ':' := by
    rcases h with ⟨rfl, _, _⟩ | ⟨rfl, _, _⟩ <;> exact ⟨by decide, by decide⟩
  have hc : c ≠ '"' ∧ c ≠ ':' := by
    rcases h with ⟨_, rfl, _⟩ | ⟨_, rfl, _⟩ <;> exact ⟨by decide, by decide⟩
  refine Matched.cons_neutral ho.1.symm hc.1.symm (Matched.append (Matched.neutral k h1 h2) ?_)
  exact Matched.cons_neutral ho.1.symm hc.1.symm (Matched.cons_neutral ho.2.symm hc.2.symm hw)

mutual
theorem doc_matched {o c : Char} : ∀ (d : Doc) (io ia : Bool), WF io ia d →
    ((o = '{' ∧ c = '}' ∧ io = true) ∨ (o = '[' ∧ c = ']' ∧ ia = true)) →
    Matched o c (text d)
  | .scalar t v, io, ia, hwf, h => by
    rw [text]; rw [WF] at hwf; exact scalar_matched hwf h
  | .array [], io, ia, _, h => by
    rw [text]
    have := matched_brackets (p := '[') (q := ']') (Matched.nil o c) (by
      rcases h with ⟨rfl, rfl, _⟩ | ⟨rfl, rfl, _⟩
      · right; decide
      · left; decide)
    simpa using this
  | .array (d :: ds), io, ia, hwf, h => by
    rw [text]
    rw [WF, WF_items] at hwf
    have h' : (o = '{' ∧ c = '}' ∧ io = true) ∨ (o = '[' ∧ c = ']' ∧ true = true) := by
      rcases h with h | ⟨h1, h2, _⟩
      · exact Or.inl h
      · exact Or.inr ⟨h1, h2, rfl⟩
    have m1 := doc_matched d io true hwf.1 h'
    have m2 := items_tail_matched ds io true hwf.2 h'
    have := matched_brackets (p := '[') (q := ']') (Matched.append m1 m2) (by
      rcases h with ⟨rfl, rfl, _⟩ | ⟨rfl, rfl, _⟩
      · right; decide
      · left; decide)
    simpa using this
  | .object [], io, ia, _, h => by
    rw [text]
    have := matched_brackets (p := '{') (q := '}') (Matched.nil o c) (by
      rcases h with ⟨rfl, rfl, _⟩ | ⟨rfl, rfl, _⟩
      · left; decide
      · right; decide)
    simpa using this
  | .object (e :: es), io, ia, hwf, h => by
    rw [text]
    rw [WF, WF_entries] at hwf
    have h' : (o = '{' ∧ c = '}' ∧ true = true) ∨ (o = '[' ∧ c = ']' ∧ ia = true) := by
      rcases h with ⟨h1, h2, _⟩ | h
      · exact Or.inl ⟨h1, h2, rfl⟩
      · exact Or.inr h
    have m1 := doc_matched e.2 true ia hwf.2.1 h'
    have m2 := entries_tail_matched es true ia hwf.2.2 h'
    have m3 := key_matched hwf.1 h' (Matched.append m1 m2)
    have := matched_brackets (p := '{') (q := '}') m3 (by
      rcases h with ⟨rfl, rfl, _⟩ | ⟨rfl, rfl, _⟩
      · left; decide
      · right; decide)
    simpa using this
theorem items_tail_matched {o c : Char} : ∀ (ds : List Doc) (io ia : Bool),
    WF_items io ia ds →
    ((o = '{' ∧ c = '}' ∧ io = true) ∨ (o = '[' ∧ c = ']' ∧ ia = true)) →
    Matched o c (items_tail ds)
  | [], _, _, _, _ => by rw [items_tail]; exact Matched.nil o c
  | d :: ds, io, ia, hwf, h => by
    rw [items_tail]
    rw [WF_items] at hwf
    have ho : ',' ≠ o ∧ ',' ≠ c := by
      rcases h with ⟨rfl, rfl, _⟩ | ⟨rfl, rfl, _⟩ <;> exact ⟨by decide, by decide⟩
    exact Matched.cons_neutral ho.1 ho.2
      (Matched.append (doc_matched d io ia hwf.1 h) (items_tail_matched ds io ia hwf.2 h))
theorem entries_tail_matched {o c : Char} : ∀ (es : List (json_name × Doc)) (io ia : Bool),
    WF_entries io ia es →
    ((o = '{' ∧ c = '}' ∧ io = true) ∨ (o = '[' ∧ c = ']' ∧ ia = true)) →
    Matched o c (entries_tail es)
  | [], _, _, _, _ => by rw [entries_tail]; exact Matched.nil o c
  | e :: es, io, ia, hwf, h => by
    rw [entries_tail]
    rw [WF_entries] at hwf
    have ho : ',' ≠ o ∧ ',' ≠ c := by
      rcases h with ⟨rfl, rfl, _⟩ | ⟨rfl, rfl, _⟩ <;> exact ⟨by decide, by decide⟩
    exact Matched.cons_neutral ho.1 ho.2
      (key_matched hwf.1 h (Matched.append (doc_matched e.2 io ia hwf.2.1 h)
        (entries_tail_matched es io ia hwf.2.2 h)))
end

end JsonParser
namespace JsonParser
open Doc

theorem isDigit_iff (c : Char) : c.isDigit = true ↔ ('0' ≤ c ∧ c ≤ '9') := by
  simp only [Char.isDigit, Bool.and_eq_true, decide_eq_true_eq]
  rfl

theorem digit_is_marker {c : Char} (h : c.isDigit = true) : is_marker c = true := by
  have := (isDigit_iff c).mp h
  simp [is_marker, this.1, this.2]

theorem digit_ne {c : Char} (h : c.isDigit = true) (x : Char) (hx : x.isDigit = false) :
    (c == x) = false := by
  have : c ≠ x := by
    intro e; rw [e] at h; rw [h] at hx; exact absurd hx (by decide)
  simpa using this

theorem value_at_scalar (C : Container) {io ia : Bool} {t : List Char} {v : json_value}
    (hs : Scalar io ia t v) {s : List Char} {pos : Nat} {rest : List Char}
    (hd : s.drop pos = t ++ rest) (hr : Terminated rest) (rpos : Nat) :
    value_at C s pos rpos = .ok (v, pos + t.length) := by
  rw [value_at_eq, hd]
  cases hs with
  | null =>
    have hl := length_of_drop hd (by simp)
    simp only [List.cons_append, List.length_cons, List.length_append] at hl
    rw [List.cons_append, find_marker_hit _ _ (by decide)]
    have e : substr s pos 4 = ['n', 'u', 'l', 'l'] := by simp [substr, hd]
    have e2 : ¬ (s.length < pos + 4) := by omega
    simp [e, e2]
  | true =>
    have hl := length_of_drop hd (by simp)
    simp only [List.cons_append, List.length_cons, List.length_append] at hl
    rw [List.cons_append, find_marker_hit _ _ (by decide)]
    have e : substr s pos 4 = ['t', 'r', 'u', 'e'] := by simp [substr, hd]
    have e2 : ¬ (s.length < pos + 4) := by omega
    simp [e, e2]
  | false =>
    have hl := length_of_drop hd (by simp)
    simp only [List.cons_append, List.length_cons, List.length_append] at hl
    rw [List.cons_append, find_marker_hit _ _ (by decide)]
    have e : substr s pos 5 = ['f', 'a', 'l', 's', 'e'] := by simp [substr, hd]
    have e2 : ¬ (s.length < pos + 5) := by omega
    simp [e, e2]
  | string str hc =>
    rw [List.cons_append, find_marker_hit _ _ (by decide)]
    have hd' : s.drop pos = '"' :: (str ++ '"' :: rest) := by simp [hd]
    simp [parse_string_at hd' hc.1]
    omega
  | number t d hn =>
    obtain ⟨⟨c, r, rfl, hc⟩, _, hst⟩ := hn
    rw [List.cons_append, find_marker_hit _ _ (digit_is_marker hc)]
    have hdig := (isDigit_iff c).mp hc
    have e : substr s pos 16 = ((c :: r) ++ rest).take 16 := by simp [substr, hd]
    simp only [digit_ne hc '{' (by decide), digit_ne hc '[' (by decide),
      digit_ne hc '"' (by decide), Bool.false_eq_true, if_false, hdig.1, hdig.2,
      decide_True, Bool.and_self, if_true, e, hst rest hr]

end JsonParser
namespace JsonParser
open Doc

theorem getElem?_of_drop {s : List Char} {pos : Nat} {c : Char} {w : List Char}
    (h : s.drop pos = c :: w) : s[pos]? = some c := by
  have := List.getElem?_drop (L := s) (i := pos) (j := 0)
  rw [h] at this
  simpa using this.symm

/-- After the last element: the search for a comma either fails or lands beyond the closing
bracket, and the loop stops in both cases. -/
theorem object_loop_done (C : Container) {s : List Char} {tmp : Nat} {c : Char}
    {rest : List Char} (hd : s.drop tmp = c :: rest) (hc : c ≠ ',') (out : json_object) :
    object_next C s (tmp + 1) tmp out = .ok out := by
  unfold object_next
  cases hf : find s ',' tmp with
  | none => rfl
  | some comma =>
    simp only
    have h1 := (find_eq_some_iff _ _ _ _).mp hf
    have h2 := getElem?_of_drop hd
    have hne : comma ≠ tmp := by
      intro e
      subst e
      have h3 := h1.2.1
      rw [h2] at h3
      exact hc (Option.some.inj h3)
    have := h1.1
    rw [object_loop_at_eq, if_neg (by omega)]

theorem array_loop_done (C : Container) {s : List Char} {tmp : Nat} {c : Char}
    {rest : List Char} (hd : s.drop tmp = c :: rest) (hc : c ≠ ',') (out : json_array) :
    array_next C s (tmp + 1) tmp out = .ok out := by
  unfold array_next
  cases hf : find s ',' tmp with
  | none => rfl
  | some comma =>
    simp only
    have h1 := (find_eq_some_iff _ _ _ _).mp hf
    have h2 := getElem?_of_drop hd
    have hne : comma ≠ tmp := by
      intro e
      subst e
      have h3 := h1.2.1
      rw [h2] at h3
      exact hc (Option.some.inj h3)
    have := h1.1
    rw [array_loop_at_eq, if_neg (by omega)]

/-- One round of the element loop of `parse_object` on an entry `"k":d`. -/
theorem object_entry_step (C : Container) {k : List Char} {d : Doc} (hk : '"' ∉ k)
    {s : List Char} {rpos cursor : Nat} {T : List Char}
    (hv : value_at C s (cursor + k.length + 3) (rpos - 1) =
      .ok (value C d, cursor + k.length + 3 + (text d).length))
    (hd : s.drop cursor = '"' :: (k ++ '"' :: ':' :: (text d ++ T)))
    (hlt : cursor < rpos - 1) (out : json_object) :
    object_loop_at C s rpos cursor out =
      object_next C s rpos (cursor + k.length + 3 + (text d).length)
        (C.emplace out k (value C d)) := by
  rw [object_loop_at_eq, if_pos hlt, parse_string_at hd hk]
  simp only
  have h1 : s.drop (cursor + k.length + 2) = ':' :: (text d ++ T) := by
    have := drop_add_of_drop (a := '"' :: (k ++ ['"'])) (b := ':' :: (text d ++ T))
      (by simpa using hd)
    simpa [Nat.add_assoc] using this
  rw [find_hit h1]
  simp only
  rw [hv]
  try rfl

/-- One round of the element loop of `parse_array` on an element `d`. -/
theorem array_item_step (C : Container) {d : Doc}
    {s : List Char} {rpos cursor : Nat}
    (hv : value_at C s cursor (rpos - 1) = .ok (value C d, cursor + (text d).length))
    (hlt : cursor < rpos - 1) (out : json_array) :
    array_loop_at C s rpos cursor out =
      array_next C s rpos (cursor + (text d).length) (out ++ [value C d]) := by
  rw [array_loop_at_eq, if_pos hlt, hv]
  try rfl

end JsonParser
namespace JsonParser
open Doc

theorem terminated_entries_tail (es : List (json_name × Doc)) (rest : List Char) :
    Terminated (entries_tail es ++ '}' :: rest) := by
  cases es with
  | nil => exact Or.inr ⟨'}', rest, by simp [entries_tail], by simp⟩
  | cons e es => exact Or.inr ⟨',', _, by rw [entries_tail]; rfl, by simp⟩

theorem terminated_items_tail (ds : List Doc) (rest : List Char) :
    Terminated (items_tail ds ++ ']' :: rest) := by
  cases ds with
  | nil => exact Or.inr ⟨']', rest, by simp [items_tail], by simp⟩
  | cons e es => exact Or.inr ⟨',', _, by rw [items_tail]; rfl, by simp⟩

theorem text_object_cons (e : json_name × Doc) (es : List (json_name × Doc))
    (rest : List Char) :
    text (.object (e :: es)) ++ rest =
      '{' :: (('"' :: (e.1 ++ '"' :: ':' :: (text e.2 ++ entries_tail es))) ++ '}' :: rest) := by
  rw [text]; simp

theorem text_array_cons (d : Doc) (ds : List Doc) (rest : List Char) :
    text (.array (d :: ds)) ++ rest = '[' :: ((text d ++ items_tail ds) ++ ']' :: rest) := by
  rw [text]; simp

mutual
theorem value_at_doc (C : Container) : ∀ (d : Doc) (io ia : Bool), WF io ia d →
    ∀ (s : List Char) (pos : Nat) (rest : List Char) (rpos : Nat),
      s.drop pos = text d ++ rest → Terminated rest →
      value_at C s pos rpos = .ok (value C d, pos + (text d).length)
  | .scalar t v, io, ia, hwf, s, pos, rest, rpos, hd, hr => by
    rw [WF] at hwf
    rw [text] at hd ⊢
    rw [value]
    exact value_at_scalar C hwf hd hr rpos
  | .array items, io, ia, hwf, s, pos, rest, rpos, hd, _ => by
    rw [WF] at hwf
    have h1 := array_at_doc C items io hwf s pos rest hd
    have hhead : ∃ X, text (.array items) ++ rest = '[' :: X := by
      cases items with
      | nil => exact ⟨_, by rw [text]; rfl⟩
      | cons d ds => exact ⟨_, text_array_cons d ds rest⟩
    obtain ⟨X, hX⟩ := hhead
    rw [value_at_eq, hd, hX, find_marker_hit _ _ (by decide)]
    simp [h1, value]
  | .object entries, io, ia, hwf, s, pos, rest, rpos, hd, _ => by
    rw [WF] at hwf
    have h1 := object_at_doc C entries ia hwf s pos rest hd
    have hhead : ∃ X, text (.object entries) ++ rest = '{' :: X := by
      cases entries with
      | nil => exact ⟨_, by rw [text]; rfl⟩
      | cons d ds => exact ⟨_, text_object_cons d ds rest⟩
    obtain ⟨X, hX⟩ := hhead
    rw [value_at_eq, hd, hX, find_marker_hit _ _ (by decide)]
    simp [h1, value]
theorem object_at_doc (C : Container) : ∀ (es : List (json_name × Doc)) (ia : Bool),
    WF_entries true ia es → ∀ (s : List Char) (pos : Nat) (rest : List Char),
      s.drop pos = text (.object es) ++ rest →
      object_at C s pos = .ok (build C es [], pos + (text (.object es)).length)
  | [], ia, _, s, pos, rest, hd => by
    have hd' : s.drop pos = '{' :: '}' :: rest := by rw [hd, text]; rfl
    rw [object_at_eq, find_hit hd']
    simp only
    rw [drop_succ_of_drop hd', match_close_final (by decide)]
    simp only
    rw [object_loop_at_eq, if_neg (by omega)]
    simp [build, text]
  | e :: es, ia, hwf, s, pos, rest, hd => by
    rw [WF_entries] at hwf
    obtain ⟨hk, hwd, hwes⟩ := hwf
    rw [text_object_cons] at hd
    have hbody : Matched '{' '}' ('"' :: (e.1 ++ '"' :: ':' :: (text e.2 ++ entries_tail es))) :=
      key_matched hk (Or.inl ⟨rfl, rfl, rfl⟩)
        (Matched.append (doc_matched e.2 true ia hwd (Or.inl ⟨rfl, rfl, rfl⟩))
          (entries_tail_matched es true ia hwes (Or.inl ⟨rfl, rfl, rfl⟩)))
    rw [object_at_eq, find_hit hd]
    simp only
    have hd1 := drop_succ_of_drop hd
    rw [hd1, match_close_balanced (by decide) hbody]
    simp only
    have hdc : s.drop (pos + 1) =
        '"' :: (e.1 ++ '"' :: ':' :: (text e.2 ++ (entries_tail es ++ '}' :: rest))) := by
      rw [hd1]; simp
    have hdv : s.drop (pos + 1 + e.1.length + 3) = text e.2 ++ (entries_tail es ++ '}' :: rest) := by
      have := drop_add_of_drop (a := '"' :: (e.1 ++ ['"', ':']))
        (b := text e.2 ++ (entries_tail es ++ '}' :: rest)) (by simpa using hdc)
      simpa [Nat.add_assoc] using this
    have hv := value_at_doc C e.2 true ia hwd s _ _
      (pos + 1 + ('"' :: (e.1 ++ '"' :: ':' :: (text e.2 ++ entries_tail es))).length + 1 - 1)
      hdv (terminated_entries_tail es rest)
    rw [object_entry_step C hk.1 hv hdc (by simp)]
    have hdt := drop_add_of_drop hdv
    have ht := object_tail C es ia hwes s _ (C.emplace [] e.1 (value C e.2)) rest
      (pos + 1 + ('"' :: (e.1 ++ '"' :: ':' :: (text e.2 ++ entries_tail es))).length + 1)
      hdt (by simp; omega)
    rw [ht]
    simp only [build, Result.ok.injEq, Prod.mk.injEq, true_and]
    rw [text]
    simp
    omega
theorem object_tail (C : Container) : ∀ (es : List (json_name × Doc)) (ia : Bool),
    WF_entries true ia es → ∀ (s : List Char) (tmp : Nat) (out : json_object)
      (rest : List Char) (rpos : Nat),
      s.drop tmp = entries_tail es ++ '}' :: rest →
      rpos = tmp + (entries_tail es).length + 1 →
      object_next C s rpos tmp out = .ok (build C es out)
  | [], ia, _, s, tmp, out, rest, rpos, hd, hr => by
    have hd' : s.drop tmp = '}' :: rest := by rw [hd, entries_tail]; rfl
    have hr' : rpos = tmp + 1 := by rw [hr, entries_tail]; rfl
    rw [hr', build]
    exact object_loop_done C hd' (by decide) out
  | e :: es, ia, hwf, s, tmp, out, rest, rpos, hd, hr => by
    rw [WF_entries] at hwf
    obtain ⟨hk, hwd, hwes⟩ := hwf
    have hd0 : s.drop tmp =
        ',' :: ('"' :: (e.1 ++ '"' :: ':' :: (text e.2 ++ (entries_tail es ++ '}' :: rest)))) := by
      rw [hd, entries_tail]; simp
    rw [object_next, find_hit hd0]
    simp only
    have hdc := drop_succ_of_drop hd0
    have hdv : s.drop (tmp + 1 + e.1.length + 3) = text e.2 ++ (entries_tail es ++ '}' :: rest) := by
      have := drop_add_of_drop (a := '"' :: (e.1 ++ ['"', ':']))
        (b := text e.2 ++ (entries_tail es ++ '}' :: rest)) (by simpa using hdc)
      simpa [Nat.add_assoc] using this
    have hv := value_at_doc C e.2 true ia hwd s _ _ (rpos - 1) hdv
      (terminated_entries_tail es rest)
    have hlen : (entries_tail (e :: es)).length =
        1 + (1 + (e.1.length + (1 + (1 + ((text e.2).length + (entries_tail es).length))))) := by
      rw [entries_tail]; simp; omega
    rw [object_entry_step C hk.1 hv hdc (by omega)]
    have hdt := drop_add_of_drop hdv
    rw [object_tail C es ia hwes s _ (C.emplace out e.1 (value C e.2)) rest rpos hdt (by omega)]
    rw [build]
theorem array_at_doc (C : Container) : ∀ (ds : List Doc) (io : Bool),
    WF_items io true ds → ∀ (s : List Char) (pos : Nat) (rest : List Char),
      s.drop pos = text (.array ds) ++ rest →
      array_at C s pos = .ok (values C ds, pos + (text (.array ds)).length)
  | [], io, _, s, pos, rest, hd => by
    have hd' : s.drop pos = '[' :: ']' :: rest := by rw [hd, text]; rfl
    rw [array_at_eq, find_hit hd']
    simp only
    rw [drop_succ_of_drop hd', match_close_final (by decide)]
    simp only
    rw [array_loop_at_eq, if_neg (by omega)]
    simp [values, text]
  | d :: ds, io, hwf, s, pos, rest, hd => by
    rw [WF_items] at hwf
    obtain ⟨hwd, hwds⟩ := hwf
    rw [text_array_cons] at hd
    have hbody : Matched '[' ']' (text d ++ items_tail ds) :=
      Matched.append (doc_matched d io true hwd (Or.inr ⟨rfl, rfl, rfl⟩))
        (items_tail_matched ds io true hwds (Or.inr ⟨rfl, rfl, rfl⟩))
    rw [array_at_eq, find_hit hd]
    simp only
    have hd1 := drop_succ_of_drop hd
    rw [hd1, match_close_balanced (by decide) hbody]
    simp only
    have hdv : s.drop (pos + 1) = text d ++ (items_tail ds ++ ']' :: rest) := by
      rw [hd1]; simp
    have hv := value_at_doc C d io true hwd s _ _
      (pos + 1 + (text d ++ items_tail ds).length + 1 - 1) hdv (terminated_items_tail ds rest)
    have hpos : 0 < (text d).length := by
      cases d with
      | scalar t v =>
        rw [WF] at hwd
        rw [text]
        cases hwd with
        | number t d hn => obtain ⟨⟨c, r, rfl, _⟩, _⟩ := hn; simp
        | _ => simp
      | array items => cases items <;> simp [text]
      | object entries => cases entries <;> simp [text]
    rw [array_item_step C hv (by simp; omega)]
    have hdt := drop_add_of_drop hdv
    have ht := array_tail C ds io hwds s _ ([] ++ [value C d]) rest
      (pos + 1 + (text d ++ items_tail ds).length + 1) hdt (by simp; omega)
    rw [ht]
    simp only [values, Result.ok.injEq, Prod.mk.injEq]
    rw [text]
    simp
    omega
theorem array_tail (C : Container) : ∀ (ds : List Doc) (io : Bool),
    WF_items io true ds → ∀ (s : List Char) (tmp : Nat) (out : json_array)
      (rest : List Char) (rpos : Nat),
      s.drop tmp = items_tail ds ++ ']' :: rest →
      rpos = tmp + (items_tail ds).length + 1 →
      array_next C s rpos tmp out = .ok (out ++ values C ds)
  | [], io, _, s, tmp, out, rest, rpos, hd, hr => by
    have hd' : s.drop tmp = ']' :: rest := by rw [hd, items_tail]; rfl
    have hr' : rpos = tmp + 1 := by rw [hr, items_tail]; rfl
    rw [hr', values, List.append_nil]
    exact array_loop_done C hd' (by decide) out
  | d :: ds, io, hwf, s, tmp, out, rest, rpos, hd, hr => by
    rw [WF_items] at hwf
    obtain ⟨hwd, hwds⟩ := hwf
    have hd0 : s.drop tmp = ',' :: (text d ++ (items_tail ds ++ ']' :: rest)) := by
      rw [hd, items_tail]; simp
    rw [array_next, find_hit hd0]
    simp only
    have hdv := drop_succ_of_drop hd0
    have hv := value_at_doc C d io true hwd s _ _ (rpos - 1) hdv (terminated_items_tail ds rest)
    have hlen : (items_tail (d :: ds)).length = 1 + ((text d).length + (items_tail ds).length) := by
      rw [items_tail]; simp; omega
    have hpos : 0 < (text d).length := by
      cases d with
      | scalar t v =>
        rw [WF] at hwd
        rw [text]
        cases hwd with
        | number t d hn => obtain ⟨⟨c, r, rfl, _⟩, _⟩ := hn; simp
        | _ => simp
      | array items => cases items <;> simp [text]
      | object entries => cases entries <;> simp [text]
    rw [array_item_step C hv (by omega)]
    have hdt := drop_add_of_drop hdv
    rw [array_tail C ds io hwds s _ (out ++ [value C d]) rest rpos hdt (by omega)]
    rw [values]
    simp
end

end JsonParser
namespace JsonParser
open Doc

theorem not_mem_iff_has_bracket (s : List Char) : has_bracket s = false ↔ '[' ∉ s := by
  rw [← Bool.not_eq_true, has_bracket_iff]

/-- An object document without any `[` is parsed as the object it stands for. -/
theorem parse_object_doc (C : Container) (es : List (json_name × Doc))
    (hwf : WF_entries true false es) (hno : '[' ∉ text (.object es)) :
    parse C (text (.object es)) = .ok (build C es []) := by
  rw [parse_eq, (not_mem_iff_has_bracket _).mpr hno]
  simp only [Bool.false_eq_true, if_false]
  rw [object_at_doc C es false hwf (text (.object es)) 0 [] (by simp)]

theorem text_array_head (ds : List Doc) : ∃ X, text (.array ds) = '[' :: X := by
  cases ds with
  | nil => exact ⟨_, by rw [text]⟩
  | cons d ds => exact ⟨_, by rw [text]⟩

/-- An array document is parsed as the object that holds its array under the empty key. -/
theorem parse_array_doc (C : Container) (ds : List Doc) (hwf : WF_items false true ds) :
    parse C (text (.array ds)) = .ok [([], .array (values C ds))] := by
  obtain ⟨X, hX⟩ := text_array_head ds
  have hb : has_bracket (text (.array ds)) = true := by
    rw [has_bracket_iff, hX]; simp
  rw [parse_eq, hb]
  simp only [if_true]
  rw [array_at_doc C ds false hwf (text (.array ds)) 0 [] (by simp)]
  simp [C.emplace_nil]

theorem array_at_of_find (C : Container) {s : List Char} {pos b : Nat}
    (h : find s '[' pos = some b) : array_at C s pos = array_at C s b := by
  have hb : find s '[' b = some b := by
    rw [find_eq_some_iff] at h ⊢
    exact ⟨Nat.le_refl _, h.2.1, fun j h1 h2 => by omega⟩
  rw [array_at_eq, array_at_eq C s b, h, hb]

/-- The text the serializer writes for an object holding one array under the empty key is
parsed back to that object. -/
theorem parse_wrapped_doc (C : Container) (ds : List Doc) (hwf : WF_items false true ds) :
    parse C ('{' :: '"' :: '"' :: ':' :: (text (.array ds) ++ ['}'])) =
      .ok [([], .array (values C ds))] := by
  obtain ⟨X, hX⟩ := text_array_head ds
  have hb : has_bracket ('{' :: '"' :: '"' :: ':' :: (text (.array ds) ++ ['}'])) = true := by
    rw [has_bracket_iff, hX]; simp
  rw [parse_eq, hb]
  simp only [if_true]
  have hf : find ('{' :: '"' :: '"' :: ':' :: (text (.array ds) ++ ['}'])) '[' 0 = some 4 := by
    rw [hX]
    have := @find_skip_hit ('{' :: '"' :: '"' :: ':' :: ('[' :: X ++ ['}'])) '['
      0 ['{', '"', '"', ':'] (X ++ ['}']) (by simp) (by decide)
    simpa using this
  rw [array_at_of_find C hf,
    array_at_doc C ds false hwf _ 4 ['}'] (by simp)]
  simp [C.emplace_nil]

end JsonParser
namespace JsonParser
open Doc

theorem isDigit_not_bracket {x : Char} (h : x.isDigit = true) :
    x ≠ '{' ∧ x ≠ '}' ∧ x ≠ '[' ∧ x ≠ ']' := by
  refine ⟨?_, ?_, ?_, ?_⟩ <;> (intro e; rw [e] at h; revert h; decide)

theorem terminated_head {rest : List Char} (hr : Terminated rest) (n : Nat) {c : Char}
    {r : List Char} (h : rest.take n = c :: r) :
    c.isDigit = false ∧ c ≠ '.' ∧ c ≠ 'e' ∧ c ≠ 'E' ∧ c ≠ 'x' ∧ c ≠ 'X' := by
  rcases hr with rfl | ⟨c', r', rfl, hc⟩
  · simp at h
  · cases n with
    | zero => simp at h
    | succ n =>
      simp only [List.take_succ_cons, List.cons.injEq] at h
      obtain ⟨rfl, _⟩ := h
      rcases hc with rfl | rfl | rfl <;> decide

/-- A run of 1 to 15 digits is a number literal read as the double equal to it. -/
theorem numberReads_digits (ds : List Char) (hne : ds ≠ [])
    (hd : ∀ c ∈ ds, c.isDigit = true) (hlen : ds.length ≤ 15) :
    NumberReads ds (std.exact (std.digitsVal 10 ds)) := by
  refine ⟨?_, fun x hx => isDigit_not_bracket (hd x hx), ?_⟩
  · cases ds with
    | nil => exact absurd rfl hne
    | cons c r => exact ⟨c, r, rfl, hd c (List.mem_cons_self _ _)⟩
  · intro rest hr
    rw [List.take_append_eq_append_take, List.take_of_length_le (by omega)]
    exact std.stod_digits_exact ds _ hne hd hlen (fun c r h => terminated_head hr _ h)

theorem lit_scalar (io ia : Bool) (e : Lit) (h : e.ok) : Scalar io ia e.text e.value := by
  cases e with
  | true_ => exact Scalar.true
  | false_ => exact Scalar.false
  | null_ => exact Scalar.null
  | int ds => exact Scalar.number _ _ (numberReads_digits ds h.1 h.2.1 h.2.2)

theorem items_text_eq_intercalate : ∀ (ds : List Doc) (d : Doc),
    text d ++ items_tail ds = List.intercalate [','] ((d :: ds).map text)
  | [], d => by simp [items_tail, List.intercalate]
  | d' :: ds, d => by
    rw [items_tail, items_text_eq_intercalate ds d']
    simp only [List.map_cons]
    rw [json_serializer.intercalate_cons_cons]
    rfl

theorem text_array_eq (ds : List Doc) :
    text (.array ds) = '[' :: (List.intercalate [','] (ds.map text) ++ [']']) := by
  cases ds with
  | nil => rw [text]; rfl
  | cons d ds =>
    rw [text, ← items_text_eq_intercalate ds d]
    simp

theorem values_map (C : Container) (f : Lit → Doc) (hf : ∀ e, value C (f e) = e.value) :
    ∀ es : List Lit, values C (es.map f) = es.map Lit.value
  | [] => rfl
  | e :: es => by rw [List.map_cons, values, hf, values_map C f hf es]; rfl

theorem wf_items_map (io ia : Bool) : ∀ es : List Lit, (∀ e ∈ es, e.ok) →
    WF_items io ia (es.map (fun e => Doc.scalar e.text e.value))
  | [], _ => by rw [List.map_nil, WF_items]; trivial
  | e :: es, h => by
    rw [List.map_cons, WF_items, WF]
    exact ⟨lit_scalar io ia e (h e (List.mem_cons_self _ _)),
      wf_items_map io ia es (fun x hx => h x (List.mem_cons_of_mem _ hx))⟩

end JsonParser
namespace JsonParser

theorem match_close_no_open {o c : Char} (hoc : o ≠ c) : ∀ (w : List Char) (tmp : Nat),
    o ∉ w → match_close o c w tmp 1 = findFrom (fun x => x == c) w tmp
  | [], _, _ => rfl
  | x :: w, tmp, h => by
    have hxo : x ≠ o := fun e => h (by rw [e]; exact List.mem_cons_self _ _)
    by_cases hxc : x = c
    · subst hxc
      rw [match_close_final hoc, findFrom_hit _ _ (by simp)]
    · rw [match_close_step_neutral hxo hxc _ _ _ (Nat.le_refl 1), findFrom]
      have : (x == c) = false := by simpa using hxc
      simp only [this, Bool.false_eq_true, if_false]
      exact match_close_no_open hoc w (tmp + 1) (fun hm => h (List.mem_cons_of_mem _ hm))

end JsonParser
namespace JsonParser
open Doc

theorem any_key_iff (m : json_object) (k : json_name) :
    m.any (fun e => e.1 == k) = true ↔ m.filter (fun e => e.1 == k) ≠ [] := by
  induction m with
  | nil => simp
  | cons x m ih =>
    by_cases hx : x.1 = k
    · simp [hx]
    · have : (x.1 == k) = false := by simpa using hx
      simp only [List.any_cons, this, Bool.false_or, ih, ne_eq, List.filter_cons,
        Bool.false_eq_true, if_false]

theorem filter_emplace_same (C : Container) (m : json_object) (k : json_name)
    (v : json_value) (h : m.filter (fun e => e.1 == k) = []) :
    (C.emplace m k v).filter (fun e => e.1 == k) = [(k, v)] := by
  have hany : m.any (fun e => e.1 == k) = false := by
    rw [← Bool.not_eq_true, any_key_iff]; exact fun hne => hne h
  rw [Container.emplace, hany]
  simp only [Bool.false_eq_true, if_false]
  have hp := (C.place_perm m (k, v)).filter (fun e => e.1 == k)
  rw [List.filter_cons, h] at hp
  simp only [beq_self_eq_true, if_true] at hp
  exact List.perm_singleton.mp hp

theorem filter_emplace_other (C : Container) (m : json_object) (k k' : json_name)
    (v : json_value) (hk : k' ≠ k) :
    ((C.emplace m k' v).filter (fun e => e.1 == k)).Perm (m.filter (fun e => e.1 == k)) := by
  rw [Container.emplace]
  split
  · exact List.Perm.refl _
  · have hp := (C.place_perm m (k', v)).filter (fun e => e.1 == k)
    have : (k' == k) = false := by simpa using hk
    rw [List.filter_cons] at hp
    simpa [this] using hp

theorem filter_emplace_present (C : Container) (m : json_object) (k k' : json_name)
    (v v0 : json_value) (h : m.filter (fun e => e.1 == k) = [(k, v0)]) :
    (C.emplace m k' v).filter (fun e => e.1 == k) = [(k, v0)] := by
  by_cases hk : k' = k
  · subst hk
    have hany : m.any (fun e => e.1 == k') = true := by
      rw [any_key_iff, h]; simp
    rw [Container.emplace, hany]
    simpa using h
  · have hp := filter_emplace_other C m k k' v hk
    rw [h] at hp
    exact List.perm_singleton.mp hp

/-- The first entry of the text with a given key decides what the key maps to. -/
theorem filter_build (C : Container) (k : json_name) : ∀ (es : List (json_name × Doc))
    (out : json_object),
    (∀ v0, out.filter (fun e => e.1 == k) = [(k, v0)] →
      (build C es out).filter (fun e => e.1 == k) = [(k, v0)]) ∧
    (out.filter (fun e => e.1 == k) = [] →
      (build C es out).filter (fun e => e.1 == k) =
        match es.find? (fun e => e.1 == k) with
        | some e => [(k, value C e.2)]
        | none => [])
  | [], out => by
    rw [build]
    exact ⟨fun v0 h => h, fun h => by rw [h]; rfl⟩
  | e :: es, out => by
    rw [build]
    have ih := filter_build C k es (C.emplace out e.1 (value C e.2))
    refine ⟨fun v0 h => ih.1 v0 (filter_emplace_present C out k e.1 _ v0 h), fun h => ?_⟩
    by_cases hk : e.1 = k
    · have h1 := filter_emplace_same C out e.1 (value C e.2) (by rw [hk]; exact h)
      rw [hk] at h1
      rw [ih.1 _ (by rw [hk]; exact h1), List.find?_cons]
      simp [hk]
    · have hp := filter_emplace_other C out k e.1 (value C e.2) hk
      rw [h] at hp
      have h1 := List.perm_nil.mp hp
      rw [ih.2 h1, List.find?_cons]
      have : (e.1 == k) = false := by simpa using hk
      simp [this]

end JsonParser
namespace JsonParser
open Doc

theorem isDigit_ne_bracket {c : Char} (h : c.isDigit = true) : c ≠ '[' := by
  intro e; rw [e] at h; revert h; decide

mutual
theorem numObj_wf : ∀ (d : Doc), NumObj d → WF true false d ∧ '[' ∉ text d
  | .scalar t v, h => by
    rw [NumObj] at h
    obtain ⟨h1, h2, h3, rfl⟩ := h
    rw [WF, text]
    exact ⟨Scalar.number _ _ (numberReads_digits t h1 h2 h3),
      fun hm => isDigit_ne_bracket (h2 _ hm) rfl⟩
  | .array _, h => by rw [NumObj] at h; exact absurd h id
  | .object [], _ => by
    rw [WF, WF_entries, text]
    exact ⟨trivial, by decide⟩
  | .object (e :: es), h => by
    rw [NumObj, NumObj_entries] at h
    obtain ⟨⟨k1, k2, k3, k4⟩, hd, hes⟩ := h
    have h1 := numObj_wf e.2 hd
    have h2 := numObj_entries_wf es hes
    rw [WF, WF_entries, text]
    refine ⟨⟨⟨k1, k2, fun _ => ⟨k3, k4⟩, fun hf => by simp at hf⟩, h1.1, h2.1⟩, ?_⟩
    simp only [List.mem_cons, List.mem_append, List.mem_singleton, not_or]
    simp only [List.not_mem_nil, or_false]
    refine ⟨by decide, by decide, k2, by decide, by decide, h1.2, h2.2, by decide⟩
theorem numObj_entries_wf : ∀ (es : List (json_name × Doc)), NumObj_entries es →
    WF_entries true false es ∧ '[' ∉ entries_tail es
  | [], _ => by
    rw [WF_entries, entries_tail]
    exact ⟨trivial, by simp⟩
  | e :: es, h => by
    rw [NumObj_entries] at h
    obtain ⟨⟨k1, k2, k3, k4⟩, hd, hes⟩ := h
    have h1 := numObj_wf e.2 hd
    have h2 := numObj_entries_wf es hes
    rw [WF_entries, entries_tail]
    refine ⟨⟨⟨k1, k2, fun _ => ⟨k3, k4⟩, fun hf => by simp at hf⟩, h1.1, h2.1⟩, ?_⟩
    simp only [List.mem_cons, List.mem_append, not_or]
    refine ⟨by decide, by decide, k2, by decide, by decide, h1.2, h2.2⟩
end

end JsonParser
namespace JsonParser
open Doc json_value json_serializer

theorem entries_text_eq_intercalate : ∀ (es : List (json_name × Doc)) (e : json_name × Doc),
    '"' :: (e.1 ++ '"' :: ':' :: (text e.2 ++ entries_tail es)) =
      List.intercalate [','] ((e :: es).map (fun e => '"' :: (e.1 ++ '"' :: ':' :: text e.2)))
  | [], e => by simp [entries_tail, List.intercalate]
  | e' :: es, e => by
    rw [entries_tail, entries_text_eq_intercalate es e']
    simp only [List.map_cons]
    rw [intercalate_cons_cons]
    simp

theorem text_object_eq (es : List (json_name × Doc)) :
    text (.object es) = '{' :: (List.intercalate [',']
      (es.map (fun e => '"' :: (e.1 ++ '"' :: ':' :: text e.2))) ++ ['}']) := by
  cases es with
  | nil => rw [text]; rfl
  | cons e es =>
    rw [← entries_text_eq_intercalate es e, text]
    simp

mutual
theorem text_toDoc (fmt : double → List Char) : ∀ v, text (toDoc fmt v) = render fmt v
  | .null => by rw [toDoc, text, render]; rfl
  | .bool b => by rw [toDoc, text, render]; cases b <;> rfl
  | .number d => by rw [toDoc, text, render]
  | .string s => by rw [toDoc, text, render]; simp
  | .array data => by
    rw [toDoc, text_array_eq, render, texts_toDocs fmt data]
    cases data with
    | nil => rfl
    | cons x xs => simp
  | .object data => by
    rw [toDoc, text_object_eq, render, texts_toDocEntries fmt data]
    cases data with
    | nil => rfl
    | cons x xs => simp
theorem texts_toDocs (fmt : double → List Char) :
    ∀ xs, (toDocs fmt xs).map text = render_elements fmt xs
  | [] => rfl
  | x :: xs => by
    rw [toDocs, List.map_cons, render_elements, text_toDoc fmt x, texts_toDocs fmt xs]
theorem texts_toDocEntries (fmt : double → List Char) :
    ∀ es, (toDocEntries fmt es).map (fun e => '"' :: (e.1 ++ '"' :: ':' :: text e.2)) =
      render_entries fmt es
  | [] => rfl
  | e :: es => by
    rw [toDocEntries, List.map_cons, render_entries, text_toDoc fmt e.2,
      texts_toDocEntries fmt es]
    simp
end

theorem serialize_eq_text (fmt : double → List Char) (obj : json_object) :
    serialize fmt obj = text (.object (toDocEntries fmt obj)) := by
  rw [serialize, visit_eq_render, ← text_toDoc, toDoc]

mutual
theorem arrayContent_doc (C : Container) (fmt : double → List Char) :
    ∀ v, ArrayContent fmt v → WF false true (toDoc fmt v) ∧ value C (toDoc fmt v) = v
  | .null, _ => by rw [toDoc, WF, value]; exact ⟨Scalar.null, rfl⟩
  | .bool b, _ => by
    rw [toDoc, WF, value]
    cases b
    · exact ⟨Scalar.false, rfl⟩
    · exact ⟨Scalar.true, rfl⟩
  | .number d, h => by
    rw [ArrayContent] at h
    rw [toDoc, WF, value]
    exact ⟨Scalar.number _ _ h, rfl⟩
  | .string s, h => by
    rw [ArrayContent] at h
    rw [toDoc, WF, value]
    exact ⟨Scalar.string s h, rfl⟩
  | .array xs, h => by
    rw [ArrayContent] at h
    have := arrayContents_doc C fmt xs h
    rw [toDoc, WF, value]
    exact ⟨this.1, by rw [this.2]⟩
  | .object _, h => by rw [ArrayContent] at h; exact absurd h id
theorem arrayContents_doc (C : Container) (fmt : double → List Char) :
    ∀ xs, ArrayContents fmt xs →
      WF_items false true (toDocs fmt xs) ∧ values C (toDocs fmt xs) = xs
  | [], _ => by rw [toDocs, WF_items, values]; exact ⟨trivial, rfl⟩
  | x :: xs, h => by
    rw [ArrayContents] at h
    have h1 := arrayContent_doc C fmt x h.1
    have h2 := arrayContents_doc C fmt xs h.2
    rw [toDocs, WF_items, values]
    exact ⟨⟨h1.1, h2.1⟩, by rw [h1.2, h2.2]⟩
end

theorem flatValue_doc (C : Container) (fmt : double → List Char) (v : json_value)
    (h : FlatValue fmt v) :
    WF true false (toDoc fmt v) ∧ value C (toDoc fmt v) = v ∧ '[' ∉ text (toDoc fmt v) := by
  cases v with
  | null => rw [toDoc, WF, value, text]; exact ⟨Scalar.null, rfl, by decide⟩
  | bool b =>
    rw [toDoc, WF, value, text]
    cases b
    · exact ⟨Scalar.false, rfl, by decide⟩
    · exact ⟨Scalar.true, rfl, by decide⟩
  | number d =>
    rw [FlatValue] at h
    rw [toDoc, WF, value, text]
    exact ⟨Scalar.number _ _ h, rfl, fun hm => (h.2.1 _ hm).2.2.1 rfl⟩
  | string s =>
    rw [FlatValue] at h
    rw [toDoc, WF, value, text]
    refine ⟨Scalar.string s h, rfl, ?_⟩
    simp only [List.mem_cons, List.mem_append, List.mem_singleton, not_or, List.not_mem_nil,
      or_false]
    exact ⟨by decide, h.2.1, by decide⟩
  | array xs => rw [FlatValue] at h; exact absurd h id
  | object es => rw [FlatValue] at h; exact absurd h id

theorem not_mem_entries_tail : ∀ (es : List (json_name × Doc)),
    (∀ e ∈ es, '[' ∉ e.1 ∧ '[' ∉ text e.2) → '[' ∉ entries_tail es
  | [], _ => by rw [entries_tail]; simp
  | e :: es, h => by
    rw [entries_tail]
    have h1 := h e (List.mem_cons_self _ _)
    have h2 := not_mem_entries_tail es (fun x hx => h x (List.mem_cons_of_mem _ hx))
    simp only [List.mem_cons, List.mem_append, not_or]
    exact ⟨by decide, by decide, h1.1, by decide, by decide, h1.2, h2⟩

theorem not_mem_text_object (es : List (json_name × Doc))
    (h : ∀ e ∈ es, '[' ∉ e.1 ∧ '[' ∉ text e.2) : '[' ∉ text (.object es) := by
  cases es with
  | nil => rw [text]; decide
  | cons e es =>
    rw [text]
    have h1 := h e (List.mem_cons_self _ _)
    have h2 := not_mem_entries_tail es (fun x hx => h x (List.mem_cons_of_mem _ hx))
    simp only [List.mem_cons, List.mem_append, List.mem_singleton, not_or, List.not_mem_nil,
      or_false]
    exact ⟨by decide, by decide, h1.1, by decide, by decide, h1.2, h2, by decide⟩

theorem flatObject_doc (C : Container) (fmt : double → List Char) : ∀ (obj : json_object),
    FlatObject fmt obj →
      WF_entries true false (toDocEntries fmt obj) ∧
      (toDocEntries fmt obj).map (fun e => (e.1, value C e.2)) = obj ∧
      ∀ e ∈ toDocEntries fmt obj, '[' ∉ e.1 ∧ '[' ∉ text e.2
  | [], _ => by rw [toDocEntries, WF_entries]; exact ⟨trivial, rfl, by simp⟩
  | e :: es, h => by
    have h1 := h e (List.mem_cons_self _ _)
    have h2 := flatObject_doc C fmt es (fun x hx => h x (List.mem_cons_of_mem _ hx))
    have h3 := flatValue_doc C fmt e.2 h1.2
    rw [toDocEntries, WF_entries]
    refine ⟨⟨h1.1, h3.1, h2.1⟩, ?_, ?_⟩
    · rw [List.map_cons, h2.2.1, h3.2.1]
    · intro x hx
      rcases List.mem_cons.mp hx with rfl | hx
      · exact ⟨h1.1.2.1, h3.2.2⟩
      · exact h2.2.2 x hx

end JsonParser
namespace JsonParser
open Doc json_value json_serializer

theorem build_perm (C : Container) : ∀ (es : List (json_name × Doc)) (out : json_object),
    (es.map Prod.fst).Nodup → (∀ e ∈ es, ∀ x ∈ out, x.1 ≠ e.1) →
    (build C es out).Perm (out ++ es.map (fun e => (e.1, value C e.2)))
  | [], out, _, _ => by rw [build]; simp
  | e :: es, out, hnd, hdis => by
    rw [build]
    rw [List.map_cons, List.nodup_cons] at hnd
    have hany : out.any (fun x => x.1 == e.1) = false := by
      rw [← Bool.not_eq_true, List.any_eq_true]
      rintro ⟨x, hx, hxe⟩
      exact hdis e (List.mem_cons_self _ _) x hx (by simpa using hxe)
    have hem : C.emplace out e.1 (value C e.2) = C.place out (e.1, value C e.2) := by
      rw [Container.emplace, hany]; simp
    have hp := C.place_perm out (e.1, value C e.2)
    have ih := build_perm C es (C.place out (e.1, value C e.2)) hnd.2 (by
      intro e' he' x hx
      rcases List.mem_cons.mp (hp.mem_iff.mp hx) with rfl | hx
      · intro heq
        exact hnd.1 (List.mem_map.mpr ⟨e', he', heq.symm⟩)
      · exact hdis e' (List.mem_cons_of_mem _ he') x hx)
    rw [hem]
    refine ih.trans ?_
    rw [List.map_cons]
    exact (List.Perm.append_right _ hp).trans (by
      simpa using (@List.perm_middle _ (e.1, value C e.2) out
        (es.map (fun e => (e.1, value C e.2)))).symm)

theorem build_insertion (C : Container) (hC : ∀ m e, C.place m e = m ++ [e]) :
    ∀ (es : List (json_name × Doc)) (out : json_object),
    (es.map Prod.fst).Nodup → (∀ e ∈ es, ∀ x ∈ out, x.1 ≠ e.1) →
    build C es out = out ++ es.map (fun e => (e.1, value C e.2))
  | [], out, _, _ => by rw [build]; simp
  | e :: es, out, hnd, hdis => by
    rw [build]
    rw [List.map_cons, List.nodup_cons] at hnd
    have hany : out.any (fun x => x.1 == e.1) = false := by
      rw [← Bool.not_eq_true, List.any_eq_true]
      rintro ⟨x, hx, hxe⟩
      exact hdis e (List.mem_cons_self _ _) x hx (by simpa using hxe)
    have hem : C.emplace out e.1 (value C e.2) = out ++ [(e.1, value C e.2)] := by
      rw [Container.emplace, hany, ← hC]; simp
    rw [hem, build_insertion C hC es _ hnd.2 (by
      intro e' he' x hx
      rcases List.mem_append.mp hx with hx | hx
      · exact hdis e' (List.mem_cons_of_mem _ he') x hx
      · rw [List.mem_singleton] at hx
        subst hx
        intro heq
        exact hnd.1 (List.mem_map.mpr ⟨e', he', heq.symm⟩))]
    simp

theorem toDocEntries_keys (fmt : double → List Char) : ∀ (obj : json_object),
    (toDocEntries fmt obj).map Prod.fst = obj.map Prod.fst
  | [] => rfl
  | e :: es => by rw [toDocEntries, List.map_cons, List.map_cons, toDocEntries_keys fmt es]

end JsonParser
namespace JsonParser

theorem is_marker_iff (c : Char) : is_marker c = true ↔ Marker c := by
  simp only [is_marker, Marker, Bool.or_eq_true, beq_iff_eq, Bool.and_eq_true,
    decide_eq_true_eq, isDigit_iff]
  tauto

theorem find_marker_eq_some_iff : ∀ (w : List Char) (i j : Nat) (c : Char),
    find_marker w i = some (j, c) ↔
      i ≤ j ∧ w[j - i]? = some c ∧ is_marker c = true ∧
        ∀ k, k < j - i → ∀ x, w[k]? = some x → is_marker x = false
  | [], i, j, c => by simp [find_marker]
  | x :: xs, i, j, c => by
    rw [find_marker]
    by_cases hx : is_marker x = true
    · simp only [hx, if_true, Option.some.injEq, Prod.mk.injEq]
      constructor
      · rintro ⟨rfl, rfl⟩
        simp [hx]
      · rintro ⟨h1, h2, _, h3⟩
        have hji : j = i := by
          by_contra hne
          have hlt : 0 < j - i := by omega
          have := h3 0 hlt x (by simp)
          simp [hx] at this
        subst hji
        simp at h2
        exact ⟨rfl, h2⟩
    · simp only [hx, Bool.false_eq_true, if_false]
      rw [find_marker_eq_some_iff xs (i + 1) j c]
      have hx' : is_marker x = false := by simpa using hx
      constructor
      · rintro ⟨h1, h2, h3, h4⟩
        refine ⟨by omega, ?_, h3, ?_⟩
        · have : j - i = (j - (i + 1)) + 1 := by omega
          rw [this]; simpa using h2
        · intro k hk y hy
          cases k with
          | zero => simp at hy; subst hy; exact hx'
          | succ k => exact h4 k (by omega) y (by simpa using hy)
      · rintro ⟨h1, h2, h3, h4⟩
        have hij : i < j := by
          rcases Nat.eq_or_lt_of_le h1 with h | h
          · subst h
            simp at h2
            subst h2
            simp [hx'] at h3
          · exact h
        refine ⟨hij, ?_, h3, ?_⟩
        · have : j - i = (j - (i + 1)) + 1 := by omega
          rw [this] at h2; simpa using h2
        · intro k hk y hy
          exact h4 (k + 1) (by omega) y (by simpa using hy)

theorem find_marker_eq_none_iff : ∀ (w : List Char) (i : Nat),
    find_marker w i = none ↔ ∀ x ∈ w, is_marker x = false
  | [], i => by simp [find_marker]
  | x :: xs, i => by
    rw [find_marker]
    by_cases hx : is_marker x = true
    · simp [hx]
    · have hx' : is_marker x = false := by simpa using hx
      simp only [hx, Bool.false_eq_true, if_false, List.mem_cons, forall_eq_or_imp, hx',
        true_and]
      exact find_marker_eq_none_iff xs (i + 1)

theorem firstMarker_iff (s : List Char) (pos i : Nat) (c : Char) :
    find_marker (s.drop pos) pos = some (i, c) ↔ FirstMarker s pos i c := by
  rw [find_marker_eq_some_iff, FirstMarker]
  constructor
  · rintro ⟨h1, h2, h3, h4⟩
    refine ⟨h1, ?_, (is_marker_iff c).mp h3, ?_⟩
    · rw [List.getElem?_drop] at h2
      rwa [show pos + (i - pos) = i by omega] at h2
    · intro j hj hji x hx hm
      have := h4 (j - pos) (by omega) x (by
        rw [List.getElem?_drop, show pos + (j - pos) = j by omega]; exact hx)
      rw [(is_marker_iff x).mpr hm] at this
      exact absurd this (by decide)
  · rintro ⟨h1, h2, h3, h4⟩
    refine ⟨h1, ?_, (is_marker_iff c).mpr h3, ?_⟩
    · rw [List.getElem?_drop, show pos + (i - pos) = i by omega]; exact h2
    · intro k hk x hx
      rw [List.getElem?_drop] at hx
      have := h4 (pos + k) (by omega) (by omega) x hx
      cases hm : is_marker x with
      | false => rfl
      | true => exact absurd ((is_marker_iff x).mp hm) this

theorem no_marker_iff (s : List Char) (pos : Nat) :
    find_marker (s.drop pos) pos = none ↔
      ∀ j, pos ≤ j → ∀ x, s[j]? = some x → ¬ Marker x := by
  rw [find_marker_eq_none_iff]
  constructor
  · intro h j hj x hx hm
    have hmem : x ∈ s.drop pos := by
      rw [List.mem_iff_getElem?]
      exact ⟨j - pos, by rw [List.getElem?_drop, show pos + (j - pos) = j by omega]; exact hx⟩
    have := h x hmem
    rw [(is_marker_iff x).mpr hm] at this
    exact absurd this (by decide)
  · intro h x hx
    rw [List.mem_iff_getElem?] at hx
    obtain ⟨k, hk⟩ := hx
    rw [List.getElem?_drop] at hk
    have := h (pos + k) (by omega) x hk
    cases hm : is_marker x with
    | false => rfl
    | true => exact absurd ((is_marker_iff x).mp hm) this

theorem substr_eq_iff (s : List Char) (i : Nat) (w : List Char) (hw : w ≠ []) :
    (¬ (s.length < i + w.length) ∧ substr s i w.length = w) ↔ BytesAt s i w := by
  unfold BytesAt substr
  constructor
  · rintro ⟨_, h2⟩ k hk
    conv_rhs => rw [← h2]
    rw [List.getElem?_take_of_lt hk, List.getElem?_drop]
  · intro h
    have hlen : i + w.length ≤ s.length := by
      have hpos : 0 < w.length := List.length_pos.mpr hw
      have := h (w.length - 1) (by omega)
      rw [List.getElem?_eq_getElem (by omega : w.length - 1 < w.length)] at this
      have := (List.getElem?_eq_some_iff.mp this).1
      omega
    refine ⟨by omega, ?_⟩
    apply List.ext_getElem?
    intro k
    by_cases hk : k < w.length
    · rw [List.getElem?_take_of_lt hk, List.getElem?_drop]
      exact h k hk
    · rw [List.getElem?_eq_none (by simp; omega), List.getElem?_eq_none (by omega)]

end JsonParser
namespace std

theorem floorLog2_one_bounds_gen (n k : Nat) (h : n < 2 ^ (k + 1)) :
    -1 ≤ floorLog2 n 1 ∧ floorLog2 n 1 ≤ k := by
  unfold floorLog2
  have h1 : log2 1 = 0 := by decide
  have h2 : log2 n ≤ k := log2Aux_le n n k h
  simp only [h1]
  split <;> constructor <;> simp only [Int.ofNat_eq_coe] <;> omega

/-- An integer below `2^54` is within the range of binary64: the conversion returns a
double. -/
theorem toDouble_some (n : Nat) (h : n < 2 ^ 54) : ∃ d, toDouble 10 n 0 = some d := by
  unfold toDouble
  by_cases hn : n = 0
  · exact ⟨double.finite false 0 0, by simp [hn]⟩
  · simp only [hn, if_false]
    have c1 : ¬ ((1100 : Int) < 0) := by omega
    have c2 : ¬ (Int.ofNat (log2 n) + 1100 < -0) := by
      simp only [Int.ofNat_eq_coe]; omega
    simp only [c1, c2, if_false, le_refl, if_true, Int.toNat_zero, pow_zero, Nat.mul_one]
    obtain ⟨h1, h2⟩ := floorLog2_one_bounds_gen n 53 h
    unfold roundBinary64
    generalize floorLog2 n 1 = e at h1 h2
    have hu : max (e - 52) (-1074) = e - 52 := by omega
    simp only [hu]
    have c3 : ¬ (e < -1022 ∧ (if 0 ≤ e - 52 then n else n * 2 ^ (-(e - 52)).toNat) %
        (if 0 ≤ e - 52 then 1 * 2 ^ (e - 52).toNat else 1) ≠ 0) := by
      intro hh; omega
    rw [if_neg c3, if_neg (by omega)]
    exact ⟨_, rfl⟩

end std

namespace JsonParser

theorem runEnd_head {rest : List Char} (hr : RunEnd rest) (n : Nat) {c : Char}
    {r : List Char} (h : rest.take n = c :: r) :
    c.isDigit = false ∧ c ≠ '.' ∧ c ≠ 'e' ∧ c ≠ 'E' ∧ c ≠ 'x' ∧ c ≠ 'X' := by
  rcases hr with rfl | ⟨c', r', rfl, hc⟩
  · simp at h
  · cases n with
    | zero => simp at h
    | succ n =>
      simp only [List.take_succ_cons, List.cons.injEq] at h
      obtain ⟨rfl, _⟩ := h
      rcases hc with rfl | rfl | rfl | rfl <;> decide

/-- The number branch of `parse_value`. -/
theorem parse_value_digit (C : Container) (f : Nat) {s : List Char} {pos i : Nat} {c : Char}
    (rpos : Nat) (hm : find_marker (s.drop pos) pos = some (i, c)) (hc : c.isDigit = true)
    {d : double} {n : Nat} (hst : std.stod (substr s i 16) = .ok (d, n)) :
    parse_value C (f + 1) s pos rpos = .ok (.number d, i + n) := by
  rw [parse_value, hm]
  have hdig := (isDigit_iff c).mp hc
  simp only [digit_ne hc '{' (by decide), digit_ne hc '[' (by decide),
    digit_ne hc '"' (by decide), Bool.false_eq_true, if_false, hdig.1, hdig.2,
    decide_True, Bool.and_self, if_true, hst]

/-- The 16-byte window on a digit run. -/
theorem stod_window (ds rest : List Char) (hne : ds ≠ [])
    (hd : ∀ x ∈ ds, x.isDigit = true) (hrest : RunEnd rest) :
    ∃ d, std.toDouble 10 (std.digitsVal 10 (ds.take 16)) 0 = some d ∧
      std.stod ((ds ++ rest).take 16) = .ok (d, min ds.length 16) := by
  have hd16 : ∀ x ∈ ds.take 16, x.isDigit = true := fun x hx => hd x (List.mem_of_mem_take hx)
  have hne16 : ds.take 16 ≠ [] := by
    cases ds with
    | nil => exact absurd rfl hne
    | cons a r => simp
  have hlt := std.digitsVal_lt (ds.take 16) hd16
  have hlen : (ds.take 16).length = min ds.length 16 := by
    rw [List.length_take, Nat.min_comm]
  have h2 : 10 ^ (ds.take 16).length ≤ 10 ^ 16 :=
    Nat.pow_le_pow_right (by decide) (by rw [hlen]; omega)
  have h3 : (10 : Nat) ^ 16 < 2 ^ 54 := by decide
  obtain ⟨d, hdv⟩ := std.toDouble_some (std.digitsVal 10 (ds.take 16)) (by omega)
  refine ⟨d, hdv, ?_⟩
  rw [List.take_append_eq_append_take,
    std.stod_digits (ds.take 16) _ hne16 hd16 (fun c r h => runEnd_head hrest _ h), hdv, hlen]

theorem bytesAt_head {s : List Char} {i : Nat} {x : Char} {w : List Char}
    (h : BytesAt s i (x :: w)) : s[i]? = some x := by
  have := h 0 (by simp)
  simpa using this

theorem literal_branch (s : List Char) (i : Nat) (w : List Char) (hw : w ≠ [])
    {α : Type} (a b : α) :
    (if s.length < i + w.length || substr s i w.length != w then a else b) =
      if BytesAt s i w then b else a := by
  have h := substr_eq_iff s i w hw
  by_cases hb : BytesAt s i w
  · obtain ⟨h1, h2⟩ := h.mpr hb
    simp [h1, h2, hb]
  · rw [if_neg hb]
    by_cases h1 : s.length < i + w.length
    · simp [h1]
    · have h2 : substr s i w.length ≠ w := fun e => hb (h.mp ⟨h1, e⟩)
      simp [h1, h2]

end JsonParser
namespace JsonParser

/-- An opening bracket inside the text keeps the count above zero at the only closing
bracket, the last byte: the scan reaches the end of the buffer. -/
theorem match_close_open_inside {o c : Char} (hoc : o ≠ c) : ∀ (a : List Char)
    (tmp count : Nat), 1 ≤ count → c ∉ a → 2 ≤ count + a.count o →
    match_close o c (a ++ [c]) tmp count = none
  | [], tmp, count, h1, _, h2 => by
    simp only [List.count_nil, Nat.add_zero] at h2
    rw [List.nil_append, match_close_step_close hoc _ _ _ h2, match_close]
  | x :: a, tmp, count, h1, hc, h2 => by
    have hxc : x ≠ c := fun e => hc (by rw [e]; exact List.mem_cons_self _ _)
    have hc' : c ∉ a := fun h => hc (List.mem_cons_of_mem _ h)
    by_cases hxo : x = o
    · subst hxo
      rw [List.cons_append, match_close_step_open]
      apply match_close_open_inside hoc a _ _ (by omega) hc'
      rw [List.count_cons_self] at h2
      omega
    · rw [List.cons_append, match_close_step_neutral hxo hxc _ _ _ h1]
      apply match_close_open_inside hoc a _ _ h1 hc'
      rw [List.count_cons_of_ne (fun e => hxo e.symm)] at h2
      exact h2


/-- Where the bracket-matching loop breaks: at the first index at which the count, kept
from `count` on entry, is back at 0; the byte there is the closing bracket. -/
theorem match_close_spec {o c : Char} (hoc : o ≠ c) : ∀ (w : List Char) (tmp count t : Nat),
    1 ≤ count → match_close o c w tmp count = some t →
    ∃ k, t = tmp + k ∧ w[k]? = some c ∧
      (count : Int) + Int.ofNat ((w.take (k + 1)).count o)
        - Int.ofNat ((w.take (k + 1)).count c) = 0 ∧
      ∀ j, j < k → (count : Int) + Int.ofNat ((w.take (j + 1)).count o)
        - Int.ofNat ((w.take (j + 1)).count c) ≠ 0
  | [], _, _, _, _, h => by simp [match_close] at h
  | x :: xs, tmp, count, t, hc, h => by
    by_cases hxo : x = o
    · subst hxo
      have hxc : x ≠ c := hoc
      rw [match_close_step_open] at h
      obtain ⟨k, h1, h2, h3, h4⟩ := match_close_spec hoc xs (tmp + 1) (count + 1) t (by omega) h
      refine ⟨k + 1, by omega, by simpa using h2, ?_, ?_⟩
      · simp only [List.take_succ_cons]
        rw [List.count_cons_self, List.count_cons_of_ne (fun e => hxc e.symm)]
        simp only [Int.ofNat_eq_coe, Nat.cast_add, Nat.cast_one] at h3 ⊢
        omega
      · intro j hj
        cases j with
        | zero =>
          simp only [Nat.zero_add, List.take_succ_cons, List.take_zero]
          rw [List.count_cons_self, List.count_cons_of_ne (fun e => hxc e.symm)]
          simp only [List.count_nil, Int.ofNat_eq_coe, Nat.cast_add, Nat.cast_one,
            Nat.cast_zero]
          omega
        | succ j =>
          have := h4 j (by omega)
          simp only [List.take_succ_cons]
          rw [List.count_cons_self, List.count_cons_of_ne (fun e => hxc e.symm)]
          simp only [Int.ofNat_eq_coe, Nat.cast_add, Nat.cast_one] at this ⊢
          omega
    · by_cases hxc : x = c
      · subst hxc
        by_cases hc1 : count = 1
        · subst hc1
          rw [match_close_final hoc] at h
          refine ⟨0, by simpa using h.symm, by simp, ?_, by intro j hj; omega⟩
          simp only [Nat.zero_add, List.take_succ_cons, List.take_zero]
          rw [List.count_cons_self, List.count_cons_of_ne (fun e => hxo e.symm)]
          simp
        · rw [match_close_step_close hoc _ _ _ (by omega)] at h
          obtain ⟨k, h1, h2, h3, h4⟩ :=
            match_close_spec hoc xs (tmp + 1) (count - 1) t (by omega) h
          refine ⟨k + 1, by omega, by simpa using h2, ?_, ?_⟩
          · simp only [List.take_succ_cons]
            rw [List.count_cons_self, List.count_cons_of_ne (fun e => hxo e.symm)]
            simp only [Int.ofNat_eq_coe, Nat.cast_add, Nat.cast_one] at h3 ⊢
            omega
          · intro j hj
            cases j with
            | zero =>
              simp only [Nat.zero_add, List.take_succ_cons, List.take_zero]
              rw [List.count_cons_self, List.count_cons_of_ne (fun e => hxo e.symm)]
              simp only [List.count_nil, Int.ofNat_eq_coe, Nat.cast_add, Nat.cast_one,
                Nat.cast_zero]
              omega
            | succ j =>
              have := h4 j (by omega)
              simp only [List.take_succ_cons]
              rw [List.count_cons_self, List.count_cons_of_ne (fun e => hxo e.symm)]
              simp only [Int.ofNat_eq_coe, Nat.cast_add, Nat.cast_one] at this ⊢
              omega
      · rw [match_close_step_neutral hxo hxc _ _ _ hc] at h
        obtain ⟨k, h1, h2, h3, h4⟩ := match_close_spec hoc xs (tmp + 1) count t hc h
        refine ⟨k + 1, by omega, by simpa using h2, ?_, ?_⟩
        · simp only [List.take_succ_cons]
          rw [List.count_cons_of_ne (fun e => hxo e.symm),
            List.count_cons_of_ne (fun e => hxc e.symm)]
          exact h3
        · intro j hj
          cases j with
          | zero =>
            simp only [Nat.zero_add, List.take_succ_cons, List.take_zero]
            rw [List.count_cons_of_ne (fun e => hxo e.symm),
              List.count_cons_of_ne (fun e => hxc e.symm)]
            simp only [List.count_nil, Int.ofNat_eq_coe, Nat.cast_zero]
            omega
          | succ j =>
            have := h4 j (by omega)
            simp only [List.take_succ_cons]
            rw [List.count_cons_of_ne (fun e => hxo e.symm),
              List.count_cons_of_ne (fun e => hxc e.symm)]
            exact this

/-- The same in the vocabulary of the specification: `t` is the first index after the
opening bracket at `b` at which the nesting counter is 0, and it holds the closing
bracket. -/
theorem match_close_nesting {o c : Char} (hoc : o ≠ c) {s : List Char} {b t : Nat}
    (h : match_close o c (s.drop (b + 1)) (b + 1) 1 = some t) :
    b < t ∧ s[t]? = some c ∧ nesting o c s b t = 0 ∧
      ∀ j, b < j → j < t → nesting o c s b j ≠ 0 := by
  obtain ⟨k, h1, h2, h3, h4⟩ := match_close_spec hoc _ _ _ _ (Nat.le_refl 1) h
  subst h1
  refine ⟨by omega, ?_, ?_, ?_⟩
  · rw [List.getElem?_drop] at h2
    exact h2
  · unfold nesting substr
    rw [show b + 1 + k - b = k + 1 by omega]
    simpa using h3
  · intro j hj1 hj2
    have := h4 (j - b - 1) (by omega)
    unfold nesting substr
    rw [show j - b - 1 + 1 = j - b by omega] at this
    simpa using this

end JsonParser
namespace JsonParser

theorem object_loop_round (C : Container) (f : Nat) (s : List Char) (rpos cursor : Nat)
    (out : json_object) :
    object_loop C (f + 1) s rpos cursor out =
      match object_round C f s rpos cursor out with
      | .ok (.exit o) => .ok o
      | .ok (.next c o) => object_loop C f s rpos c o
      | .fail e => .fail e
      | .outOfFuel => .outOfFuel := by
  rw [object_loop, object_round]
  by_cases hc : cursor < rpos - 1
  · simp only [hc, if_true]
    cases parse_string s cursor with
    | outOfFuel => rfl
    | fail e => rfl
    | ok p =>
      obtain ⟨tmp_name, tmp⟩ := p
      simp only
      cases find s ':' tmp with
      | none => rfl
      | some colon =>
        simp only
        cases parse_value C f s (colon + 1) (rpos - 1) with
        | outOfFuel => rfl
        | fail e => rfl
        | ok q =>
          obtain ⟨v, tmp2⟩ := q
          simp only
          cases find s ',' tmp2 with
          | none => rfl
          | some comma => rfl
  · simp only [hc, if_false]

theorem array_loop_round (C : Container) (f : Nat) (s : List Char) (rpos cursor : Nat)
    (out : json_array) :
    array_loop C (f + 1) s rpos cursor out =
      match array_round C f s rpos cursor out with
      | .ok (.exit o) => .ok o
      | .ok (.next c o) => array_loop C f s rpos c o
      | .fail e => .fail e
      | .outOfFuel => .outOfFuel := by
  rw [array_loop, array_round]
  by_cases hc : cursor < rpos - 1
  · simp only [hc, if_true]
    cases parse_value C f s cursor (rpos - 1) with
    | outOfFuel => rfl
    | fail e => rfl
    | ok q =>
      obtain ⟨v, tmp2⟩ := q
      simp only
      cases find s ',' tmp2 with
      | none => rfl
      | some comma => rfl
  · simp only [hc, if_false]

theorem object_round_advance {C : Container} {f : Nat} {s : List Char} {rpos cursor c : Nat}
    {out o : json_object} (h : object_round C f s rpos cursor out = .ok (.next c o)) :
    cursor < c := by
  unfold object_round at h
  by_cases hc : cursor < rpos - 1
  · simp only [hc, if_true] at h
    cases h1 : parse_string s cursor with
    | outOfFuel => simp [h1] at h
    | fail e => simp [h1] at h
    | ok p =>
      obtain ⟨tmp_name, tmp⟩ := p
      simp only [h1] at h
      have e1 := parse_string_end h1
      cases h2 : find s ':' tmp with
      | none => simp [h2] at h
      | some colon =>
        simp only [h2] at h
        have e2 := find_some h2
        cases h3 : parse_value C f s (colon + 1) (rpos - 1) with
        | outOfFuel => simp [h3] at h
        | fail e => simp [h3] at h
        | ok q =>
          obtain ⟨v, tmp2⟩ := q
          simp only [h3] at h
          have e3 := parse_value_end h3
          cases h4 : find s ',' tmp2 with
          | none => simp [h4] at h
          | some comma =>
            simp only [h4, Result.ok.injEq, Round.next.injEq] at h
            have e4 := find_some h4
            omega
  · simp [hc] at h

theorem array_round_advance {C : Container} {f : Nat} {s : List Char} {rpos cursor c : Nat}
    {out o : json_array} (h : array_round C f s rpos cursor out = .ok (.next c o)) :
    cursor < c := by
  unfold array_round at h
  by_cases hc : cursor < rpos - 1
  · simp only [hc, if_true] at h
    cases h3 : parse_value C f s cursor (rpos - 1) with
    | outOfFuel => simp [h3] at h
    | fail e => simp [h3] at h
    | ok q =>
      obtain ⟨v, tmp2⟩ := q
      simp only [h3] at h
      have e3 := parse_value_end h3
      cases h4 : find s ',' tmp2 with
      | none => simp [h4] at h
      | some comma =>
        simp only [h4, Result.ok.injEq, Round.next.injEq] at h
        have e4 := find_some h4
        omega
  · simp [hc] at h

theorem parse_terminates (C : Container) (s : List Char) :
    (∃ o, parse C s = .ok o) ∨ ∃ e, parse C s = .fail e := by
  rw [parse_eq]
  by_cases hb : has_bracket s = true
  · simp only [hb, if_true]
    have := array_at_ne C s 0
    cases h : array_at C s 0 with
    | outOfFuel => exact absurd h this
    | fail e => exact Or.inr ⟨e, rfl⟩
    | ok p => exact Or.inl ⟨_, rfl⟩
  · have hb' : has_bracket s = false := by simpa using hb
    simp only [hb', Bool.false_eq_true, if_false]
    have := object_at_ne C s 0
    cases h : object_at C s 0 with
    | outOfFuel => exact absurd h this
    | fail e => exact Or.inr ⟨e, rfl⟩
    | ok p => exact Or.inl ⟨_, rfl⟩

end JsonParser
namespace JsonParser
open Doc json_value json_serializer

mutual
theorem plain_doc (fmt : double → List Char) :
    ∀ v, Plain v → WF true false (toDoc fmt v) ∧ '[' ∉ text (toDoc fmt v)
  | .null, _ => by rw [toDoc, WF, text]; exact ⟨Scalar.null, by decide⟩
  | .bool b, _ => by
    rw [toDoc, WF, text]
    cases b
    · exact ⟨Scalar.false, by decide⟩
    · exact ⟨Scalar.true, by decide⟩
  | .number _, h => by rw [Plain] at h; exact absurd h id
  | .string s, h => by
    rw [Plain] at h
    rw [toDoc, WF, text]
    refine ⟨Scalar.string s h, ?_⟩
    simp only [List.mem_cons, List.mem_append, List.mem_singleton, not_or]
    exact ⟨by decide, h.2.1, by decide⟩
  | .array _, h => by rw [Plain] at h; exact absurd h id
  | .object data, h => by
    rw [Plain] at h
    have := plainEntries_doc fmt data h.1
    rw [toDoc, WF]
    exact ⟨this.1, not_mem_text_object _ this.2⟩
theorem plainEntries_doc (fmt : double → List Char) :
    ∀ es, PlainEntries es →
      WF_entries true false (toDocEntries fmt es) ∧
      ∀ e ∈ toDocEntries fmt es, '[' ∉ e.1 ∧ '[' ∉ text e.2
  | [], _ => by rw [toDocEntries, WF_entries]; exact ⟨trivial, by simp⟩
  | e :: es, h => by
    rw [PlainEntries] at h
    have h1 := plain_doc fmt e.2 h.2.1
    have h2 := plainEntries_doc fmt es h.2.2
    rw [toDocEntries, WF_entries]
    refine ⟨⟨h.1, h1.1, h2.1⟩, ?_⟩
    intro x hx
    rcases List.mem_cons.mp hx with rfl | hx
    · exact ⟨h.1.2.1, h1.2⟩
    · exact h2.2 x hx
end

theorem toDocEntries_map (C : Container) (fmt : double → List Char) :
    ∀ (es : List (json_name × json_value)),
    (toDocEntries fmt es).map (fun e => (e.1, value C e.2)) =
      es.map (fun e => (e.1, value C (toDoc fmt e.2)))
  | [] => rfl
  | e :: es => by
    rw [toDocEntries, List.map_cons, List.map_cons, toDocEntries_map C fmt es]

mutual
theorem plain_same (C : Container) (fmt : double → List Char) :
    ∀ v, Plain v → SameMap v (value C (toDoc fmt v))
  | .null, _ => by rw [toDoc, value, SameMap]
  | .bool b, _ => by rw [toDoc, value, SameMap]
  | .number _, h => by rw [Plain] at h; exact absurd h id
  | .string s, _ => by rw [toDoc, value, SameMap]
  | .array _, h => by rw [Plain] at h; exact absurd h id
  | .object data, h => by
    rw [Plain] at h
    rw [toDoc, value, SameMap]
    have hp := build_perm C (toDocEntries fmt data) []
      (by rw [toDocEntries_keys]; exact h.2) (by intro e _ x hx; simp at hx)
    rw [List.nil_append, toDocEntries_map] at hp
    refine ⟨_, rfl, ?_, plainEntries_same C fmt data _ h.1 ?_⟩
    · have := hp.map Prod.fst
      simpa [Function.comp_def] using this
    · intro e he
      exact hp.symm.subset (List.mem_map.mpr ⟨e, he, rfl⟩)
theorem plainEntries_same (C : Container) (fmt : double → List Char) :
    ∀ (es : List (json_name × json_value)) (fs : json_object), PlainEntries es →
      (∀ e ∈ es, (e.1, value C (toDoc fmt e.2)) ∈ fs) → SameEntries es fs
  | [], _, _, _ => by rw [SameEntries]; trivial
  | e :: es, fs, h, hm => by
    rw [PlainEntries] at h
    rw [SameEntries]
    exact ⟨⟨_, hm e (List.mem_cons_self _ _), plain_same C fmt e.2 h.2.1⟩,
      plainEntries_same C fmt es fs h.2.2 (fun x hx => hm x (List.mem_cons_of_mem _ hx))⟩
end

mutual
theorem plain_value (C : Container) (hC : ∀ m e, C.place m e = m ++ [e])
    (fmt : double → List Char) : ∀ v, Plain v → value C (toDoc fmt v) = v
  | .null, _ => by rw [toDoc, value]
  | .bool b, _ => by rw [toDoc, value]
  | .number _, h => by rw [Plain] at h; exact absurd h id
  | .string s, _ => by rw [toDoc, value]
  | .array _, h => by rw [Plain] at h; exact absurd h id
  | .object data, h => by
    rw [Plain] at h
    rw [toDoc, value, build_insertion C hC _ _ (by rw [toDocEntries_keys]; exact h.2)
      (by intro e _ x hx; simp at hx), List.nil_append, toDocEntries_map,
      plainEntries_value C hC fmt data h.1]
theorem plainEntries_value (C : Container) (hC : ∀ m e, C.place m e = m ++ [e])
    (fmt : double → List Char) : ∀ (es : List (json_name × json_value)), PlainEntries es →
      es.map (fun e => (e.1, value C (toDoc fmt e.2))) = es
  | [], _ => rfl
  | e :: es, h => by
    rw [PlainEntries] at h
    rw [List.map_cons, plain_value C hC fmt e.2 h.2.1, plainEntries_value C hC fmt es h.2.2]
end

end JsonParser
namespace JsonParser

/-- C10. Empty containers: `{}` parses to the object with no entries, which serializes
to `{}`; `[]` parses to the object whose only entry maps the empty key to an array with
no elements, which serializes to `{"":[]}`, and that text parses to the same object. -/
theorem C10_empty_containers (C : Container) (fmt : double → List Char) :
    parse C "\x7b\x7d".toList = .ok [] ∧
    json_serializer.serialize fmt [] = "\x7b\x7d".toList ∧
    parse C "[]".toList = .ok [([], .array [])] ∧
    json_serializer.serialize fmt [([], .array [])] = "\x7b\"\":[]\x7d".toList ∧
    parse C (json_serializer.serialize fmt [([], .array [])]) = .ok [([], .array [])] := by
  have h1 : parse C "\x7b\x7d".toList = .ok [] := by with_unfolding_all rfl
  have h2 : json_serializer.serialize fmt [] = "\x7b\x7d".toList := by with_unfolding_all rfl
  have h3 : parse C "[]".toList = .ok (C.emplace [] [] (.array [])) := by
    with_unfolding_all rfl
  have h4 : json_serializer.serialize fmt [([], .array [])] = "\x7b\"\":[]\x7d".toList := by
    with_unfolding_all rfl
  have h5 : parse C "\x7b\"\":[]\x7d".toList = .ok (C.emplace [] [] (.array [])) := by
    with_unfolding_all rfl
  rw [C.emplace_nil] at h3 h5
  exact ⟨h1, h2, h3, h4, by rw [h4]; exact h5⟩

end JsonParser
namespace JsonParser

theorem parse_string_of_first {s : List Char} {pos q1 q2 : Nat}
    (h1 : FirstAt s '"' pos q1) (h2 : FirstAt s '"' (q1 + 1) q2) :
    parse_string s pos = .ok (substr s (q1 + 1) (q2 - q1 - 1), q2 + 1) := by
  unfold parse_string
  rw [(find_eq_some_iff s '"' pos q1).mpr h1]
  simp only
  rw [(find_eq_some_iff s '"' (q1 + 1) q2).mpr h2]
  simp only
  congr 3

/-- C8. Contract of `parse_string`: it succeeds exactly when a quote occurs at some index
`q1 >= pos` and another at some `q2 > q1`; with `q1` the first quote from `pos` and `q2`
the first quote after `q1` it returns the bytes at `q1+1 .. q2-1` unchanged and the end
position `q2+1` (a quote preceded by a backslash ends the string like any other); in every
other case it fails with "string not properly closed"; `{"a":"b}` fails that way. -/
theorem C8_parse_string_contract (s : List Char) (pos : Nat) :
    ((∃ r, parse_string s pos = .ok r) ↔
      ∃ q1 q2, pos ≤ q1 ∧ q1 < q2 ∧ s[q1]? = some '"' ∧ s[q2]? = some '"') ∧
    (∀ q1 q2, FirstAt s '"' pos q1 → FirstAt s '"' (q1 + 1) q2 →
      ∃ out, parse_string s pos = .ok (out, q2 + 1) ∧ out.length = q2 - q1 - 1 ∧
        ∀ k, k < out.length → out[k]? = s[q1 + 1 + k]?) ∧
    ((¬ ∃ r, parse_string s pos = .ok r) →
      parse_string s pos = .fail .unterminated_string) ∧
    parse_string "\"a\\\"b\"".toList 0 = .ok ("a\\".toList, 4) ∧
    (∀ C, parse C "\x7b\"a\":\"b\x7d".toList = .fail .unterminated_string) := by
  refine ⟨⟨?_, ?_⟩, ?_, ?_, ?_, ?_⟩
  · rintro ⟨r, hr⟩
    unfold parse_string at hr
    cases h1 : find s '"' pos with
    | none => simp [h1] at hr
    | some b =>
      simp only [h1] at hr
      cases h2 : find s '"' (b + 1) with
      | none => simp [h2] at hr
      | some c =>
        have f1 := (find_eq_some_iff _ _ _ _).mp h1
        have f2 := (find_eq_some_iff _ _ _ _).mp h2
        exact ⟨b, c, f1.1, f2.1, f1.2.1, f2.2.1⟩
  · rintro ⟨q1, q2, hq1, hq2, e1, e2⟩
    cases h1 : find s '"' pos with
    | none => exact absurd e1 ((find_eq_none_iff _ _ _).mp h1 q1 hq1)
    | some b =>
      have f1 := (find_eq_some_iff _ _ _ _).mp h1
      have hb : b ≤ q1 := by
        by_contra hlt
        exact f1.2.2 q1 hq1 (by omega) e1
      cases h2 : find s '"' (b + 1) with
      | none => exact absurd e2 ((find_eq_none_iff _ _ _).mp h2 q2 (by omega))
      | some c =>
        have f2 := (find_eq_some_iff _ _ _ _).mp h2
        exact ⟨_, parse_string_of_first f1 f2⟩
  · intro q1 q2 h1 h2
    refine ⟨_, parse_string_of_first h1 h2, ?_, ?_⟩
    · have hlt : q2 < s.length := by
        have := h2.2.1
        by_contra hge
        rw [List.getElem?_eq_none (by omega)] at this
        exact absurd this (by simp)
      have := h2.1
      simp only [substr, List.length_take, List.length_drop]
      omega
    · intro k hk
      simp only [substr, List.length_take, List.length_drop] at hk
      simp only [substr]
      rw [List.getElem?_take_of_lt (by omega), List.getElem?_drop]
  · intro hno
    unfold parse_string
    cases h1 : find s '"' pos with
    | none => rfl
    | some b =>
      simp only
      cases h2 : find s '"' (b + 1) with
      | none => rfl
      | some c =>
        exfalso
        apply hno
        exact ⟨_, parse_string_of_first ((find_eq_some_iff _ _ _ _).mp h1)
          ((find_eq_some_iff _ _ _ _).mp h2)⟩
  · rfl
  · intro C
    with_unfolding_all rfl

/-- Witness for C8 on the buffer `x"ab"y`. -/
theorem C8_parse_string_contract_witness :
    ∃ out, parse_string "x\"ab\"y".toList 0 = .ok (out, 4 + 1) ∧ out.length = 4 - 1 - 1 ∧
      ∀ k, k < out.length → out[k]? = "x\"ab\"y".toList[1 + 1 + k]? :=
  (C8_parse_string_contract "x\"ab\"y".toList 0).2.1 1 4
    ⟨by decide, by decide, by
      intro j _ hj
      have : j = 0 := by omega
      subst this; decide⟩
    ⟨by decide, by decide, by
      intro j h1 hj
      have : j = 2 ∨ j = 3 := by omega
      rcases this with rfl | rfl <;> decide⟩

end JsonParser
namespace JsonParser

/-- C7. A buffer without `[` that has no `{`, or whose nesting counter (1 just after the
first `{`, up on `{`, down on `}`) is never 0 at any later index, makes `parse` fail with
"unmatched curly braces"; `parse_object` raises it before the element loop is entered
(one unit of fuel, which affords no call of the loop, already gives the failure).
`{"a":1` is such a buffer. -/
theorem C7_unbalanced_braces (C : Container) (s : List Char) (hno : '[' ∉ s)
    (h : '{' ∉ s ∨ ∃ i, FirstAt s '{' 0 i ∧
      ∀ j, i < j → j < s.length → nesting '{' '}' s i j ≠ 0) :
    parse C s = .fail .unmatched_curly ∧ parse_object C 1 s 0 = .fail .unmatched_curly := by
  have key : ∀ f, parse_object C (f + 1) s 0 = .fail .unmatched_curly := by
    intro f
    rw [parse_object]
    rcases h with h | ⟨i, hi, hj⟩
    · rw [not_mem_of_find_none h]
    · rw [(find_eq_some_iff _ _ _ _).mpr hi]
      simp only
      rw [match_close_none (by decide) _ _ _ (Nat.le_refl 1)]
      intro k hk
      simp only [List.length_drop] at hk
      have := hj (i + 1 + k) (by omega) (by omega)
      simp only [nesting, substr] at this
      have e : i + 1 + k - i = k + 1 := by omega
      rw [e] at this
      simpa using this
  refine ⟨?_, key 0⟩
  have hb : has_bracket s = false := by
    rw [← Bool.not_eq_true, has_bracket_iff]; exact hno
  rw [parse, hb]
  simp only [Bool.false_eq_true, if_false, fuel]
  rw [key]

/-- Witness for C7: the buffer `{"a":1`. -/
theorem C7_unbalanced_braces_witness :
    parse Container.insertionOrder "\x7b\"a\":1".toList = .fail .unmatched_curly ∧
      parse_object Container.insertionOrder 1 "\x7b\"a\":1".toList 0 = .fail .unmatched_curly :=
  C7_unbalanced_braces Container.insertionOrder "\x7b\"a\":1".toList (by decide)
    (Or.inr ⟨0, ⟨by decide, by decide, by intro j _ hj; omega⟩, by
      intro j h1 h2
      have h3 : j < 6 := h2
      have : j = 1 ∨ j = 2 ∨ j = 3 ∨ j = 4 ∨ j = 5 := by omega
      rcases this with rfl | rfl | rfl | rfl | rfl <;> decide⟩)

/-- C4. Top-level dispatch: when `[` occurs anywhere in the buffer, `parse` returns the
object whose single entry maps the empty key to the array `parse_array` returns from
position 0, and fails with the exception of that call when it fails; when `[` occurs
nowhere, `parse` returns or fails as `parse_object` from position 0 does. The fuel never
runs out. -/
theorem C4_top_level_dispatch (C : Container) (s : List Char) :
    ('[' ∈ s →
      match parse_array C (fuel s) s 0 with
      | .ok (a, _) => parse C s = .ok [([], .array a)]
      | .fail e => parse C s = .fail e
      | .outOfFuel => False) ∧
    ('[' ∉ s →
      match parse_object C (fuel s) s 0 with
      | .ok (o, _) => parse C s = .ok o
      | .fail e => parse C s = .fail e
      | .outOfFuel => False) := by
  constructor
  · intro h
    have hb := (has_bracket_iff s).mpr h
    have hne := (fuel_enough C (fuel s)).2.2.1 s 0 (by simp [fuel])
    rw [parse, hb]
    cases hp : parse_array C (fuel s) s 0 with
    | outOfFuel => exact hne hp
    | fail e => simp
    | ok p => simp [C.emplace_nil]
  · intro h
    have hb : has_bracket s = false := by
      rw [← Bool.not_eq_true, has_bracket_iff]; exact h
    have hne := (fuel_enough C (fuel s)).1 s 0 (by simp [fuel])
    rw [parse, hb]
    cases hp : parse_object C (fuel s) s 0 with
    | outOfFuel => exact hne hp
    | fail e => simp
    | ok p => simp

/-- Witness for C4 on `[1,2,3]`, which holds a `[`. -/
theorem C4_top_level_dispatch_witness :
    match parse_array Container.insertionOrder (fuel "[1,2,3]".toList) "[1,2,3]".toList 0 with
    | .ok (a, _) => parse Container.insertionOrder "[1,2,3]".toList = .ok [([], .array a)]
    | .fail e => parse Container.insertionOrder "[1,2,3]".toList = .fail e
    | .outOfFuel => False :=
  (C4_top_level_dispatch Container.insertionOrder "[1,2,3]".toList).1 (by decide)

end JsonParser
namespace json_serializer

/-- C9. Serializer rendering rules: `serialize` is a total function and the text it writes
for any value is the reference rendering: `null`, `true` / `false`, the given number
formatting, a string between quotes with its bytes unchanged, `[]` or the elements in
stored order joined by single commas between `[` and `]`, `{}` or the entries `"key":value`
in iteration order joined by single commas between `{` and `}`. -/
theorem C9_serializer_rendering (fmt : double → List Char) :
    (∀ v, visit fmt v = render fmt v) ∧
    (∀ obj, serialize fmt obj = render fmt (.object obj)) ∧
    (∀ data, render fmt (.array data) =
      if data.isEmpty then "[]".toList
      else "[".toList ++ List.intercalate ",".toList (data.map (render fmt)) ++ "]".toList) ∧
    (∀ data, render fmt (.object data) =
      if data.isEmpty then "\x7b\x7d".toList
      else "\x7b".toList ++ List.intercalate ",".toList
        (data.map (fun e => "\"".toList ++ e.1 ++ "\":".toList ++ render fmt e.2))
        ++ "\x7d".toList) := by
  refine ⟨visit_eq_render fmt, fun obj => visit_eq_render fmt _, ?_, ?_⟩
  · intro data
    rw [render, render_elements_eq_map]
  · intro data
    rw [render, render_entries_eq_map]

end json_serializer
namespace JsonParser
open Doc

/-- C5. Top-level array convention and element order: the text `[e1,...,en]` (of any
length `n`) whose elements are `true`, `false`, `null` or unsigned decimal integers of at most 15 digits
parses to the object that maps the empty key to the array of the `n` denoted values, in
the order of the text; `[1,2,3]` parses to the array of 1, 2 and 3. -/
theorem C5_top_level_array (C : Container) (es : List Lit) (hok : ∀ e ∈ es, e.ok) :
    parse C (Lit.array_text es) = .ok [([], .array (es.map Lit.value))] ∧
    (es.map Lit.value).length = es.length ∧
    parse C "[1,2,3]".toList =
      .ok [([], .array [.number (.finite false 1 0), .number (.finite false 1 1),
        .number (.finite false 3 0)])] := by
  refine ⟨?_, List.length_map _ _, ?_⟩
  · have h := parse_array_doc C (es.map (fun e => Doc.scalar e.text e.value))
      (wf_items_map false true es hok)
    rw [text_array_eq, List.map_map, values_map C _ (fun e => by rw [value])] at h
    have e1 : (text ∘ fun e : Lit => Doc.scalar e.text e.value) = Lit.text := by
      funext e; simp [text]
    rw [e1] at h
    exact h
  · have h3 : parse C "[1,2,3]".toList = .ok (C.emplace [] [] (.array [.number (.finite false 1 0),
        .number (.finite false 1 1), .number (.finite false 3 0)])) := by
      with_unfolding_all rfl
    rw [h3, C.emplace_nil]

/-- Witness for C5: the text `[1,true,null,20]`. -/
theorem C5_top_level_array_witness :
    parse Container.insertionOrder
        (Lit.array_text [.int ['1'], .true_, .null_, .int ['2', '0']]) =
      .ok [([], .array ([Lit.int ['1'], Lit.true_, Lit.null_, Lit.int ['2', '0']].map
        Lit.value))] :=
  (C5_top_level_array Container.insertionOrder [.int ['1'], .true_, .null_, .int ['2', '0']]
    (by
      intro e he
      simp only [List.mem_cons, List.mem_singleton, List.not_mem_nil, or_false] at he
      rcases he with rfl | rfl | rfl | rfl
      · exact ⟨by simp, by decide, by decide⟩
      · trivial
      · trivial
      · exact ⟨by simp, by decide, by decide⟩)).1

end JsonParser
namespace JsonParser

/-- C6 (amended). A missing name/value separator: for every key `k` free of `"`, `[` and
`{` and every text `t` after the key that is free of `:`, `[` and `{` (a space and a
number, `true`, `false`, `null` or such a string), the text `{"k"` + `t` + `}` fails with
"name and value must be separated by ':'". -/
theorem C6_missing_colon (C : Container) (k t : List Char)
    (hk : '"' ∉ k ∧ '[' ∉ k ∧ '{' ∉ k) (ht : ':' ∉ t ∧ '[' ∉ t ∧ '{' ∉ t) :
    parse C ('{' :: '"' :: (k ++ '"' :: (t ++ ['}']))) = .fail .missing_colon := by
  obtain ⟨hk1, hk2, hk3⟩ := hk
  obtain ⟨ht1, ht2, ht3⟩ := ht
  have hno : '[' ∉ '{' :: '"' :: (k ++ '"' :: (t ++ ['}'])) := by
    simp [hk2, ht2]
  rw [parse_eq, (not_mem_iff_has_bracket _).mpr hno]
  simp only [Bool.false_eq_true, if_false]
  have hd0 : ('{' :: '"' :: (k ++ '"' :: (t ++ ['}']))).drop 0 =
      '{' :: ('"' :: (k ++ '"' :: (t ++ ['}']))) := rfl
  rw [object_at_eq, find_hit hd0]
  simp only
  have hd1 := drop_succ_of_drop hd0
  rw [hd1, match_close_no_open (by decide) _ _ (by simp [hk3, ht3])]
  cases hf : findFrom (fun x => x == '}') ('"' :: (k ++ '"' :: (t ++ ['}']))) (0 + 1) with
  | none =>
    rw [findFrom_eq_none_iff] at hf
    have := hf '}' (by simp)
    simp at this
  | some tmp =>
    simp only
    have hge : 0 + 1 + 1 ≤ tmp := by
      rw [findFrom, if_neg (by decide)] at hf
      exact (findFrom_some hf).1
    rw [object_loop_at_eq, if_pos (by omega), parse_string_at hd1 hk1]
    simp only
    have hd2 : ('{' :: '"' :: (k ++ '"' :: (t ++ ['}']))).drop (0 + 1 + k.length + 2) =
        t ++ ['}'] := by
      have h' : ('{' :: '"' :: (k ++ '"' :: (t ++ ['}']))).drop (0 + 1) =
          ('"' :: (k ++ ['"'])) ++ (t ++ ['}']) := by simp
      have e : 0 + 1 + k.length + 2 = 0 + 1 + ('"' :: (k ++ ['"'])).length := by
        simp only [List.length_cons, List.length_append, List.length_nil]; omega
      rw [e]
      exact drop_add_of_drop h'
    rw [find_of_drop hd2, (findFrom_eq_none_iff _ _).mpr (by
      intro x hx
      have : x ≠ ':' := by
        intro e
        rw [e] at hx
        simp [ht1] at hx
      simpa using this)]

/-- Witness for C6: `{"a" 1}` fails with the missing-colon message. -/
theorem C6_missing_colon_witness :
    parse Container.insertionOrder "\x7b\"a\" 1\x7d".toList = .fail .missing_colon :=
  C6_missing_colon Container.insertionOrder ['a'] [' ', '1'] (by decide) (by decide)

/-- Counterexample to C6 as stated: with a further entry after the value the colon of that
entry is taken as the separator and the text `{"a" 1,"b":2}` parses, to the object mapping
`a` to 2. -/
theorem C6_counterexample :
    parse Container.insertionOrder "\x7b\"a\" 1,\"b\":2\x7d".toList =
      .ok [("a".toList, .number (.finite false 1 1))] ∧
    parse Container.insertionOrder "\x7b\"a\" 1,\"b\":2\x7d".toList ≠ .fail .missing_colon := by
  have h : parse Container.insertionOrder "\x7b\"a\" 1,\"b\":2\x7d".toList =
      .ok [("a".toList, .number (.finite false 1 1))] := by with_unfolding_all rfl
  exact ⟨h, by rw [h]; simp⟩

end JsonParser
namespace JsonParser
open Doc

/-- C2 (amended). Duplicate keys: in an object text (well-formed, without `[`) the object
returned by `parse` has exactly one entry for every key `k` that occurs in the text, and
it maps `k` to the value of the FIRST entry with that key, since `emplace` leaves a key
that is present untouched; `{"a":1,"a":2}` parses to the object mapping `a` to 1. -/
theorem C2_duplicate_keys (C : Container) (es : List (json_name × Doc))
    (hwf : WF_entries true false es) (hno : '[' ∉ text (.object es))
    (k : json_name) (e : json_name × Doc)
    (hfirst : es.find? (fun x => x.1 == k) = some e) :
    (∃ o, parse C (text (.object es)) = .ok o ∧
      o.filter (fun x => x.1 == k) = [(k, value C e.2)]) ∧
    parse C "\x7b\"a\":1,\"a\":2\x7d".toList =
      .ok [("a".toList, .number (.finite false 1 0))] := by
  constructor
  · refine ⟨_, parse_object_doc C es hwf hno, ?_⟩
    rw [(filter_build C k es []).2 (by simp), hfirst]
  · have h : parse C "\x7b\"a\":1,\"a\":2\x7d".toList =
        .ok (C.emplace (C.emplace [] "a".toList (.number (.finite false 1 0))) "a".toList
          (.number (.finite false 1 1))) := by with_unfolding_all rfl
    rw [h, C.emplace_nil]
    simp [Container.emplace]

/-- Witness for C2: the document `{"a":1,"a":2}`, whose first entry for `a` holds 1. -/
theorem C2_duplicate_keys_witness :
    ∃ o, parse Container.newestFirst
        (text (.object [(['a'], .scalar ['1'] (.number (std.exact (std.digitsVal 10 ['1'])))),
          (['a'], .scalar ['2'] (.number (std.exact (std.digitsVal 10 ['2']))))])) = .ok o ∧
      o.filter (fun x => x.1 == ['a']) =
        [(['a'], value Container.newestFirst
          (.scalar ['1'] (.number (std.exact (std.digitsVal 10 ['1'])))))] :=
  (C2_duplicate_keys Container.newestFirst
    [(['a'], .scalar ['1'] (.number (std.exact (std.digitsVal 10 ['1'])))),
      (['a'], .scalar ['2'] (.number (std.exact (std.digitsVal 10 ['2']))))]
    (by
      simp only [WF_entries, WF, and_true]
      refine ⟨by simp [clean], Scalar.number _ _ (numberReads_digits _ (by simp) (by decide)
        (by decide)), by simp [clean], Scalar.number _ _ (numberReads_digits _ (by simp)
        (by decide) (by decide))⟩)
    (by simp [text, entries_tail])
    ['a'] _ rfl).1

/-- Counterexample to C2 as stated: `{"a":1,"a":2}` parses to the object mapping `a` to 1,
the first value, not to 2. -/
theorem C2_counterexample :
    parse Container.insertionOrder "\x7b\"a\":1,\"a\":2\x7d".toList =
      .ok [("a".toList, .number (.finite false 1 0))] ∧
    parse Container.insertionOrder "\x7b\"a\":1,\"a\":2\x7d".toList ≠
      .ok [("a".toList, .number (.finite false 1 1))] := by
  have h : parse Container.insertionOrder "\x7b\"a\":1,\"a\":2\x7d".toList =
      .ok [("a".toList, .number (.finite false 1 0))] := by with_unfolding_all rfl
  refine ⟨h, ?_⟩
  rw [h]
  simp

end JsonParser
namespace JsonParser
open Doc

/-- C1 (amended). Nested documents keep their nesting when they hold no array: a text
that is an object whose values are nested objects and unsigned integer literals parses to
the object tree the text spells out (entries placed by `emplace` in the order of the
text), as `{"a":{"b":1}}` does. A text with a `[` anywhere is parsed as a bare array
instead: `{"a":{"b":[1,2,3]}}` parses to the object mapping the empty key to the array of
1, 2, 3. -/
theorem C1_nested_documents (C : Container) (es : List (json_name × Doc))
    (h : NumObj (.object es)) :
    parse C (text (.object es)) = .ok (build C es []) ∧
    value C (.object es) = .object (build C es []) ∧
    parse C "\x7b\"a\":\x7b\"b\":1\x7d\x7d".toList =
      .ok [("a".toList, .object [("b".toList, .number (.finite false 1 0))])] ∧
    parse C "\x7b\"a\":\x7b\"b\":[1,2,3]\x7d\x7d".toList =
      .ok [([], .array [.number (.finite false 1 0), .number (.finite false 1 1),
        .number (.finite false 3 0)])] := by
  have hw := numObj_wf (.object es) h
  rw [WF] at hw
  refine ⟨parse_object_doc C es hw.1 hw.2, by rw [value], ?_, ?_⟩
  · have h1 : parse C "\x7b\"a\":\x7b\"b\":1\x7d\x7d".toList =
        .ok (C.emplace [] "a".toList (.object (C.emplace [] "b".toList
          (.number (.finite false 1 0))))) := by with_unfolding_all rfl
    rw [h1, C.emplace_nil, C.emplace_nil]
  · have h2 : parse C "\x7b\"a\":\x7b\"b\":[1,2,3]\x7d\x7d".toList =
        .ok (C.emplace [] [] (.array [.number (.finite false 1 0),
          .number (.finite false 1 1), .number (.finite false 3 0)])) := by
      with_unfolding_all rfl
    rw [h2, C.emplace_nil]

/-- Witness for C1: the document `{"a":{"b":12},"c":3}`. -/
theorem C1_nested_documents_witness :
    parse Container.insertionOrder
        (text (.object [(['a'], .object [(['b'], .scalar ['1', '2']
            (.number (std.exact (std.digitsVal 10 ['1', '2']))))]),
          (['c'], .scalar ['3'] (.number (std.exact (std.digitsVal 10 ['3']))))])) =
      .ok (build Container.insertionOrder
        [(['a'], .object [(['b'], .scalar ['1', '2']
            (.number (std.exact (std.digitsVal 10 ['1', '2']))))]),
          (['c'], .scalar ['3'] (.number (std.exact (std.digitsVal 10 ['3']))))] []) :=
  (C1_nested_documents Container.insertionOrder
    [(['a'], .object [(['b'], .scalar ['1', '2']
        (.number (std.exact (std.digitsVal 10 ['1', '2']))))]),
      (['c'], .scalar ['3'] (.number (std.exact (std.digitsVal 10 ['3']))))]
    (by
      simp only [NumObj, NumObj_entries, and_true]
      refine ⟨by decide, ⟨by decide, by simp, by decide, by decide⟩, by decide,
        by simp, by decide, by decide⟩)).1

/-- Counterexample to C1 as stated: `{"a":{"b":[1,2,3]}}` does not parse to the object
with root key `a`; the `[` sends the whole buffer to `parse_array` and the result maps the
empty key to the array. -/
theorem C1_counterexample :
    parse Container.insertionOrder "\x7b\"a\":\x7b\"b\":[1,2,3]\x7d\x7d".toList =
      .ok [([], .array [.number (.finite false 1 0), .number (.finite false 1 1),
        .number (.finite false 3 0)])] ∧
    parse Container.insertionOrder "\x7b\"a\":\x7b\"b\":[1,2,3]\x7d\x7d".toList ≠
      .ok [("a".toList, .object [("b".toList, .array [.number (.finite false 1 0),
        .number (.finite false 1 1), .number (.finite false 3 0)])])] := by
  have h : parse Container.insertionOrder "\x7b\"a\":\x7b\"b\":[1,2,3]\x7d\x7d".toList =
      .ok [([], .array [.number (.finite false 1 0), .number (.finite false 1 1),
        .number (.finite false 3 0)])] := by with_unfolding_all rfl
  refine ⟨h, ?_⟩
  rw [h]
  simp

end JsonParser
namespace JsonParser
open Doc json_value json_serializer

/-- C3 (amended). Serialize/parse round trip. (a) For an object with distinct keys, keys
and strings free of quote, brace and `[`, and values that are `Null`, `Boolean`, such
`String`s or `Number`s whose formatted text begins with a digit and is read back by the
16-byte numeric conversion: parsing the serialized text succeeds and returns the same
entries; when the container iterates in insertion order, or there is at most one entry,
it returns the object itself and serializing again gives the same text. (b) For the object
that holds one array under the empty key, with content `Null`, `Boolean`, readable
`Number`s, `String`s free of quote, `[` and `]`, and arrays of these: parsing the
serialized text returns the object itself. -/
theorem C3_round_trip (C : Container) (fmt : double → List Char) :
    (∀ obj : json_object, FlatObject fmt obj → (obj.map Prod.fst).Nodup →
      ∃ o, parse C (serialize fmt obj) = .ok o ∧ o.Perm obj ∧
        (((∀ m e, C.place m e = m ++ [e]) ∨ obj.length ≤ 1) →
          o = obj ∧ serialize fmt o = serialize fmt obj)) ∧
    (∀ xs : List json_value, ArrayContents fmt xs →
      ∃ o, parse C (serialize fmt [([], .array xs)]) = .ok o ∧ o = [([], .array xs)] ∧
        serialize fmt o = serialize fmt [([], .array xs)]) := by
  constructor
  · intro obj hflat hnd
    obtain ⟨hwf, hval, hno⟩ := flatObject_doc C fmt obj hflat
    have hp := parse_object_doc C (toDocEntries fmt obj) hwf (not_mem_text_object _ hno)
    rw [← serialize_eq_text] at hp
    have hnd' : ((toDocEntries fmt obj).map Prod.fst).Nodup := by
      rw [toDocEntries_keys]; exact hnd
    have hperm := build_perm C (toDocEntries fmt obj) [] hnd' (by simp)
    rw [hval, List.nil_append] at hperm
    refine ⟨_, hp, hperm, ?_⟩
    intro h
    have heq : build C (toDocEntries fmt obj) [] = obj := by
      rcases h with hC | hlen
      · rw [build_insertion C hC _ [] hnd' (by simp), hval, List.nil_append]
      · match obj, hlen, hperm with
        | [], _, hperm => exact List.perm_nil.mp hperm
        | [e], _, hperm => exact List.perm_singleton.mp hperm
        | _ :: _ :: _, hlen, _ => simp at hlen
    exact ⟨heq, by rw [heq]⟩
  · intro xs hxs
    obtain ⟨hwf, hval⟩ := arrayContents_doc C fmt xs hxs
    have hp := parse_wrapped_doc C (toDocs fmt xs) hwf
    rw [hval] at hp
    have htext : serialize fmt [([], .array xs)] =
        '{' :: '"' :: '"' :: ':' :: (text (.array (toDocs fmt xs)) ++ ['}']) := by
      rw [serialize_eq_text, toDocEntries, toDocEntries, toDoc, text]
      simp [entries_tail]
    rw [← htext] at hp
    exact ⟨_, hp, rfl, rfl⟩

/-- Witness for C3: the object `{"a":5,"b":"x"}` under a formatting that writes `5`. -/
theorem C3_round_trip_witness :
    ∃ o, parse Container.newestFirst (serialize (fun _ => ['5'])
        [(['a'], .number (std.exact (std.digitsVal 10 ['5']))), (['b'], .string ['x'])]) =
          .ok o ∧
      o.Perm [(['a'], .number (std.exact (std.digitsVal 10 ['5']))), (['b'], .string ['x'])] ∧
      (((∀ m e, Container.newestFirst.place m e = m ++ [e]) ∨
          [(['a'], json_value.number (std.exact (std.digitsVal 10 ['5']))),
            (['b'], json_value.string ['x'])].length ≤ 1) →
        o = [(['a'], .number (std.exact (std.digitsVal 10 ['5']))), (['b'], .string ['x'])] ∧
        serialize (fun _ => ['5']) o = serialize (fun _ => ['5'])
          [(['a'], .number (std.exact (std.digitsVal 10 ['5']))), (['b'], .string ['x'])]) :=
  (C3_round_trip Container.newestFirst (fun _ => ['5'])).1
    [(['a'], .number (std.exact (std.digitsVal 10 ['5']))), (['b'], .string ['x'])]
    (by
      intro e he
      simp only [List.mem_cons, List.mem_singleton, List.not_mem_nil, or_false] at he
      rcases he with rfl | rfl
      · exact ⟨by simp [clean], numberReads_digits ['5'] (by simp) (by decide) (by decide)⟩
      · exact ⟨by simp [clean], by simp [FlatValue, clean]⟩)
    (by decide)

/-- Counterexample to C3 as stated: the object `{"a":[]}` has only an array as value, yet
its text holds a `[`, is parsed as a bare array, and serializes to `{"":[]}` afterwards. -/
theorem C3_counterexample :
    parse Container.insertionOrder
        (serialize (fun _ => []) [("a".toList, .array [])]) = .ok [([], .array [])] ∧
    serialize (fun _ => []) [([], .array [])] ≠
      serialize (fun _ => []) [("a".toList, .array [])] := by
  refine ⟨by with_unfolding_all rfl, ?_⟩
  have h1 : serialize (fun _ => []) [([], .array [])] = "\x7b\"\":[]\x7d".toList := by
    with_unfolding_all rfl
  have h2 : serialize (fun _ => []) [("a".toList, .array [])] = "\x7b\"a\":[]\x7d".toList := by
    with_unfolding_all rfl
  rw [h1, h2]
  decide

end JsonParser
namespace JsonParser

/-- C15. Silent Null fallthrough: when no byte at an index at or after `pos` is a marker
(`{`, `[`, the quote, a digit, `n`, `t`, `f`) - in particular when `pos` is at or past
the end of the buffer - `parse_value` returns Null, raises nothing, and returns the end
position `rpos` exactly as the caller passed it in. -/
theorem C15_silent_null (C : Container) (f : Nat) (s : List Char) (pos rpos : Nat)
    (h : ∀ j, pos ≤ j → ∀ x, s[j]? = some x → ¬ Marker x) :
    parse_value C (f + 1) s pos rpos = .ok (.null, rpos) := by
  rw [parse_value, (no_marker_iff s pos).mpr h]

/-- Witness for C15: the buffer `: ,` scanned from index 1. -/
theorem C15_silent_null_witness :
    parse_value Container.insertionOrder 1 ": ,".toList 1 7 = .ok (.null, 7) :=
  C15_silent_null Container.insertionOrder 0 ": ,".toList 1 7 (by
    intro j hj x hx
    have h3 : j = 1 ∨ j = 2 ∨ 3 ≤ j := by omega
    rcases h3 with rfl | rfl | h3
    · simp at hx; subst hx; unfold Marker; decide
    · simp at hx; subst hx; unfold Marker; decide
    · rw [List.getElem?_eq_none (by simpa using h3)] at hx
      exact absurd hx (by simp))

/-- C11. Literal dispatch in `parse_value`: when the first marker byte at or after `pos` is
`n`, `t` or `f`, at index `i`, the call returns Null with end position `i+4` exactly when
the bytes at `i..i+3` are `null`, Boolean(true) with `i+4` exactly when they are `true`,
Boolean(false) with `i+5` exactly when the bytes at `i..i+4` are `false`, and fails with a
BadLiteral error in every other case. The bare texts `true`, `false`, `null` yield
Boolean(true), Boolean(false), Null. -/
theorem C11_literal_dispatch (C : Container) (f : Nat) (s : List Char) (pos rpos i : Nat)
    (c : Char) (hm : FirstMarker s pos i c) (hc : c = 'n' ∨ c = 't' ∨ c = 'f') :
    (parse_value C (f + 1) s pos rpos = .ok (.null, i + 4) ↔
      BytesAt s i ['n', 'u', 'l', 'l']) ∧
    (parse_value C (f + 1) s pos rpos = .ok (.bool true, i + 4) ↔
      BytesAt s i ['t', 'r', 'u', 'e']) ∧
    (parse_value C (f + 1) s pos rpos = .ok (.bool false, i + 5) ↔
      BytesAt s i ['f', 'a', 'l', 's', 'e']) ∧
    (¬ BytesAt s i ['n', 'u', 'l', 'l'] → ¬ BytesAt s i ['t', 'r', 'u', 'e'] →
      ¬ BytesAt s i ['f', 'a', 'l', 's', 'e'] →
      ∃ e, parse_value C (f + 1) s pos rpos = .fail e ∧ e.kind = .BadLiteral) ∧
    parse_value C 1 "true".toList 0 rpos = .ok (.bool true, 4) ∧
    parse_value C 1 "false".toList 0 rpos = .ok (.bool false, 5) ∧
    parse_value C 1 "null".toList 0 rpos = .ok (.null, 4) := by
  have hn := literal_branch s i ['n', 'u', 'l', 'l'] (by simp)
    (Result.fail parse_error.bad_null) (Result.ok (json_value.null, i + 4))
  have ht := literal_branch s i ['t', 'r', 'u', 'e'] (by simp)
    (Result.fail parse_error.bad_true) (Result.ok (json_value.bool true, i + 4))
  have hf := literal_branch s i ['f', 'a', 'l', 's', 'e'] (by simp)
    (Result.fail parse_error.bad_false) (Result.ok (json_value.bool false, i + 5))
  simp only [List.length_cons, List.length_nil, Nat.zero_add, Nat.reduceAdd] at hn ht hf
  have hsi : s[i]? = some c := hm.2.1
  have xn : BytesAt s i ['n', 'u', 'l', 'l'] → c = 'n' := fun h => by
    have := bytesAt_head h; rw [hsi] at this; exact Option.some.inj this
  have xt : BytesAt s i ['t', 'r', 'u', 'e'] → c = 't' := fun h => by
    have := bytesAt_head h; rw [hsi] at this; exact Option.some.inj this
  have xf : BytesAt s i ['f', 'a', 'l', 's', 'e'] → c = 'f' := fun h => by
    have := bytesAt_head h; rw [hsi] at this; exact Option.some.inj this
  refine ⟨?_, ?_, ?_, ?_, by with_unfolding_all rfl, by with_unfolding_all rfl,
    by with_unfolding_all rfl⟩
  all_goals rw [parse_value, (firstMarker_iff s pos i c).mpr hm]
  all_goals simp only
  all_goals rcases hc with rfl | rfl | rfl
  all_goals simp only [show ('n' == '{') = false from rfl, show ('n' == '[') = false from rfl,
    show ('n' == '"') = false from rfl, show ('n' == 'n') = true from rfl,
    show ('t' == '{') = false from rfl, show ('t' == '[') = false from rfl,
    show ('t' == '"') = false from rfl, show ('t' == 'n') = false from rfl,
    show ('t' == 't') = true from rfl,
    show ('f' == '{') = false from rfl, show ('f' == '[') = false from rfl,
    show ('f' == '"') = false from rfl, show ('f' == 'n') = false from rfl,
    show ('f' == 't') = false from rfl,
    show (decide ('0' ≤ 'n') && decide ('n' ≤ '9')) = false from by decide,
    show (decide ('0' ≤ 't') && decide ('t' ≤ '9')) = false from by decide,
    show (decide ('0' ≤ 'f') && decide ('f' ≤ '9')) = false from by decide,
    Bool.false_eq_true, if_false, if_true, hn, ht, hf]
  all_goals clear hn ht hf
  all_goals
    by_cases h1 : BytesAt s i ['n', 'u', 'l', 'l'] <;>
    by_cases h2 : BytesAt s i ['t', 'r', 'u', 'e'] <;>
    by_cases h3 : BytesAt s i ['f', 'a', 'l', 's', 'e'] <;>
    simp_all [parse_error.kind]

/-- Witness for C11: in ` true,` the first marker is the `t` at index 1. -/
theorem C11_literal_dispatch_witness :
    parse_value Container.insertionOrder 1 " true,".toList 0 9 = .ok (.bool true, 1 + 4) :=
  (C11_literal_dispatch Container.insertionOrder 0 " true,".toList 0 9 1 't'
    ⟨by decide, by decide, by unfold Marker; decide, by
      intro j _ hj x hx
      have : j = 0 := by omega
      subst this
      simp at hx; subst hx; unfold Marker; decide⟩
    (Or.inr (Or.inl rfl))).2.1.mpr (by decide)

/-- C13. The 16-byte numeric window: when the first marker byte at or after `pos` is the
first digit of a run `ds` of `k` decimal digits at index `i`, followed by the end of the
buffer, a comma, a closing bracket or a space, `parse_value` returns the Number that the
first `min k 16` digits denote (the double the conversion gives for that integer, which is
the integer itself for `k ≤ 15`) and the end position `i + min k 16`. For `k ≥ 17` the
literal is cut to its first 16 digits and no error is raised. -/
theorem C13_numeric_window (C : Container) (f : Nat) (s : List Char) (pos rpos i : Nat)
    (c : Char) (ds rest : List Char) (hm : FirstMarker s pos i c)
    (hrun : s.drop i = ds ++ rest) (hne : ds ≠ []) (hd : ∀ x ∈ ds, x.isDigit = true)
    (hrest : RunEnd rest) :
    ∃ d, std.toDouble 10 (std.digitsVal 10 (ds.take 16)) 0 = some d ∧
      parse_value C (f + 1) s pos rpos = .ok (.number d, i + min ds.length 16) ∧
      (ds.length ≤ 15 → d = std.exact (std.digitsVal 10 ds)) := by
  obtain ⟨d, h1, h2⟩ := stod_window ds rest hne hd hrest
  have hc : c.isDigit = true := by
    cases ds with
    | nil => exact absurd rfl hne
    | cons a r =>
      have h3 := getElem?_of_drop hrun
      rw [hm.2.1] at h3
      simp only [List.cons_append, List.getElem?_cons_zero, Option.some.injEq] at h3
      rw [h3]
      exact hd a (List.mem_cons_self _ _)
  refine ⟨d, h1, ?_, ?_⟩
  · exact parse_value_digit C f rpos ((firstMarker_iff s pos i c).mpr hm) hc
      (by rw [substr, hrun]; exact h2)
  · intro hlen
    rw [List.take_of_length_le (by omega), std.toDouble_exact] at h1
    · exact (Option.some.inj h1).symm
    · have h4 := std.digitsVal_lt ds hd
      have h5 : 10 ^ ds.length ≤ 10 ^ 15 := Nat.pow_le_pow_right (by decide) hlen
      have h6 : (10 : Nat) ^ 15 < 2 ^ 53 := by decide
      omega

/-- Witness for C13: a run of 17 digits is read up to its 16th digit. -/
theorem C13_numeric_window_witness :
    ∃ d, std.toDouble 10 (std.digitsVal 10 ("12345678901234567".toList.take 16)) 0 = some d ∧
      parse_value Container.insertionOrder 1 " 12345678901234567,8".toList 0 0 =
        .ok (.number d, 1 + min "12345678901234567".toList.length 16) ∧
      ("12345678901234567".toList.length ≤ 15 →
        d = std.exact (std.digitsVal 10 "12345678901234567".toList)) :=
  C13_numeric_window Container.insertionOrder 0 " 12345678901234567,8".toList 0 0 1 '1'
    "12345678901234567".toList ",8".toList
    ⟨by decide, by decide, by unfold Marker; decide, by
      intro j _ hj x hx
      have : j = 0 := by omega
      subst this
      simp at hx; subst hx; unfold Marker; decide⟩
    (by decide) (by decide) (by decide) (Or.inr ⟨',', ['8'], rfl, Or.inl rfl⟩)

/-- C16. A leading minus sign is not part of the number: for an unsigned decimal integer
literal `ds` of 1 to 15 digits, `parse_value` on `-` followed by `ds` returns the same
Number as on `ds` alone, the non-negative double equal to the integer (the end positions
are one past the digits in each text); `parse` of `{"a":-5}` maps `a` to Number 5. -/
theorem C16_leading_minus (C : Container) (f : Nat) (ds : List Char) (rpos : Nat)
    (hne : ds ≠ []) (hd : ∀ x ∈ ds, x.isDigit = true) (hlen : ds.length ≤ 15) :
    parse_value C (f + 1) ('-' :: ds) 0 rpos =
        .ok (.number (std.exact (std.digitsVal 10 ds)), 1 + ds.length) ∧
      parse_value C (f + 1) ds 0 rpos =
        .ok (.number (std.exact (std.digitsVal 10 ds)), ds.length) ∧
      (∃ m e, std.exact (std.digitsVal 10 ds) = double.finite false m e) ∧
      parse C "\x7b\"a\":-5\x7d".toList = .ok [("a".toList, .number (std.exact 5))] := by
  have hst : std.stod (ds.take 16) = .ok (std.exact (std.digitsVal 10 ds), ds.length) := by
    rw [List.take_of_length_le (by omega)]
    have := std.stod_digits_exact ds [] hne hd hlen (by intro c r h; simp at h)
    simpa using this
  obtain ⟨a, r, rfl⟩ := List.exists_cons_of_ne_nil hne
  have ha : a.isDigit = true := hd a (List.mem_cons_self _ _)
  refine ⟨?_, ?_, ?_, ?_⟩
  · have hm : find_marker (('-' :: a :: r).drop 0) 0 = some (1, a) := by
      rw [List.drop_zero, find_marker, if_neg (by decide), find_marker_hit _ _ (digit_is_marker ha)]
    exact parse_value_digit C f rpos hm ha (by simpa [substr] using hst)
  · have hm : find_marker ((a :: r).drop 0) 0 = some (0, a) := by
      rw [List.drop_zero, find_marker_hit _ _ (digit_is_marker ha)]
    have := parse_value_digit C f rpos hm ha (by simpa [substr] using hst)
    simpa using this
  · unfold std.exact std.canonical
    split
    · exact ⟨_, _, rfl⟩
    · exact ⟨_, _, rfl⟩
  · have h : parse C "\x7b\"a\":-5\x7d".toList =
        .ok (C.emplace [] "a".toList (.number (std.exact 5))) := by with_unfolding_all rfl
    rw [h, C.emplace_nil]

/-- Witness for C16: the literal `42`. -/
theorem C16_leading_minus_witness :
    parse_value Container.insertionOrder 1 "-42".toList 0 7 =
        .ok (.number (std.exact (std.digitsVal 10 "42".toList)), 1 + "42".toList.length) ∧
      parse_value Container.insertionOrder 1 "42".toList 0 7 =
        .ok (.number (std.exact (std.digitsVal 10 "42".toList)), "42".toList.length) ∧
      (∃ m e, std.exact (std.digitsVal 10 "42".toList) = double.finite false m e) ∧
      parse Container.insertionOrder "\x7b\"a\":-5\x7d".toList =
        .ok [("a".toList, .number (std.exact 5))] :=
  C16_leading_minus Container.insertionOrder 0 "42".toList 7 (by decide) (by decide) (by decide)

end JsonParser
namespace JsonParser

/-- C20. A whitespace-only array is not empty: for every non-empty run of `n` spaces,
`parse` of `[`, the spaces and `]` succeeds and yields the object that maps the empty key
to the array with exactly one element, Null - the element loop runs once and
`parse_value` finds no marker - whereas `[]` yields the array without elements. -/
theorem C20_whitespace_array (C : Container) (n : Nat) (hn : 1 ≤ n) :
    parse C ('[' :: (List.replicate n ' ' ++ [']'])) = .ok [([], .array [.null])] ∧
      parse C "[]".toList = .ok [([], .array [])] := by
  refine ⟨?_, by
    have h : parse C "[]".toList = .ok (C.emplace [] [] (.array [])) := by
      with_unfolding_all rfl
    rw [h, C.emplace_nil]⟩
  have hsp : ∀ x ∈ List.replicate n ' ', x = ' ' := fun x hx => (List.mem_replicate.mp hx).2
  have hmem : ∀ x ∈ List.replicate n ' ' ++ [']'], x = ' ' ∨ x = ']' := by
    intro x hx
    rcases List.mem_append.mp hx with h | h
    · exact Or.inl (hsp x h)
    · exact Or.inr (by simpa using h)
  have hb : has_bracket ('[' :: (List.replicate n ' ' ++ [']'])) = true := by
    rw [has_bracket_iff]; exact List.mem_cons_self _ _
  have hfind : find ('[' :: (List.replicate n ' ' ++ [']'])) '[' 0 = some 0 :=
    find_hit (w := List.replicate n ' ' ++ [']']) (by simp)
  have hclose : match_close '[' ']' (('[' :: (List.replicate n ' ' ++ [']'])).drop (0 + 1))
      (0 + 1) 1 = some (n + 1) := by
    simp only [Nat.zero_add, List.drop_succ_cons, List.drop_zero]
    rw [match_close_no_open (by decide), findFrom_skip, findFrom_hit]
    · simp [Nat.add_comm]
    · simp
    · intro x hx
      rw [hsp x hx]; rfl
    · intro h
      rcases hmem _ h with h | h <;> exact absurd h (by decide)
  have hval : value_at C ('[' :: (List.replicate n ' ' ++ [']'])) (0 + 1) (n + 1 + 1 - 1) =
      .ok (.null, n + 1) := by
    rw [value_at_eq]
    have : find_marker (('[' :: (List.replicate n ' ' ++ [']'])).drop (0 + 1)) (0 + 1) = none := by
      rw [find_marker_eq_none_iff]
      simp only [Nat.zero_add, List.drop_succ_cons, List.drop_zero]
      intro x hx
      rcases hmem _ hx with h | h <;> (rw [h]; rfl)
    rw [this]
    simp
  have hcomma : find ('[' :: (List.replicate n ' ' ++ [']'])) ',' (n + 1) = none := by
    apply not_mem_of_find_none
    intro h
    rcases List.mem_cons.mp h with h | h
    · exact absurd h (by decide)
    · rcases hmem _ h with h | h <;> exact absurd h (by decide)
  rw [parse_eq, hb, if_pos rfl, array_at_eq, hfind]
  simp only
  rw [hclose]
  simp only
  rw [array_loop_at_eq, if_pos (by omega), hval]
  simp only
  rw [hcomma]
  simp only [List.nil_append]
  rw [C.emplace_nil]

/-- Witness for C20: the text `[  ]`. -/
theorem C20_whitespace_array_witness :
    parse Container.insertionOrder ('[' :: (List.replicate 2 ' ' ++ [']'])) =
        .ok [([], .array [.null])] ∧
      parse Container.insertionOrder "[]".toList = .ok [([], .array [])] :=
  C20_whitespace_array Container.insertionOrder 2 (by decide)

/-- C19. Brace counting is not string-aware: for every string `s` that holds at least one
`{` and neither `}` nor `[`, `parse` of the text `{"k":"` followed by `s` and `"}` - an
object whose single String value is `s` - fails with the unmatched-curly-braces error, of
kind UnmatchedBrace: the brace inside the quotes is counted like a structural one. -/
theorem C19_braces_in_strings (C : Container) (s : List Char) (h1 : '{' ∈ s)
    (h2 : '}' ∉ s) (h3 : '[' ∉ s) :
    ∃ e, parse C ("\x7b\"k\":\"".toList ++ s ++ "\"\x7d".toList) = .fail e ∧
      e = .unmatched_curly ∧ e.kind = .UnmatchedBrace := by
  refine ⟨.unmatched_curly, ?_, rfl, rfl⟩
  have hb : has_bracket ("\x7b\"k\":\"".toList ++ s ++ "\"\x7d".toList) = false := by
    rw [← Bool.not_eq_true, has_bracket_iff]
    simp only [String.toList, List.mem_append, List.mem_cons, List.mem_singleton,
      List.not_mem_nil, or_false, not_or]
    exact ⟨⟨by decide, h3⟩, by decide⟩
  have hfind : find ("\x7b\"k\":\"".toList ++ s ++ "\"\x7d".toList) '{' 0 = some 0 :=
    find_hit (w := "\"k\":\"".toList ++ s ++ "\"\x7d".toList) (by simp)
  have hclose : match_close '{' '}'
      (("\x7b\"k\":\"".toList ++ s ++ "\"\x7d".toList).drop (0 + 1)) (0 + 1) 1 = none := by
    have e : ("\x7b\"k\":\"".toList ++ s ++ "\"\x7d".toList).drop (0 + 1) =
        ("\"k\":\"".toList ++ s ++ ['"']) ++ ['}'] := by simp
    rw [e]
    apply match_close_open_inside (by decide) _ _ _ (Nat.le_refl 1)
    · simp only [String.toList, List.mem_append, List.mem_cons, List.mem_singleton,
        List.not_mem_nil, or_false, not_or]
      exact ⟨⟨by decide, h2⟩, by decide⟩
    · have := List.count_pos_iff.mpr h1
      simp only [List.count_append]
      omega
  rw [parse_eq, hb]
  simp only [Bool.false_eq_true, if_false]
  rw [object_at_eq, hfind]
  simp only
  rw [hclose]

/-- Witness for C19: the text `{"k":"{"}`. -/
theorem C19_braces_in_strings_witness :
    ∃ e, parse Container.insertionOrder ("\x7b\"k\":\"".toList ++ "\x7b".toList ++ "\"\x7d".toList) =
      .fail e ∧ e = .unmatched_curly ∧ e.kind = .UnmatchedBrace :=
  C19_braces_in_strings Container.insertionOrder "\x7b".toList (by decide) (by decide) (by decide)

end JsonParser
namespace JsonParser

/-- C14. Matching-close end position: whenever `parse_object` (respectively `parse_array`)
succeeds from `pos`, the end position it returns is one past the first index `t` at which
the nesting counter - 1 just after the first `{` (respectively `[`) at or after `pos`, up
on an opening and down on a closing bracket - is back at 0, and the byte at `t` is the
closing bracket. The element loop, the colon and comma searches and nested calls have no
part in it. -/
theorem C14_matching_close (C : Container) (f : Nat) (s : List Char) (pos : Nat) :
    (∀ o e, parse_object C f s pos = .ok (o, e) →
      ∃ b t, FirstAt s '{' pos b ∧ b < t ∧ s[t]? = some '}' ∧
        nesting '{' '}' s b t = 0 ∧ (∀ j, b < j → j < t → nesting '{' '}' s b j ≠ 0) ∧
        e = t + 1) ∧
    (∀ a e, parse_array C f s pos = .ok (a, e) →
      ∃ b t, FirstAt s '[' pos b ∧ b < t ∧ s[t]? = some ']' ∧
        nesting '[' ']' s b t = 0 ∧ (∀ j, b < j → j < t → nesting '[' ']' s b j ≠ 0) ∧
        e = t + 1) := by
  constructor
  · intro o e h
    cases f with
    | zero => simp [parse_object] at h
    | succ f =>
      rw [parse_object] at h
      cases h1 : find s '{' pos with
      | none => simp [h1] at h
      | some b =>
        simp only [h1] at h
        cases h2 : match_close '{' '}' (s.drop (b + 1)) (b + 1) 1 with
        | none => simp [h2] at h
        | some tmp =>
          simp only [h2] at h
          obtain ⟨h3, h4, h5, h6⟩ := match_close_nesting (by decide) h2
          cases h7 : object_loop C f s (tmp + 1) (b + 1) [] with
          | outOfFuel => simp [h7] at h
          | fail e => simp [h7] at h
          | ok out =>
            simp only [h7, Result.ok.injEq, Prod.mk.injEq] at h
            exact ⟨b, tmp, (find_eq_some_iff _ _ _ _).mp h1, h3, h4, h5, h6, h.2.symm⟩
  · intro a e h
    cases f with
    | zero => simp [parse_array] at h
    | succ f =>
      rw [parse_array] at h
      cases h1 : find s '[' pos with
      | none => simp [h1] at h
      | some b =>
        simp only [h1] at h
        cases h2 : match_close '[' ']' (s.drop (b + 1)) (b + 1) 1 with
        | none => simp [h2] at h
        | some tmp =>
          simp only [h2] at h
          obtain ⟨h3, h4, h5, h6⟩ := match_close_nesting (by decide) h2
          cases h7 : array_loop C f s (tmp + 1) (b + 1) [] with
          | outOfFuel => simp [h7] at h
          | fail e => simp [h7] at h
          | ok out =>
            simp only [h7, Result.ok.injEq, Prod.mk.injEq] at h
            exact ⟨b, tmp, (find_eq_some_iff _ _ _ _).mp h1, h3, h4, h5, h6, h.2.symm⟩

/-- Witness for C14: an object closed at index 19 and an array closed at index 9, each
followed by further text. -/
theorem C14_matching_close_witness :
    (∃ b t, FirstAt " \x7b\"a\":\x7b\"b\":1\x7d,\"c\":2\x7d ,\x7b\x7d".toList '{' 0 b ∧ b < t ∧
        " \x7b\"a\":\x7b\"b\":1\x7d,\"c\":2\x7d ,\x7b\x7d".toList[t]? = some '}' ∧
        nesting '{' '}' " \x7b\"a\":\x7b\"b\":1\x7d,\"c\":2\x7d ,\x7b\x7d".toList b t = 0 ∧
        (∀ j, b < j → j < t → nesting '{' '}' " \x7b\"a\":\x7b\"b\":1\x7d,\"c\":2\x7d ,\x7b\x7d".toList b j ≠ 0) ∧
        20 = t + 1) ∧
    (∃ b t, FirstAt " [[1],[2]] ]".toList '[' 0 b ∧ b < t ∧
        " [[1],[2]] ]".toList[t]? = some ']' ∧
        nesting '[' ']' " [[1],[2]] ]".toList b t = 0 ∧
        (∀ j, b < j → j < t → nesting '[' ']' " [[1],[2]] ]".toList b j ≠ 0) ∧
        10 = t + 1) :=
  ⟨(C14_matching_close Container.insertionOrder 20 " \x7b\"a\":\x7b\"b\":1\x7d,\"c\":2\x7d ,\x7b\x7d".toList
      0).1 _ 20 (by with_unfolding_all rfl),
   (C14_matching_close Container.insertionOrder 20 " [[1],[2]] ]".toList 0).2 _ 10
      (by with_unfolding_all rfl)⟩

end JsonParser
namespace JsonParser

/-- C12. Failure is atomic: when the call of `parse()` on a parser object ends with an
exception, the object is left exactly as it was before the call - `m_obj` is assigned or
inserted into only after `parse_object` or `parse_array` has returned - so `get()` returns
what it returned before; for a freshly constructed parser that is the empty Object, and no
partially built tree is observable. The call fails exactly as `parse` on the buffer
does. -/
theorem C12_failure_atomic (C : Container) (p : State) (e : parse_error)
    (h : (State.parse C p).2 = .fail e) :
    parse C p.m_raw_data = .fail e ∧ (State.parse C p).1 = p ∧
      (State.parse C p).1.get = p.get ∧
      (p = State.init p.m_raw_data → (State.parse C p).1.get = []) := by
  have key : parse C p.m_raw_data = .fail e ∧ (State.parse C p).1 = p := by
    unfold State.parse at h ⊢
    unfold parse
    by_cases hb : has_bracket p.m_raw_data = true
    · simp only [hb, if_true] at h ⊢
      cases hp : parse_array C (fuel p.m_raw_data) p.m_raw_data 0 with
      | outOfFuel => simp [hp] at h
      | fail e' =>
        simp only [hp] at h ⊢
        have he : e' = e := Result.fail.inj h
        subst he
        constructor <;> first | rfl | trivial
      | ok r => simp [hp] at h
    · have hb' : has_bracket p.m_raw_data = false := by simpa using hb
      simp only [hb', Bool.false_eq_true, if_false] at h ⊢
      cases hp : parse_object C (fuel p.m_raw_data) p.m_raw_data 0 with
      | outOfFuel => simp [hp] at h
      | fail e' =>
        simp only [hp] at h ⊢
        have he : e' = e := Result.fail.inj h
        subst he
        constructor <;> first | rfl | trivial
      | ok r => simp [hp] at h
  refine ⟨key.1, key.2, by rw [key.2], fun hp => ?_⟩
  rw [key.2, hp]
  rfl

/-- Witness for C12: on `{"a":1,"b":tru}` the first entry has been built when the bad
literal is met; the parser still holds the empty Object. -/
theorem C12_failure_atomic_witness :
    parse Container.insertionOrder
        (State.init "\x7b\"a\":1,\"b\":tru\x7d".toList).m_raw_data = .fail .bad_true ∧
      (State.parse Container.insertionOrder (State.init "\x7b\"a\":1,\"b\":tru\x7d".toList)).1 =
        State.init "\x7b\"a\":1,\"b\":tru\x7d".toList ∧
      (State.parse Container.insertionOrder
        (State.init "\x7b\"a\":1,\"b\":tru\x7d".toList)).1.get =
        (State.init "\x7b\"a\":1,\"b\":tru\x7d".toList).get ∧
      (State.init "\x7b\"a\":1,\"b\":tru\x7d".toList =
          State.init (State.init "\x7b\"a\":1,\"b\":tru\x7d".toList).m_raw_data →
        (State.parse Container.insertionOrder
          (State.init "\x7b\"a\":1,\"b\":tru\x7d".toList)).1.get = []) :=
  C12_failure_atomic Container.insertionOrder (State.init "\x7b\"a\":1,\"b\":tru\x7d".toList)
    .bad_true (by with_unfolding_all rfl)

end JsonParser
namespace JsonParser

/-- C17. Parsing terminates on every input: `parse` returns an Object or fails with an
error; from every position each routine ends within fuel linear in the buffer left, and
more fuel does not change its result. Each round of the element loops of `parse_object`
and `parse_array` leaves the loop, fails, or goes on from a cursor strictly greater than
the one it started with. A loop begins just after the opening bracket at `b` of its call,
so its cursor stays above `b`, and every value it parses - hence every nested
`parse_object` or `parse_array` call, made at the marker found at or after the value
position - starts at an index strictly greater than `b`. -/
theorem C17_termination (C : Container) (s : List Char) :
    ((∃ o, parse C s = .ok o) ∨ ∃ e, parse C s = .fail e) ∧
    (∀ pos rpos f, 3 * (s.length - pos) + 3 ≤ f →
      (parse_object C f s pos ≠ .outOfFuel ∧ parse_array C f s pos ≠ .outOfFuel ∧
        parse_value C f s pos rpos ≠ .outOfFuel) ∧
      parse_object C (f + 1) s pos = parse_object C f s pos ∧
      parse_array C (f + 1) s pos = parse_array C f s pos ∧
      parse_value C (f + 1) s pos rpos = parse_value C f s pos rpos) ∧
    (∀ f rpos cursor out,
      object_loop C (f + 1) s rpos cursor out =
        match object_round C f s rpos cursor out with
        | .ok (.exit o) => .ok o
        | .ok (.next c o) => object_loop C f s rpos c o
        | .fail e => .fail e
        | .outOfFuel => .outOfFuel) ∧
    (∀ f rpos cursor out c o,
      object_round C f s rpos cursor out = .ok (.next c o) → cursor < c) ∧
    (∀ f rpos cursor out,
      array_loop C (f + 1) s rpos cursor out =
        match array_round C f s rpos cursor out with
        | .ok (.exit o) => .ok o
        | .ok (.next c o) => array_loop C f s rpos c o
        | .fail e => .fail e
        | .outOfFuel => .outOfFuel) ∧
    (∀ f rpos cursor out c o,
      array_round C f s rpos cursor out = .ok (.next c o) → cursor < c) ∧
    (∀ b cursor tmp_name tmp colon i c, b < cursor →
      parse_string s cursor = .ok (tmp_name, tmp) → find s ':' tmp = some colon →
      find_marker (s.drop (colon + 1)) (colon + 1) = some (i, c) → b < i) ∧
    (∀ b cursor i c, b < cursor → find_marker (s.drop cursor) cursor = some (i, c) →
      b < i) := by
  refine ⟨parse_terminates C s, ?_, fun f => object_loop_round C f s, fun _ _ _ _ _ _ h =>
    object_round_advance h, fun f => array_loop_round C f s, fun _ _ _ _ _ _ h =>
    array_round_advance h, ?_, ?_⟩
  · intro pos rpos f hf
    have h1 := (fuel_enough C f).1 s pos (by omega)
    have h2 := (fuel_enough C f).2.2.1 s pos (by omega)
    have h3 := (fuel_enough C f).2.2.2.2 s pos rpos hf
    exact ⟨⟨h1, h2, h3⟩, (fuel_succ C f).1 s pos h1, (fuel_succ C f).2.2.1 s pos h2,
      (fuel_succ C f).2.2.2.2 s pos rpos h3⟩
  · intro b cursor tmp_name tmp colon i c hb h1 h2 h3
    have e1 := parse_string_end h1
    have e2 := find_some h2
    have e3 := find_marker_some h3
    omega
  · intro b cursor i c hb h3
    have e3 := find_marker_some h3
    omega

/-- Witness for C17: the first round of the element loop on `{"a":1,"b":2}` moves the
cursor from 1 to 7. -/
theorem C17_termination_witness :
    object_round Container.insertionOrder 5 "\x7b\"a\":1,\"b\":2\x7d".toList 13 1 [] =
        .ok (.next 7 [("a".toList, .number (std.exact 1))]) ∧ 1 < 7 :=
  ⟨by with_unfolding_all rfl,
    (C17_termination Container.insertionOrder "\x7b\"a\":1,\"b\":2\x7d".toList).2.2.2.1
      5 13 1 [] 7 [("a".toList, .number (std.exact 1))] (by with_unfolding_all rfl)⟩

end JsonParser
namespace JsonParser
open Doc json_value json_serializer

/-- C18. Restricted round trip: for every Object `v` built only from Null, Boolean, String
and nested Objects (no Array, no Number), whose keys and strings hold no quote, `[` or
brace and whose keys are distinct at every level, `parse (serialize v)` succeeds and
returns an Object equal to `v` as a map: the same key set at every level, each key mapped
to an equal value. When the container keeps insertion order the result is `v` itself. -/
theorem C18_restricted_round_trip (C : Container) (fmt : double → List Char)
    (v : json_object) (h : Plain (.object v)) :
    ∃ o, parse C (serialize fmt v) = .ok o ∧ SameMap (.object v) (.object o) ∧
      ((∀ m e, C.place m e = m ++ [e]) → o = v) := by
  have hd := plain_doc fmt (.object v) h
  rw [toDoc, WF] at hd
  have hs := plain_same C fmt (.object v) h
  rw [toDoc, value] at hs
  refine ⟨build C (toDocEntries fmt v) [], ?_, hs, fun hC => ?_⟩
  · rw [serialize_eq_text]
    exact parse_object_doc C _ hd.1 hd.2
  · have := plain_value C hC fmt (.object v) h
    rw [toDoc, value] at this
    exact json_value.object.inj this

/-- Witness for C18: an object with a nested object, a string holding `,`, `:` and `]`, and
an empty object. -/
theorem C18_restricted_round_trip_witness :
    ∃ o, parse Container.newestFirst (serialize (fun _ => [])
        [("a".toList, .object [("b".toList, .string "x,y:]".toList), ("c".toList, .null)]),
          ("d".toList, .bool true), ("e".toList, .object [])]) = .ok o ∧
      SameMap (.object
        [("a".toList, .object [("b".toList, .string "x,y:]".toList), ("c".toList, .null)]),
          ("d".toList, .bool true), ("e".toList, .object [])]) (.object o) ∧
      ((∀ m e, Container.newestFirst.place m e = m ++ [e]) → o =
        [("a".toList, .object [("b".toList, .string "x,y:]".toList), ("c".toList, .null)]),
          ("d".toList, .bool true), ("e".toList, .object [])]) :=
  C18_restricted_round_trip Container.newestFirst (fun _ => [])
    [("a".toList, .object [("b".toList, .string "x,y:]".toList), ("c".toList, .null)]),
      ("d".toList, .bool true), ("e".toList, .object [])]
    (by simp [Plain, PlainEntries, Doc.clean])

end JsonParser
